import Mathlib

/-!
# jmp: a MessagePack decoder that fills a Go value through reflection

Shallow embedding of `decode.go` (package `jmp`), with the format constants of
`code_gen/parse.go`.

Modelling conventions.

* A Go `byte` is a `Fin 256`; a `[]byte` is a `List Byte`; a `nil` slice is `[]`.
* Go's `int` is taken to be 64 bits wide, with the largest value `maxInt`.  Offsets
  and lengths are never negative and are `Nat`.  The two sums of offsets the code
  computes before it has compared them with `len(data)`, in `readSize1` and in
  `readSizeN`, wrap beyond `maxInt`; there the embedding gives the panic of the
  index or slice expression that follows.  Every other offset is at most
  `len(data)`, which is at most `maxInt`.
* `int8(..)`, `int16(..)`, `int32(..)`, `int64(..)` conversions and the truncating
  store of `reflect.Value.SetInt` are `toSigned`, an explicit reduction modulo `2^w`.
* A `reflect.Value` that the decoder can reach is a `Value`: the Go type and the
  current content of an addressable slot.  Writing through `rv.Field(i)` is a
  functional update of field `i`.
* A function of the source that returns `(.., error)` returns a `Ret`: a result, an
  error or a panic; the dispatcher, which also mutates its destination and can
  panic inside `reflect`, returns the destination after the call together with a
  `Ret`.
* `decode` recurses on the destination (a struct field is decoded by a nested
  call); the embedding recurses on a fuel argument and `decode_total` shows that
  `Value.depth` fuel always suffices.
-/

namespace Jmp

/-! ## Format catalog (`code_gen/parse.go`) -/

abbrev Byte := Fin 256

def FixMap : Nat := 0x80
def FixStr : Nat := 0xa0
def Nil : Nat := 0xc0
def Int8 : Nat := 0xd0
def Int16 : Nat := 0xd1
def Int32 : Nat := 0xd2
def Int64 : Nat := 0xd3
def Str8 : Nat := 0xd9
def Str16 : Nat := 0xda
def Str32 : Nat := 0xdb
def Map16 : Nat := 0xde
def Map32 : Nat := 0xdf

def Byte1 : Nat := 1
def Byte2 : Nat := 2
def Byte4 : Nat := 4
def Byte8 : Nat := 8

/-! ## Kinds, values, errors -/

/-- The kinds of `reflect.Kind`. -/
inductive Kind where
  | invalid | bool | int | int8 | int16 | int32 | int64
  | uint | uint8 | uint16 | uint32 | uint64 | uintptr
  | float32 | float64 | complex64 | complex128
  | array | chan | func | interface | map | pointer | slice
  | string | struct | rawPointer
deriving DecidableEq, Repr

/-- The signed integer kinds, the ones the dispatcher sends to `asInt`. -/
inductive IntKind where
  | int | int8 | int16 | int32 | int64
deriving DecidableEq, Repr

/-- Width in bits of a signed integer kind (`int` is 64 bits). -/
def IntKind.bits : IntKind → Nat
  | .int => 64
  | .int8 => 8
  | .int16 => 16
  | .int32 => 32
  | .int64 => 64

def IntKind.toKind : IntKind → Kind
  | .int => .int
  | .int8 => .int8
  | .int16 => .int16
  | .int32 => .int32
  | .int64 => .int64

/-- The kinds that are neither struct, nor a signed integer, nor string. -/
inductive OtherKind where
  | invalid | bool
  | uint | uint8 | uint16 | uint32 | uint64 | uintptr
  | float32 | float64 | complex64 | complex128
  | array | chan | func | interface | map | pointer | slice | rawPointer
deriving DecidableEq, Repr

def OtherKind.toKind : OtherKind → Kind
  | .invalid => .invalid
  | .bool => .bool
  | .uint => .uint
  | .uint8 => .uint8
  | .uint16 => .uint16
  | .uint32 => .uint32
  | .uint64 => .uint64
  | .uintptr => .uintptr
  | .float32 => .float32
  | .float64 => .float64
  | .complex64 => .complex64
  | .complex128 => .complex128
  | .array => .array
  | .chan => .chan
  | .func => .func
  | .interface => .interface
  | .map => .map
  | .pointer => .pointer
  | .slice => .slice
  | .rawPointer => .rawPointer

/-- What `CheckField` reads of a `reflect.StructField`: the declared name, which Go
never leaves empty (first byte `name0`, then `nameRest`), and the value of the
`msgpack` key of the tag (`[]` when the key is absent). -/
structure FieldInfo where
  name0 : Byte
  nameRest : List Byte
  tag : List Byte
deriving DecidableEq, Repr

def FieldInfo.name (f : FieldInfo) : List Byte := f.name0 :: f.nameRest

/-- An addressable destination slot: its Go type and its current content.
The content of a slot of another kind is never read nor written. -/
inductive Value where
  | int (k : IntKind) (v : Int)
  | str (s : List Byte)
  | struct (fs : List (FieldInfo × Value))
  | other (k : OtherKind)
deriving Repr

/-- Go's `rv.Kind()`. -/
def Value.kind : Value → Kind
  | .int k _ => k.toKind
  | .str _ => .string
  | .struct _ => .struct
  | .other k => k.toKind

mutual
/-- Struct-nesting depth of a destination. -/
def Value.depth : Value → Nat
  | .int _ _ => 1
  | .str _ => 1
  | .other _ => 1
  | .struct fs => 1 + Value.depthList fs
/-- Largest depth among the fields of a struct. -/
def Value.depthList : List (FieldInfo × Value) → Nat
  | [] => 0
  | (_, v) :: rest => max (Value.depth v) (Value.depthList rest)
end

/-- The errors the package builds, by the text of their message. -/
inductive Error where
  /-- The message "data is empty". -/
  | emptyData
  /-- The message "holder must set pointer value. but got: ..". -/
  | notPointer
  /-- The message "failed deserialization size=.., last=..". -/
  | sizeMismatch (size last : Nat)
  /-- The message "type(..) is unsupported". -/
  | unsupportedType (k : Kind)
  /-- The message "msgpack : invalid code .. decoding ..", from `errorTemplate`. -/
  | invalidCode (code : Byte) (k : Kind)
  /-- The message "too short bytes". -/
  | tooShort
  /-- The message "data length lacks to create map". -/
  | mapLack
deriving DecidableEq, Repr

/-- The run-time panics the decoder can raise. -/
inductive Panic where
  /-- The panic of `reflect.Value.Field` called with an index outside
  `0 .. NumField-1`. -/
  | fieldIndexOutOfRange (i : Int)
  /-- The panic "index out of range" of an index expression `d.data[index]`. -/
  | indexOutOfRange
  /-- The panic "slice bounds out of range" of a slice expression
  `d.data[index : index+n]`. -/
  | sliceBounds
deriving DecidableEq, Repr

/-- How a call that may panic ends. -/
inductive Ret (α : Type) where
  | ok (a : α)
  | error (e : Error)
  | panic (p : Panic)
deriving DecidableEq, Repr

/-! ## Numeric conversions -/

/-- Conversion of an integer to the signed type of `bits` bits: the value in
`[-2^(bits-1), 2^(bits-1))` congruent to `v` modulo `2^bits`. -/
def toSigned (bits : Nat) (v : Int) : Int :=
  if v % 2 ^ bits < 2 ^ (bits - 1) then v % 2 ^ bits else v % 2 ^ bits - 2 ^ bits

/-- Go's `binary.BigEndian.Uint16/32/64` on a slice of 2, 4 or 8 bytes. -/
def bigEndian (bs : List Byte) : Nat :=
  bs.foldl (fun acc b => acc * 256 + b.val) 0

/-! ## Byte cursor -/

/-- The largest value of Go's `int` (64 bits), which bounds the length of a slice. -/
def maxInt : Nat := 9223372036854775807

/-- The sum `index+rb` is a sum of Go ints.  Within `len(d.data)` it is exact.  Beyond
`maxInt` it wraps to a negative value: the test `len(d.data) < index+rb` is then
false and the index expression `d.data[index]` panics. -/
def readSize1 (data : List Byte) (index : Nat) : Ret (Byte × Nat) :=
  let rb := Byte1
  if data.length < index + rb then
    if index + rb ≤ maxInt then .error .tooShort
    else .panic .indexOutOfRange
  else .ok (data.getD index 0, index + rb)

/-- The sum `index+n` is a sum of Go ints.  Within `len(d.data)` it is exact.  Beyond
`maxInt` it wraps to a negative value: the test `len(d.data) < index+n` is then
false and the slice expression `d.data[index : index+n]` panics. -/
def readSizeN (data : List Byte) (index n : Nat) : Ret (List Byte × Nat) :=
  if data.length < index + n then
    if index + n ≤ maxInt then .error .tooShort
    else .panic .sliceBounds
  else .ok ((data.drop index).take n, index + n)

def readSize2 (data : List Byte) (index : Nat) : Ret (List Byte × Nat) :=
  readSizeN data index Byte2

def readSize4 (data : List Byte) (index : Nat) : Ret (List Byte × Nat) :=
  readSizeN data index Byte4

def readSize8 (data : List Byte) (index : Nat) : Ret (List Byte × Nat) :=
  readSizeN data index Byte8

/-! ## Scalar decoders -/

def errorTemplate (code : Byte) (k : Kind) : Error := .invalidCode code k

def asInt (data : List Byte) (offset : Nat) (k : Kind) : Ret (Int × Nat) :=
  match readSize1 data offset with
  | .error e => .error e
  | .panic p => .panic p
  | .ok (code, _) =>
    if code.val = Int8 then
      match readSize1 data (offset + 1) with
      | .error e => .error e
      | .panic p => .panic p
      | .ok (b, offset) => .ok (toSigned 64 (toSigned 8 b.val), offset)
    else if code.val = Int16 then
      match readSize2 data (offset + 1) with
      | .error e => .error e
      | .panic p => .panic p
      | .ok (bs, offset) => .ok (toSigned 64 (toSigned 16 (bigEndian bs)), offset)
    else if code.val = Int32 then
      match readSize4 data (offset + 1) with
      | .error e => .error e
      | .panic p => .panic p
      | .ok (bs, offset) => .ok (toSigned 64 (toSigned 32 (bigEndian bs)), offset)
    else if code.val = Int64 then
      match readSize8 data (offset + 1) with
      | .error e => .error e
      | .panic p => .panic p
      | .ok (bs, offset) => .ok (toSigned 64 (bigEndian bs), offset)
    else if code.val = Nil then
      .ok (0, offset + 1)
    else .error (errorTemplate code k)

def stringByteLength (data : List Byte) (offset : Nat) (k : Kind) : Ret (Nat × Nat) :=
  match readSize1 data offset with
  | .error e => .error e
  | .panic p => .panic p
  | .ok (code, offset) =>
    if FixStr ≤ code.val ∧ code.val ≤ FixStr + 0x1f then
      .ok ((code.val + 256 - FixStr) % 256, offset)
    else if code.val = Str8 then
      match readSize1 data offset with
      | .error e => .error e
      | .panic p => .panic p
      | .ok (b, offset) => .ok (b.val, offset)
    else if code.val = Str16 then
      match readSize2 data offset with
      | .error e => .error e
      | .panic p => .panic p
      | .ok (b, offset) => .ok (bigEndian b, offset)
    else if code.val = Str32 then
      match readSize4 data offset with
      | .error e => .error e
      | .panic p => .panic p
      | .ok (b, offset) => .ok (bigEndian b, offset)
    else if code.val = Nil then
      .ok (0, offset)
    else .error (errorTemplate code k)

def asStringByteByLength (data : List Byte) (offset l : Nat) (_k : Kind) :
    Ret (List Byte × Nat) :=
  if l < 1 then .ok ([], offset)
  else readSizeN data offset l

def asStringByte (data : List Byte) (offset : Nat) (k : Kind) : Ret (List Byte × Nat) :=
  match stringByteLength data offset k with
  | .error e => .error e
  | .panic p => .panic p
  | .ok (l, offset) => asStringByteByLength data offset l k

def asString (data : List Byte) (offset : Nat) (k : Kind) : Ret (List Byte × Nat) :=
  match asStringByte data offset k with
  | .error e => .error e
  | .panic p => .panic p
  | .ok (bs, offset) => .ok (bs, offset)

def isFixMap (v : Byte) : Bool :=
  decide (FixMap ≤ v.val ∧ v.val ≤ FixMap + 0x0f)

def mapLength (data : List Byte) (offset : Nat) (k : Kind) : Ret (Nat × Nat) :=
  match readSize1 data offset with
  | .error e => .error e
  | .panic p => .panic p
  | .ok (code, offset) =>
    if isFixMap code then
      .ok ((code.val + 256 - FixMap) % 256, offset)
    else if code.val = Map16 then
      match readSize2 data offset with
      | .error e => .error e
      | .panic p => .panic p
      | .ok (bs, offset) => .ok (bigEndian bs, offset)
    else if code.val = Map32 then
      match readSize4 data offset with
      | .error e => .error e
      | .panic p => .panic p
      | .ok (bs, offset) => .ok (bigEndian bs, offset)
    else .error (errorTemplate code k)

/-- The slice expression `d.data[offset:]` panics for an offset beyond the length of
the buffer.  The count is the one of a map header, below `2^32`, so `length*2` does
not wrap. -/
def hasRequiredLeastMapSize (data : List Byte) (offset length : Nat) : Ret Unit :=
  if data.length < offset then .panic .sliceBounds
  else if (data.drop offset).length < length * 2 then .error .mapLack
  else .ok ()

/-! ## Struct field resolver -/

def isPublic (name0 : Byte) : Bool :=
  decide (0x41 ≤ name0.val ∧ name0.val ≤ 0x5a)

/-- The tag value "-". -/
def skipTag : List Byte := [0x2d]

def CheckField (field : FieldInfo) : Bool × List Byte :=
  if isPublic field.name0 then
    if field.tag = skipTag then (false, [])
    else if field.tag.length > 0 then (true, field.tag)
    else (true, field.name)
  else (false, [])

structure typeMap where
  keys : List (List Byte)
  indexes : List Int
deriving DecidableEq, Repr

/-- The first loop of `setStruct`: over the fields `i, i+1, ..` of the struct,
appending the key and the index of those `CheckField` accepts. -/
def fieldMap : List (FieldInfo × Value) → Nat → typeMap → typeMap
  | [], _, tm => tm
  | (field, _) :: rest, i, tm =>
    if (CheckField field).1 then
      fieldMap rest (i + 1)
        { keys := tm.keys ++ [(CheckField field).2], indexes := tm.indexes ++ [(i : Int)] }
    else fieldMap rest (i + 1) tm

/-- The inner loop of `setStruct`, `for keyIndex, keyBytes := range tm.keys`, run
over the keys that remain from position `keyIndex` on, with the current value of
`fieldIndex`; returns the value of `fieldIndex` when the loop is left. -/
def matchField (tm : typeMap) (dataKey : List Byte) : List (List Byte) → Nat → Int → Int
  | [], _, fieldIndex => fieldIndex
  | keyBytes :: rest, keyIndex, fieldIndex =>
    if keyBytes.length ≠ dataKey.length then
      matchField tm dataKey rest (keyIndex + 1) fieldIndex
    else
      let fieldIndex := tm.indexes.getD keyIndex (-1)
      if fieldIndex ≥ 0 then fieldIndex
      else matchField tm dataKey rest (keyIndex + 1) fieldIndex

/-! ## Recursive value dispatcher -/

/-- The entry loop of `setStruct`, `for i := 0; i < l; i++`, with `n` iterations
left, the fields `fs` of the destination as they are now and the offset `o`.
`dec` is the dispatcher for the nested call. -/
def entries (dec : Value → Nat → Option (Value × Ret Nat)) (data : List Byte) (tm : typeMap)
    (k : Kind) : Nat → List (FieldInfo × Value) → Nat → Option (List (FieldInfo × Value) × Ret Nat)
  | 0, fs, o => some (fs, .ok o)
  | n + 1, fs, o =>
    match asStringByte data o k with
    | .error e => some (fs, .error e)
    | .panic p => some (fs, .panic p)
    | .ok (dataKey, o2) =>
      let fieldIndex := matchField tm dataKey tm.keys 0 (-1)
      if fieldIndex < 0 then some (fs, .panic (.fieldIndexOutOfRange fieldIndex))
      else
        match fs.get? fieldIndex.toNat with
        | none => some (fs, .panic (.fieldIndexOutOfRange fieldIndex))
        | some (info, field) =>
          match dec field o2 with
          | none => none
          | some (field2, .ok o3) => entries dec data tm k n (fs.set fieldIndex.toNat (info, field2)) o3
          | some (field2, .error e) => some (fs.set fieldIndex.toNat (info, field2), .error e)
          | some (field2, .panic p) => some (fs.set fieldIndex.toNat (info, field2), .panic p)

def setStruct (dec : Value → Nat → Option (Value × Ret Nat)) (data : List Byte)
    (fs : List (FieldInfo × Value)) (offset : Nat) (k : Kind) :
    Option (List (FieldInfo × Value) × Ret Nat) :=
  match mapLength data offset k with
  | .error e => some (fs, .error e)
  | .panic p => some (fs, .panic p)
  | .ok (l, o) =>
    match hasRequiredLeastMapSize data o l with
    | .error e => some (fs, .error e)
    | .panic p => some (fs, .panic p)
    | .ok _ =>
      let tm := fieldMap fs 0 { keys := [], indexes := [] }
      entries dec data tm k l fs o

/-- The dispatcher.  `none` only when the fuel runs out. -/
def decode : Nat → List Byte → Value → Nat → Option (Value × Ret Nat)
  | 0, _, _, _ => none
  | fuel + 1, data, rv, offset =>
    match rv with
    | .struct fs =>
      match setStruct (decode fuel data) data fs offset Kind.struct with
      | none => none
      | some (fs2, .ok o) => some (.struct fs2, .ok o)
      | some (fs2, .error e) => some (.struct fs2, .error e)
      | some (fs2, .panic p) => some (.struct fs2, .panic p)
    | .int k _ =>
      match asInt data offset k.toKind with
      | .error e => some (rv, .error e)
      | .panic p => some (rv, .panic p)
      | .ok (v, o) => some (.int k (toSigned k.bits v), .ok o)
    | .str _ =>
      match asString data offset Kind.string with
      | .error e => some (rv, .error e)
      | .panic p => some (rv, .panic p)
      | .ok (v, o) => some (.str v, .ok o)
    | .other k => some (rv, .error (.unsupportedType k.toKind))

/-! ## Public entry point -/

/-- The argument `v interface{}` of `Decode`. -/
inductive Holder where
  /-- A non-nil pointer, with the value it points to. -/
  | ptr (rv : Value)
  /-- A nil pointer: `Elem` gives the zero `reflect.Value`, of kind `Invalid`. -/
  | nilPtr
  /-- Anything that is not a pointer (the nil interface included). -/
  | notPtr
deriving Repr

def Decode (data : List Byte) (v : Holder) : Option (Holder × Ret Unit) :=
  if data.length < 1 then some (v, .error .emptyData)
  else
    match v with
    | .notPtr => some (v, .error .notPointer)
    | .nilPtr =>
      match decode 1 data (.other .invalid) 0 with
      | none => none
      | some (_, .ok last) =>
        if data.length ≠ last then some (v, .error (.sizeMismatch data.length last))
        else some (v, .ok ())
      | some (_, .error e) => some (v, .error e)
      | some (_, .panic p) => some (v, .panic p)
    | .ptr rv =>
      match decode rv.depth data rv 0 with
      | none => none
      | some (rv2, .ok last) =>
        if data.length ≠ last then some (.ptr rv2, .error (.sizeMismatch data.length last))
        else some (.ptr rv2, .ok ())
      | some (rv2, .error e) => some (.ptr rv2, .error e)
      | some (rv2, .panic p) => some (.ptr rv2, .panic p)

/-! ## Encodings, used to state what the decoders are given -/

/-- The `w` bytes of `n`, most significant first (`n` modulo `256^w`). -/
def beBytes : Nat → Nat → List Byte
  | 0, _ => []
  | w + 1, n => Fin.ofNat (n / 256 ^ w) :: beBytes w n

/-- The `w`-byte big-endian two's-complement encoding of `v`. -/
def twosComplement (w : Nat) (v : Int) : List Byte :=
  beBytes w (v % 2 ^ (8 * w)).toNat

/-- The format code of the signed integer of `w` bytes. -/
def intCode (w : Nat) : Nat :=
  if w = 1 then Int8 else if w = 2 then Int16 else if w = 4 then Int32 else Int64

/-- The four header forms of a MessagePack string. -/
inductive StrForm where
  | fixstr | str8 | str16 | str32
deriving DecidableEq, Repr

/-- The largest length a header form can carry. -/
def StrForm.cap : StrForm → Nat
  | .fixstr => 31
  | .str8 => 255
  | .str16 => 65535
  | .str32 => 2 ^ 32 - 1

/-- Number of bytes of a header form. -/
def StrForm.headerLen : StrForm → Nat
  | .fixstr => 1
  | .str8 => 2
  | .str16 => 3
  | .str32 => 5

/-- The header of a string of `n` bytes in the given form. -/
def strHeader : StrForm → Nat → List Byte
  | .fixstr, n => [Fin.ofNat (FixStr + n)]
  | .str8, n => Fin.ofNat Str8 :: beBytes 1 n
  | .str16, n => Fin.ofNat Str16 :: beBytes 2 n
  | .str32, n => Fin.ofNat Str32 :: beBytes 4 n

/-- The least header form that carries a string of `n` bytes. -/
def StrForm.least (n : Nat) : StrForm :=
  if n ≤ 31 then .fixstr else if n ≤ 255 then .str8 else if n ≤ 65535 then .str16 else .str32

/-- A MessagePack str value. -/
def encodeStr (s : List Byte) : List Byte :=
  strHeader (StrForm.least s.length) s.length ++ s

/-- The header of a map of `n` entries. -/
def mapHeader (n : Nat) : List Byte :=
  if n ≤ 15 then [Fin.ofNat (FixMap + n)]
  else if n ≤ 65535 then Fin.ofNat Map16 :: beBytes 2 n
  else Fin.ofNat Map32 :: beBytes 4 n

mutual
/-- The map encoding of a value of the supported subset: a struct is a map with one
entry per field in declaration order, keyed by the field name as a str value; an
integer is Int64-coded; a string is a str value.  A slot of another kind has no
encoding (no byte is produced for it). -/
def encode : Value → List Byte
  | .int _ v => Fin.ofNat Int64 :: twosComplement 8 v
  | .str s => encodeStr s
  | .struct fs => mapHeader fs.length ++ encodeFields fs
  | .other _ => []
/-- The entries of the map encoding of a struct. -/
def encodeFields : List (FieldInfo × Value) → List Byte
  | [] => []
  | (f, v) :: rest => encodeStr f.name ++ encode v ++ encodeFields rest
end

/-! ## Field selection as the specification words it -/

/-- The index of the first field, in declaration order, that participates and whose
effective key name has `n` bytes. -/
def selectByLength (fs : List (FieldInfo × Value)) (n : Nat) : Option Nat :=
  fs.findIdx? (fun p => (CheckField p.1).1 && decide ((CheckField p.1).2.length = n))

/-- The field map of `setStruct` as a list of pairs (effective key, field index):
the fields from index `i` on that `CheckField` accepts, in declaration order. -/
def fieldPairs : List (FieldInfo × Value) → Nat → List (List Byte × Int)
  | [], _ => []
  | (field, _) :: rest, i =>
    if (CheckField field).1 then ((CheckField field).2, (i : Int)) :: fieldPairs rest (i + 1)
    else fieldPairs rest (i + 1)

/-! ## Where the entry keys of a buffer lie -/

/-- The key payloads the entry loop of `setStruct` reads, each as its first offset
and its length, in the order they are read; those of nested structs are included
(`spans` lists the ones of a nested call). -/
def entrySpans (dec : Value → Nat → Option (Value × Ret Nat))
    (spans : Value → Nat → List (Nat × Nat)) (data : List Byte) (tm : typeMap) (k : Kind) :
    Nat → List (FieldInfo × Value) → Nat → List (Nat × Nat)
  | 0, _, _ => []
  | n + 1, fs, o =>
    match asStringByte data o k with
    | .error _ => []
    | .panic _ => []
    | .ok (dataKey, o2) =>
      (o2 - dataKey.length, dataKey.length) ::
        (let fieldIndex := matchField tm dataKey tm.keys 0 (-1)
         if fieldIndex < 0 then []
         else
           match fs.get? fieldIndex.toNat with
           | none => []
           | some (info, field) =>
             spans field o2 ++
               match dec field o2 with
               | some (field2, .ok o3) =>
                 entrySpans dec spans data tm k n (fs.set fieldIndex.toNat (info, field2)) o3
               | _ => [])

/-- The key payloads read by `decode fuel data rv offset`. -/
def keySpans : Nat → List Byte → Value → Nat → List (Nat × Nat)
  | 0, _, _, _ => []
  | fuel + 1, data, rv, offset =>
    match rv with
    | .struct fs =>
      match mapLength data offset Kind.struct with
      | .error _ => []
      | .panic _ => []
      | .ok (l, o) =>
        match hasRequiredLeastMapSize data o l with
        | .error _ => []
        | .panic _ => []
        | .ok _ =>
          entrySpans (decode fuel data) (keySpans fuel data) data
            (fieldMap fs 0 { keys := [], indexes := [] }) Kind.struct l fs o
    | _ => []

/-- Whether offset `j` lies in one of the spans. -/
def inSpans (spans : List (Nat × Nat)) (j : Nat) : Bool :=
  spans.any (fun s => decide (s.1 ≤ j ∧ j < s.1 + s.2))

/-! ## Properties of a dispatcher, used as induction hypotheses -/

/-- A dispatcher `decOn` that succeeds on the buffer `d1` from `off` with offset `o`
has moved forward, has stayed inside `d1`, and succeeds alike on every buffer at
least as long that holds the same bytes on `[off, o)`. -/
def DecWindow (decOn : List Byte → Value → Nat → Option (Value × Ret Nat))
    (d1 : List Byte) : Prop :=
  ∀ rv off rv2 o, decOn d1 rv off = some (rv2, .ok o) →
    (off < o ∧ o ≤ d1.length) ∧
    ∀ d2 : List Byte, d1.length ≤ d2.length → (∀ j, off ≤ j → j < o → d1[j]? = d2[j]?) →
      decOn d2 rv off = some (rv2, .ok o)

/-! ## The test of the repository -/

def testUser (id : Int) (name abcd : List Byte) : Value :=
  .struct [
    (⟨0x49, [0x44], []⟩, .int .int64 id),
    (⟨0x4e, [0x61, 0x6d, 0x65], []⟩, .str name),
    (⟨0x41, [0x42, 0x43, 0x44], []⟩, .str abcd)]

def testData : List Byte :=
  [0x83, 0xa2, 0x49, 0x44, 0xd3, 0, 0, 0, 0, 0, 0, 0, 1,
   0xa4, 0x4e, 0x61, 0x6d, 0x65, 0xa5, 0x6a, 0x69, 0x6d, 0x6d, 0x79,
   0xa4, 0x41, 0x42, 0x43, 0x44, 0xa4, 0x61, 0x62, 0x63, 0x64]


/-! ## Iterations of the entry loop -/

/-- The number of iterations of the entry loop of `setStruct` that are started in
`entries dec data tm k n fs o` (the loop is left at the first error or panic). -/
def entryIters (dec : Value → Nat → Option (Value × Ret Nat)) (data : List Byte) (tm : typeMap)
    (k : Kind) : Nat → List (FieldInfo × Value) → Nat → Nat
  | 0, _, _ => 0
  | n + 1, fs, o =>
    match asStringByte data o k with
    | .error _ => 1
    | .panic _ => 1
    | .ok (dataKey, o2) =>
      let fieldIndex := matchField tm dataKey tm.keys 0 (-1)
      if fieldIndex < 0 then 1
      else
        match fs.get? fieldIndex.toNat with
        | none => 1
        | some (info, field) =>
          match dec field o2 with
          | some (field2, .ok o3) =>
            1 + entryIters dec data tm k n (fs.set fieldIndex.toNat (info, field2)) o3
          | _ => 1

/-! ## What a call may have written -/

/-- The destination `v2` comes from `v` by scalar assignments only: every integer or
string slot of `v2` holds what it held in `v`, or the value a successful `asInt`
(stored by `SetInt`) or `asString` returned somewhere on the buffer; the shape of
the destination, the names and the tags are those of `v`. -/
inductive Assigned (data : List Byte) : Value → Value → Prop where
  | unchanged (v : Value) : Assigned data v v
  | int (k : IntKind) (v x : Int) (off o : Nat) :
      asInt data off k.toKind = .ok (x, o) →
      Assigned data (.int k v) (.int k (toSigned k.bits x))
  | str (s s2 : List Byte) (off o : Nat) :
      asString data off Kind.string = .ok (s2, o) → Assigned data (.str s) (.str s2)
  | struct (fs fs2 : List (FieldInfo × Value)) :
      fs.length = fs2.length →
      (∀ i p q, fs.get? i = some p → fs2.get? i = some q → p.1 = q.1) →
      (∀ i p q, fs.get? i = some p → fs2.get? i = some q → Assigned data p.2 q.2) →
      Assigned data (.struct fs) (.struct fs2)

/-! ## Map encodings of a struct, in any order and with any header form -/

/-- The three header forms of a MessagePack map. -/
inductive MapForm where
  | fixmap | map16 | map32
deriving DecidableEq, Repr

/-- The largest count a map header form can carry. -/
def MapForm.cap : MapForm → Nat
  | .fixmap => 15
  | .map16 => 65535
  | .map32 => 2 ^ 32 - 1

/-- Number of bytes of a map header form. -/
def MapForm.headerLen : MapForm → Nat
  | .fixmap => 1
  | .map16 => 3
  | .map32 => 5

/-- The header of a map of `n` entries in the given form. -/
def mapHeaderOf : MapForm → Nat → List Byte
  | .fixmap, n => [Fin.ofNat (FixMap + n)]
  | .map16, n => Fin.ofNat Map16 :: beBytes 2 n
  | .map32, n => Fin.ofNat Map32 :: beBytes 4 n

/-- The choices an encoder makes for a value: the width of an integer, the header
form of a string, and for a struct the header form of the map and, entry by entry in
the order they are written, the index of the field, the header form of its key and
the choices for its value. -/
inductive Plan where
  | int (w : Nat)
  | str (f : StrForm)
  | map (h : MapForm) (es : List (Nat × StrForm × Plan))

mutual
/-- The bytes of a value under a plan: an integer as the code of the width and its
big-endian two's-complement bytes, a string as a str value, a struct as a map whose
entries are keyed by the effective key names of the fields. -/
def encodeWith : Plan → Value → List Byte
  | .int w, .int _ v => Fin.ofNat (intCode w) :: twosComplement w v
  | .str f, .str s => strHeader f s.length ++ s
  | .map h es, .struct fs => mapHeaderOf h fs.length ++ encodeEntries es fs
  | _, _ => []
/-- The entries of a map under a plan. -/
def encodeEntries : List (Nat × StrForm × Plan) → List (FieldInfo × Value) → List Byte
  | [], _ => []
  | (i, kf, p) :: rest, fs =>
    match fs.get? i with
    | some (f, v) =>
      strHeader kf (CheckField f).2.length ++ ((CheckField f).2 ++
        (encodeWith p v ++ encodeEntries rest fs))
    | none => encodeEntries rest fs
end

/-- Every field participates and no two effective key names have the same number
of bytes. -/
def infosOk (infos : List FieldInfo) : Bool :=
  infos.all (fun f => (CheckField f).1) &&
    decide ((infos.map (fun f => (CheckField f).2.length)).Nodup)

mutual
/-- The plan fits the value: the value is of the supported subset (int64, string,
struct of such), at every nesting level every field participates and the key names
have distinct lengths, every width and header form can hold what it carries, and
the entries of a map are the fields of the struct, each once, in any order. -/
def planOk : Plan → Value → Bool
  | .int w, .int k v =>
    decide (k = IntKind.int64) && decide (w = 1 ∨ w = 2 ∨ w = 4 ∨ w = 8) &&
      decide (-(2 : Int) ^ (8 * w - 1) ≤ v ∧ v < (2 : Int) ^ (8 * w - 1))
  | .str f, .str s => decide (s.length ≤ f.cap)
  | .map h es, .struct fs =>
    decide (fs.length ≤ h.cap) && infosOk (fs.map Prod.fst) &&
      decide ((es.map Prod.fst).Perm (List.range fs.length)) && entriesOk es fs
  | _, _ => false
/-- The entries of a plan fit the fields of a struct. -/
def entriesOk : List (Nat × StrForm × Plan) → List (FieldInfo × Value) → Bool
  | [], _ => true
  | (i, kf, p) :: rest, fs =>
    match fs.get? i with
    | some (f, v) =>
      decide ((CheckField f).2.length ≤ kf.cap) && planOk p v && entriesOk rest fs
    | none => false
end

mutual
/-- The zero value of the type of a destination. -/
def Value.zero : Value → Value
  | .int k _ => .int k 0
  | .str _ => .str []
  | .struct fs => .struct (Value.zeroFields fs)
  | .other k => .other k
/-- The fields of a struct, each at its zero value. -/
def Value.zeroFields : List (FieldInfo × Value) → List (FieldInfo × Value)
  | [] => []
  | (f, v) :: rest => (f, Value.zero v) :: Value.zeroFields rest
end

/-- The fields `cur` after the values of the entries `es` have been stored, in this
order, from the fields `fs`. -/
def storeEntries (fs : List (FieldInfo × Value)) :
    List (Nat × StrForm × Plan) → List (FieldInfo × Value) → List (FieldInfo × Value)
  | [], cur => cur
  | (i, _, _) :: rest, cur =>
    match fs.get? i with
    | some fv => storeEntries fs rest (cur.set i fv)
    | none => storeEntries fs rest cur

/-- A struct value with a nested struct and key names "ID", "Name" and "abc" (a tag)
of distinct lengths: `{ID: -300, Name: "ji", A: {B: "a"}}`. -/
def nestedRecord : List (FieldInfo × Value) :=
  [(⟨0x49, [0x44], []⟩, .int .int64 (-300)),
   (⟨0x4e, [0x61, 0x6d, 0x65], []⟩, .str [0x6a, 0x69]),
   (⟨0x41, [], [0x61, 0x62, 0x63]⟩, .struct [(⟨0x42, [], []⟩, .str [0x61])])]

/-- An encoding of `nestedRecord`: a Map16 header, the nested struct first (key as
Str8, fixmap, its string as Str8), then the integer as Int16 and the string as Str16. -/
def nestedPlan : Plan :=
  .map .map16 [(2, .str8, .map .fixmap [(0, .fixstr, .str .str8)]),
    (0, .fixstr, .int 2), (1, .fixstr, .str .str16)]

/-! ## Lemmas on the byte cursor -/

theorem readSize1_eq (data : List Byte) (i : Nat) :
    readSize1 data i
      = if data.length < i + 1 then
          (if i + 1 ≤ maxInt then .error .tooShort else .panic .indexOutOfRange)
        else .ok (data.getD i 0, i + 1) := rfl

theorem getElem?_lt_length {data : List Byte} {i : Nat} {c : Byte} (h : data[i]? = some c) :
    i < data.length := by
  rcases Nat.lt_or_ge i data.length with h1 | h1
  · exact h1
  · rw [List.getElem?_eq_none h1] at h; cases h

theorem readSize1_of_get (data : List Byte) (i : Nat) (c : Byte) (h : data[i]? = some c) :
    readSize1 data i = .ok (c, i + 1) := by
  have hi : i < data.length := getElem?_lt_length h
  have hc : data.getD i 0 = c := by
    simp [List.getD, h]
  rw [readSize1_eq, if_neg (by omega), hc]

theorem readSize1_short (data : List Byte) (i : Nat) (h : data.length < i + 1)
    (hm : i + 1 ≤ maxInt) :
    readSize1 data i = .error .tooShort := by
  rw [readSize1_eq, if_pos h, if_pos hm]

theorem readSize1_append (pre : List Byte) (c : Byte) (post : List Byte) :
    readSize1 (pre ++ c :: post) pre.length = .ok (c, pre.length + 1) :=
  readSize1_of_get _ _ _ (by rw [List.getElem?_append_right (le_refl _)]; simp)

theorem readSize1_after (pre : List Byte) (c b : Byte) (post : List Byte) :
    readSize1 (pre ++ c :: b :: post) (pre.length + 1) = .ok (b, pre.length + 1 + 1) :=
  readSize1_of_get _ _ _ (by rw [List.getElem?_append_right (by omega)]; simp)

theorem readSizeN_short (data : List Byte) (i n : Nat) (h : data.length < i + n)
    (hm : i + n ≤ maxInt) :
    readSizeN data i n = .error .tooShort := by
  unfold readSizeN; rw [if_pos h, if_pos hm]

theorem readSizeN_append (pre bs post : List Byte) :
    readSizeN (pre ++ (bs ++ post)) pre.length bs.length = .ok (bs, pre.length + bs.length) := by
  unfold readSizeN
  rw [if_neg (by simp)]
  simp

theorem readSizeN_append_of (pre bs post : List Byte) (i n : Nat) (hi : i = pre.length)
    (hn : n = bs.length) :
    readSizeN (pre ++ (bs ++ post)) i n = .ok (bs, i + n) := by
  subst hi hn; exact readSizeN_append pre bs post

theorem readSizeN_after (pre : List Byte) (c : Byte) (bs post : List Byte) (n : Nat)
    (hn : n = bs.length) :
    readSizeN (pre ++ c :: (bs ++ post)) (pre.length + 1) n = .ok (bs, pre.length + 1 + n) := by
  have := readSizeN_append_of (pre ++ [c]) bs post (pre.length + 1) n (by simp) hn
  simpa using this

/-! ## Lemmas on the numeric conversions -/

theorem beBytes_length (w n : Nat) : (beBytes w n).length = w := by
  induction w with
  | zero => rfl
  | succ w ih => simp [beBytes, ih]

theorem foldl_bigEndian (bs : List Byte) (acc : Nat) :
    bs.foldl (fun acc b => acc * 256 + b.val) acc
      = acc * 256 ^ bs.length + bs.foldl (fun acc b => acc * 256 + b.val) 0 := by
  induction bs generalizing acc with
  | nil => simp
  | cons b bs ih =>
    simp only [List.foldl_cons, List.length_cons]
    rw [ih (acc * 256 + b.val), ih (0 * 256 + b.val)]
    ring

theorem bigEndian_cons (b : Byte) (bs : List Byte) :
    bigEndian (b :: bs) = b.val * 256 ^ bs.length + bigEndian bs := by
  unfold bigEndian
  rw [List.foldl_cons, foldl_bigEndian]
  simp

theorem bigEndian_beBytes (w n : Nat) : bigEndian (beBytes w n) = n % 256 ^ w := by
  induction w with
  | zero => simp [beBytes, bigEndian, Nat.mod_one]
  | succ w ih =>
    rw [beBytes, bigEndian_cons, ih, beBytes_length, Nat.mod_pow_succ]
    simp [Fin.ofNat]
    ring

theorem bigEndian_beBytes_of_lt (w n : Nat) (h : n < 256 ^ w) : bigEndian (beBytes w n) = n := by
  rw [bigEndian_beBytes, Nat.mod_eq_of_lt h]

theorem toSigned_of_range (b : Nat) (hb : 0 < b) (v : Int)
    (hlo : -(2 : Int) ^ (b - 1) ≤ v) (hhi : v < (2 : Int) ^ (b - 1)) :
    toSigned b (v % 2 ^ b) = v := by
  obtain ⟨c, rfl⟩ : ∃ c, b = c + 1 := ⟨b - 1, by omega⟩
  simp only [Nat.add_sub_cancel] at hlo hhi
  unfold toSigned
  have h2 : (2 : Int) ^ (c + 1) = 2 * 2 ^ c := by rw [pow_succ]; ring
  have hpos : (0 : Int) < 2 ^ c := by positivity
  rw [Int.emod_emod_of_dvd _ (dvd_refl _)]
  simp only [Nat.add_sub_cancel]
  rcases lt_or_le v 0 with hneg | hnn
  · have : v % 2 ^ (c + 1) = v + 2 ^ (c + 1) := by
      rw [← Int.add_emod_self]
      apply Int.emod_eq_of_lt <;> omega
    rw [this, if_neg (by omega)]; ring
  · have : v % 2 ^ (c + 1) = v := Int.emod_eq_of_lt hnn (by omega)
    rw [this, if_pos hhi]

theorem toSigned_emod (b : Nat) (v : Int) : toSigned b (v % 2 ^ b) = toSigned b v := by
  unfold toSigned
  rw [Int.emod_emod_of_dvd _ (dvd_refl _)]

theorem toSigned_id (b : Nat) (hb : 0 < b) (v : Int)
    (hlo : -(2 : Int) ^ (b - 1) ≤ v) (hhi : v < (2 : Int) ^ (b - 1)) :
    toSigned b v = v := by
  rw [← toSigned_emod]; exact toSigned_of_range b hb v hlo hhi

theorem twosComplement_length (w : Nat) (v : Int) : (twosComplement w v).length = w :=
  beBytes_length _ _

theorem bigEndian_twosComplement (w : Nat) (v : Int) :
    (bigEndian (twosComplement w v) : Int) = v % 2 ^ (8 * w) := by
  unfold twosComplement
  rw [bigEndian_beBytes]
  have h256 : (256 : Nat) ^ w = 2 ^ (8 * w) := by
    rw [pow_mul]; norm_num
  have hnn : 0 ≤ v % 2 ^ (8 * w) := Int.emod_nonneg _ (by positivity)
  have hlt : v % 2 ^ (8 * w) < 2 ^ (8 * w) := Int.emod_lt_of_pos _ (by positivity)
  rw [h256, Nat.mod_eq_of_lt]
  · exact Int.toNat_of_nonneg hnn
  · have : ((v % 2 ^ (8 * w)).toNat : Int) < ((2 ^ (8 * w) : Nat) : Int) := by
      rw [Int.toNat_of_nonneg hnn]; push_cast; exact hlt
    exact_mod_cast this

/-! ## Lemmas on the string decoders -/

theorem strHeader_length (f : StrForm) (n : Nat) : (strHeader f n).length = f.headerLen := by
  cases f <;> simp [strHeader, StrForm.headerLen, beBytes_length]

theorem asStringByteByLength_append (pre s post : List Byte) (o : Nat) (k : Kind)
    (ho : o = pre.length) :
    asStringByteByLength (pre ++ (s ++ post)) o s.length k = .ok (s, o + s.length) := by
  unfold asStringByteByLength
  by_cases hl : s.length < 1
  · rw [if_pos hl]
    have : s = [] := List.length_eq_zero.mp (by omega)
    subst this; simp
  · rw [if_neg hl]
    exact readSizeN_append_of pre s post o s.length ho rfl

theorem stringByteLength_fixstr (pre post : List Byte) (c : Byte) (k : Kind)
    (h1 : FixStr ≤ c.val) (h2 : c.val ≤ FixStr + 0x1f) :
    stringByteLength (pre ++ c :: post) pre.length k = .ok (c.val - FixStr, pre.length + 1) := by
  unfold stringByteLength
  rw [readSize1_append]
  simp only [if_pos (And.intro h1 h2)]
  have : (c.val + 256 - FixStr) % 256 = c.val - FixStr := by
    simp only [FixStr] at h1 h2 ⊢; omega
  rw [this]

theorem stringByteLength_str8 (pre post : List Byte) (c b : Byte) (k : Kind)
    (hc : c.val = Str8) :
    stringByteLength (pre ++ c :: b :: post) pre.length k = .ok (b.val, pre.length + 1 + 1) := by
  unfold stringByteLength
  rw [readSize1_append]
  simp [hc, Str8, FixStr, readSize1_after]

theorem stringByteLength_str16 (pre bs post : List Byte) (c : Byte) (k : Kind)
    (hc : c.val = Str16) (hbs : 2 = bs.length) :
    stringByteLength (pre ++ c :: (bs ++ post)) pre.length k
      = .ok (bigEndian bs, pre.length + 1 + 2) := by
  unfold stringByteLength
  rw [readSize1_append]
  simp [hc, Str8, Str16, FixStr, readSize2, Byte2, readSizeN_after pre c bs post 2 hbs]

theorem stringByteLength_str32 (pre bs post : List Byte) (c : Byte) (k : Kind)
    (hc : c.val = Str32) (hbs : 4 = bs.length) :
    stringByteLength (pre ++ c :: (bs ++ post)) pre.length k
      = .ok (bigEndian bs, pre.length + 1 + 4) := by
  unfold stringByteLength
  rw [readSize1_append]
  simp [hc, Str8, Str16, Str32, FixStr, readSize4, Byte4, readSizeN_after pre c bs post 4 hbs]

theorem stringByteLength_header (f : StrForm) (n : Nat) (hn : n ≤ f.cap) (pre post : List Byte)
    (k : Kind) :
    stringByteLength (pre ++ (strHeader f n ++ post)) pre.length k
      = .ok (n, pre.length + f.headerLen) := by
  cases f with
  | fixstr =>
    simp only [StrForm.cap] at hn
    have hv : (Fin.ofNat (FixStr + n) : Byte).val = FixStr + n := by
      show (FixStr + n) % 256 = FixStr + n
      simp only [FixStr]; omega
    have := stringByteLength_fixstr pre post (Fin.ofNat (FixStr + n)) k (by omega) (by omega)
    rw [hv, Nat.add_sub_cancel_left] at this
    exact this
  | str8 =>
    simp only [StrForm.cap] at hn
    have hv : (Fin.ofNat n : Byte).val = n := by
      show n % 256 = n
      omega
    have := stringByteLength_str8 pre post (Fin.ofNat Str8) (Fin.ofNat n) k rfl
    rw [hv] at this
    have hb : strHeader .str8 n = [Fin.ofNat Str8, Fin.ofNat n] := by
      simp only [strHeader, beBytes, pow_zero, Nat.div_one]
    rw [hb]
    exact this
  | str16 =>
    simp only [StrForm.cap] at hn
    have := stringByteLength_str16 pre (beBytes 2 n) post (Fin.ofNat Str16) k rfl
      (beBytes_length 2 n).symm
    rw [bigEndian_beBytes_of_lt 2 n (by norm_num; omega)] at this
    exact this
  | str32 =>
    simp only [StrForm.cap] at hn
    have := stringByteLength_str32 pre (beBytes 4 n) post (Fin.ofNat Str32) k rfl
      (beBytes_length 4 n).symm
    rw [bigEndian_beBytes_of_lt 4 n (by norm_num; omega)] at this
    exact this

theorem asString_header (f : StrForm) (s : List Byte) (hn : s.length ≤ f.cap)
    (pre post : List Byte) (k : Kind) :
    asString (pre ++ (strHeader f s.length ++ (s ++ post))) pre.length k
      = .ok (s, pre.length + f.headerLen + s.length) := by
  unfold asString asStringByte
  rw [stringByteLength_header f s.length hn pre (s ++ post) k]
  have := asStringByteByLength_append (pre ++ strHeader f s.length) s post
    (pre.length + f.headerLen) k (by simp [strHeader_length])
  simp only [List.append_assoc] at this
  simp only [this]

/-! ## What a successful read looks at

Each scalar decoder that succeeds from offset `i` with offset `o` has moved
forward, has stayed inside the buffer, and returns the same on every buffer at
least as long that holds the same bytes on `[i, o)`. -/

theorem readSize1_ok {d : List Byte} {i : Nat} {c : Byte} {o : Nat}
    (h : readSize1 d i = .ok (c, o)) : d[i]? = some c ∧ o = i + 1 ∧ i < d.length := by
  rw [readSize1_eq] at h
  by_cases hlt : d.length < i + 1
  · rw [if_pos hlt] at h; split_ifs at h
  · rw [if_neg hlt] at h
    simp only [Ret.ok.injEq, Prod.mk.injEq] at h
    obtain ⟨h1, h2⟩ := h
    have hi : i < d.length := by omega
    refine ⟨?_, h2.symm, hi⟩
    rw [← h1, List.getD_eq_getElem?_getD, List.getElem?_eq_getElem hi]
    rfl

theorem readSizeN_ok {d : List Byte} {i n : Nat} {bs : List Byte} {o : Nat}
    (h : readSizeN d i n = .ok (bs, o)) :
    i + n ≤ d.length ∧ bs = (d.drop i).take n ∧ o = i + n := by
  unfold readSizeN at h
  by_cases hlt : d.length < i + n
  · rw [if_pos hlt] at h; split_ifs at h
  · rw [if_neg hlt] at h
    simp only [Ret.ok.injEq, Prod.mk.injEq] at h
    exact ⟨by omega, h.1.symm, h.2.symm⟩

theorem readSizeN_ok_length {d : List Byte} {i n : Nat} {bs : List Byte} {o : Nat}
    (h : readSizeN d i n = .ok (bs, o)) : bs.length = n := by
  obtain ⟨h1, h2, _⟩ := readSizeN_ok h
  rw [h2]; simp; omega

theorem readSize1_window {d1 d2 : List Byte} {i : Nat} {c : Byte} {o : Nat}
    (h : readSize1 d1 i = .ok (c, o)) (hag : d1[i]? = d2[i]?) :
    readSize1 d2 i = .ok (c, o) := by
  obtain ⟨h1, h2, _⟩ := readSize1_ok h
  rw [h2]
  exact readSize1_of_get d2 i c (by rw [← hag]; exact h1)

theorem take_drop_window {d1 d2 : List Byte} {i n : Nat}
    (hag : ∀ j, i ≤ j → j < i + n → d1[j]? = d2[j]?) :
    (d2.drop i).take n = (d1.drop i).take n := by
  apply List.ext_getElem?
  intro j
  rw [List.getElem?_take, List.getElem?_take]
  by_cases hj : j < n
  · rw [if_pos hj, if_pos hj, List.getElem?_drop, List.getElem?_drop]
    exact (hag (i + j) (by omega) (by omega)).symm
  · rw [if_neg hj, if_neg hj]

theorem readSizeN_window {d1 d2 : List Byte} {i n : Nat} {bs : List Byte} {o : Nat}
    (h : readSizeN d1 i n = .ok (bs, o)) (hlen : d1.length ≤ d2.length)
    (hag : ∀ j, i ≤ j → j < i + n → d1[j]? = d2[j]?) :
    readSizeN d2 i n = .ok (bs, o) := by
  obtain ⟨h1, h2, h3⟩ := readSizeN_ok h
  unfold readSizeN
  rw [if_neg (by omega), take_drop_window hag, h2, h3]

theorem asInt_window {d1 : List Byte} {i : Nat} {k : Kind} {v : Int} {o : Nat}
    (h : asInt d1 i k = .ok (v, o)) :
    (i < o ∧ o ≤ d1.length) ∧
    ∀ d2 : List Byte, d1.length ≤ d2.length → (∀ j, i ≤ j → j < o → d1[j]? = d2[j]?) →
      asInt d2 i k = .ok (v, o) := by
  unfold asInt at h
  cases h1 : readSize1 d1 i with
  | error e => rw [h1] at h; cases h
  | panic e => rw [h1] at h; cases h
  | ok p =>
    obtain ⟨code, o1⟩ := p
    rw [h1] at h
    simp only at h
    obtain ⟨_, _, hi⟩ := readSize1_ok h1
    split_ifs at h with c8 c16 c32 c64 cnil
    · cases h2 : readSize1 d1 (i + 1) with
      | error e => rw [h2] at h; cases h
      | panic e => rw [h2] at h; cases h
      | ok q =>
        obtain ⟨b, o2⟩ := q
        rw [h2] at h
        simp only [Ret.ok.injEq, Prod.mk.injEq] at h
        obtain ⟨rfl, rfl⟩ := h
        obtain ⟨_, rfl, hi2⟩ := readSize1_ok h2
        refine ⟨⟨by omega, by omega⟩, ?_⟩
        intro d2 hlen hag
        unfold asInt
        rw [readSize1_window h1 (hag i (by omega) (by omega))]
        simp only [c8, if_true]
        rw [readSize1_window h2 (hag (i + 1) (by omega) (by omega))]
    · cases h2 : readSize2 d1 (i + 1) with
      | error e => rw [h2] at h; cases h
      | panic e => rw [h2] at h; cases h
      | ok q =>
        obtain ⟨b, o2⟩ := q
        rw [h2] at h
        simp only [Ret.ok.injEq, Prod.mk.injEq] at h
        obtain ⟨rfl, rfl⟩ := h
        obtain ⟨hi2, _, rfl⟩ := readSizeN_ok h2
        simp only [Byte2] at hi2 ⊢
        refine ⟨⟨by omega, by omega⟩, ?_⟩
        intro d2 hlen hag
        unfold asInt
        rw [readSize1_window h1 (hag i (by omega) (by omega))]
        rw [show readSize2 d2 (i + 1) = .ok (b, i + 1 + 2) from
          readSizeN_window h2 hlen
            (fun j hj1 hj2 => hag j (by omega) (by simp only [Byte2] at hj2; omega))]
        simp [c16, Int8, Int16]
    · cases h2 : readSize4 d1 (i + 1) with
      | error e => rw [h2] at h; cases h
      | panic e => rw [h2] at h; cases h
      | ok q =>
        obtain ⟨b, o2⟩ := q
        rw [h2] at h
        simp only [Ret.ok.injEq, Prod.mk.injEq] at h
        obtain ⟨rfl, rfl⟩ := h
        obtain ⟨hi2, _, rfl⟩ := readSizeN_ok h2
        simp only [Byte4] at hi2 ⊢
        refine ⟨⟨by omega, by omega⟩, ?_⟩
        intro d2 hlen hag
        unfold asInt
        rw [readSize1_window h1 (hag i (by omega) (by omega))]
        rw [show readSize4 d2 (i + 1) = .ok (b, i + 1 + 4) from
          readSizeN_window h2 hlen
            (fun j hj1 hj2 => hag j (by omega) (by simp only [Byte4] at hj2; omega))]
        simp [c32, Int8, Int16, Int32]
    · cases h2 : readSize8 d1 (i + 1) with
      | error e => rw [h2] at h; cases h
      | panic e => rw [h2] at h; cases h
      | ok q =>
        obtain ⟨b, o2⟩ := q
        rw [h2] at h
        simp only [Ret.ok.injEq, Prod.mk.injEq] at h
        obtain ⟨rfl, rfl⟩ := h
        obtain ⟨hi2, _, rfl⟩ := readSizeN_ok h2
        simp only [Byte8] at hi2 ⊢
        refine ⟨⟨by omega, by omega⟩, ?_⟩
        intro d2 hlen hag
        unfold asInt
        rw [readSize1_window h1 (hag i (by omega) (by omega))]
        rw [show readSize8 d2 (i + 1) = .ok (b, i + 1 + 8) from
          readSizeN_window h2 hlen
            (fun j hj1 hj2 => hag j (by omega) (by simp only [Byte8] at hj2; omega))]
        simp [c64, Int8, Int16, Int32, Int64]
    · simp only [Ret.ok.injEq, Prod.mk.injEq] at h
      obtain ⟨rfl, rfl⟩ := h
      refine ⟨⟨by omega, by omega⟩, ?_⟩
      intro d2 hlen hag
      unfold asInt
      rw [readSize1_window h1 (hag i (by omega) (by omega))]
      simp [cnil, Int8, Int16, Int32, Int64, Nil]

theorem stringByteLength_window {d1 : List Byte} {i : Nat} {k : Kind} {l o : Nat}
    (h : stringByteLength d1 i k = .ok (l, o)) :
    (i < o ∧ o ≤ d1.length) ∧
    ∀ d2 : List Byte, d1.length ≤ d2.length → (∀ j, i ≤ j → j < o → d1[j]? = d2[j]?) →
      stringByteLength d2 i k = .ok (l, o) := by
  unfold stringByteLength at h
  cases h1 : readSize1 d1 i with
  | error e => rw [h1] at h; cases h
  | panic e => rw [h1] at h; cases h
  | ok p =>
    obtain ⟨code, o1⟩ := p
    rw [h1] at h
    simp only at h
    obtain ⟨_, rfl, hi⟩ := readSize1_ok h1
    split_ifs at h with cfix c8 c16 c32 cnil
    · simp only [Ret.ok.injEq, Prod.mk.injEq] at h
      obtain ⟨rfl, rfl⟩ := h
      refine ⟨⟨by omega, by omega⟩, ?_⟩
      intro d2 hlen hag
      unfold stringByteLength
      rw [readSize1_window h1 (hag i (by omega) (by omega))]
      simp only [cfix, and_self, if_true]
    · cases h2 : readSize1 d1 (i + 1) with
      | error e => rw [h2] at h; cases h
      | panic e => rw [h2] at h; cases h
      | ok q =>
        obtain ⟨b, o2⟩ := q
        rw [h2] at h
        simp only [Ret.ok.injEq, Prod.mk.injEq] at h
        obtain ⟨rfl, rfl⟩ := h
        obtain ⟨_, rfl, hi2⟩ := readSize1_ok h2
        refine ⟨⟨by omega, by omega⟩, ?_⟩
        intro d2 hlen hag
        unfold stringByteLength
        rw [readSize1_window h1 (hag i (by omega) (by omega))]
        dsimp only
        rw [if_neg cfix, if_pos c8, readSize1_window h2 (hag (i + 1) (by omega) (by omega))]
    · cases h2 : readSize2 d1 (i + 1) with
      | error e => rw [h2] at h; cases h
      | panic e => rw [h2] at h; cases h
      | ok q =>
        obtain ⟨b, o2⟩ := q
        rw [h2] at h
        simp only [Ret.ok.injEq, Prod.mk.injEq] at h
        obtain ⟨rfl, rfl⟩ := h
        obtain ⟨hi2, _, rfl⟩ := readSizeN_ok h2
        simp only [Byte2] at hi2 ⊢
        refine ⟨⟨by omega, by omega⟩, ?_⟩
        intro d2 hlen hag
        unfold stringByteLength
        rw [readSize1_window h1 (hag i (by omega) (by omega))]
        simp only [cfix, c8, if_false]
        rw [show readSize2 d2 (i + 1) = .ok (b, i + 1 + 2) from
          readSizeN_window h2 hlen
            (fun j hj1 hj2 => hag j (by omega) (by simp only [Byte2] at hj2; omega))]
        simp [c16]
    · cases h2 : readSize4 d1 (i + 1) with
      | error e => rw [h2] at h; cases h
      | panic e => rw [h2] at h; cases h
      | ok q =>
        obtain ⟨b, o2⟩ := q
        rw [h2] at h
        simp only [Ret.ok.injEq, Prod.mk.injEq] at h
        obtain ⟨rfl, rfl⟩ := h
        obtain ⟨hi2, _, rfl⟩ := readSizeN_ok h2
        simp only [Byte4] at hi2 ⊢
        refine ⟨⟨by omega, by omega⟩, ?_⟩
        intro d2 hlen hag
        unfold stringByteLength
        rw [readSize1_window h1 (hag i (by omega) (by omega))]
        simp only [cfix, c8, c16, if_false]
        rw [show readSize4 d2 (i + 1) = .ok (b, i + 1 + 4) from
          readSizeN_window h2 hlen
            (fun j hj1 hj2 => hag j (by omega) (by simp only [Byte4] at hj2; omega))]
        simp [c32]
    · simp only [Ret.ok.injEq, Prod.mk.injEq] at h
      obtain ⟨rfl, rfl⟩ := h
      refine ⟨⟨by omega, by omega⟩, ?_⟩
      intro d2 hlen hag
      unfold stringByteLength
      rw [readSize1_window h1 (hag i (by omega) (by omega))]
      dsimp only
      rw [if_neg cfix, if_neg c8, if_neg c16, if_neg c32, if_pos cnil]

theorem asStringByteByLength_window {d1 : List Byte} {o l : Nat} {k : Kind} {bs : List Byte}
    {o2 : Nat} (h : asStringByteByLength d1 o l k = .ok (bs, o2)) :
    (o2 = o + l ∧ bs.length = l ∧ (o ≤ d1.length → o2 ≤ d1.length)) ∧
    ∀ (d2 : List Byte) (k2 : Kind), d1.length ≤ d2.length →
      (∀ j, o ≤ j → j < o2 → d1[j]? = d2[j]?) →
      asStringByteByLength d2 o l k2 = .ok (bs, o2) := by
  unfold asStringByteByLength at h
  by_cases hl : l < 1
  · rw [if_pos hl] at h
    simp only [Ret.ok.injEq, Prod.mk.injEq] at h
    obtain ⟨rfl, rfl⟩ := h
    refine ⟨⟨by omega, by simp; omega, fun h => h⟩, ?_⟩
    intro d2 k2 _ _
    unfold asStringByteByLength
    rw [if_pos hl]
  · rw [if_neg hl] at h
    obtain ⟨h1, _, rfl⟩ := readSizeN_ok h
    refine ⟨⟨rfl, readSizeN_ok_length h, fun _ => h1⟩, ?_⟩
    intro d2 k2 hlen hag
    unfold asStringByteByLength
    rw [if_neg hl]
    exact readSizeN_window h hlen hag

theorem asStringByte_window {d1 : List Byte} {i : Nat} {k : Kind} {bs : List Byte} {o : Nat}
    (h : asStringByte d1 i k = .ok (bs, o)) :
    (i < o ∧ o ≤ d1.length) ∧
    ∀ d2 : List Byte, d1.length ≤ d2.length → (∀ j, i ≤ j → j < o → d1[j]? = d2[j]?) →
      asStringByte d2 i k = .ok (bs, o) := by
  unfold asStringByte at h
  cases h1 : stringByteLength d1 i k with
  | error e => rw [h1] at h; cases h
  | panic e => rw [h1] at h; cases h
  | ok p =>
    obtain ⟨l, o1⟩ := p
    rw [h1] at h
    simp only at h
    obtain ⟨⟨hb1, hb2⟩, hw1⟩ := stringByteLength_window h1
    obtain ⟨⟨hb3, _, hb4⟩, hw2⟩ := asStringByteByLength_window h
    refine ⟨⟨by omega, hb4 hb2⟩, ?_⟩
    intro d2 hlen hag
    unfold asStringByte
    rw [hw1 d2 hlen (fun j hj1 hj2 => hag j hj1 (by omega))]
    exact hw2 d2 k hlen (fun j hj1 hj2 => hag j (by omega) hj2)

theorem asString_window {d1 : List Byte} {i : Nat} {k : Kind} {bs : List Byte} {o : Nat}
    (h : asString d1 i k = .ok (bs, o)) :
    (i < o ∧ o ≤ d1.length) ∧
    ∀ d2 : List Byte, d1.length ≤ d2.length → (∀ j, i ≤ j → j < o → d1[j]? = d2[j]?) →
      asString d2 i k = .ok (bs, o) := by
  unfold asString at h
  cases h1 : asStringByte d1 i k with
  | error e => rw [h1] at h; cases h
  | panic e => rw [h1] at h; cases h
  | ok p =>
    obtain ⟨bs1, o1⟩ := p
    rw [h1] at h
    simp only [Ret.ok.injEq, Prod.mk.injEq] at h
    obtain ⟨rfl, rfl⟩ := h
    obtain ⟨hb, hw⟩ := asStringByte_window h1
    refine ⟨hb, ?_⟩
    intro d2 hlen hag
    unfold asString
    rw [hw d2 hlen hag]

theorem mapLength_window {d1 : List Byte} {i : Nat} {k : Kind} {l o : Nat}
    (h : mapLength d1 i k = .ok (l, o)) :
    (i < o ∧ o ≤ d1.length) ∧
    ∀ d2 : List Byte, d1.length ≤ d2.length → (∀ j, i ≤ j → j < o → d1[j]? = d2[j]?) →
      mapLength d2 i k = .ok (l, o) := by
  unfold mapLength at h
  cases h1 : readSize1 d1 i with
  | error e => rw [h1] at h; cases h
  | panic e => rw [h1] at h; cases h
  | ok p =>
    obtain ⟨code, o1⟩ := p
    rw [h1] at h
    simp only at h
    obtain ⟨_, rfl, hi⟩ := readSize1_ok h1
    split_ifs at h with cfix c16 c32
    · simp only [Ret.ok.injEq, Prod.mk.injEq] at h
      obtain ⟨rfl, rfl⟩ := h
      refine ⟨⟨by omega, by omega⟩, ?_⟩
      intro d2 hlen hag
      unfold mapLength
      rw [readSize1_window h1 (hag i (by omega) (by omega))]
      simp only [cfix, if_true]
    · cases h2 : readSize2 d1 (i + 1) with
      | error e => rw [h2] at h; cases h
      | panic e => rw [h2] at h; cases h
      | ok q =>
        obtain ⟨b, o2⟩ := q
        rw [h2] at h
        simp only [Ret.ok.injEq, Prod.mk.injEq] at h
        obtain ⟨rfl, rfl⟩ := h
        obtain ⟨hi2, _, rfl⟩ := readSizeN_ok h2
        simp only [Byte2] at hi2 ⊢
        refine ⟨⟨by omega, by omega⟩, ?_⟩
        intro d2 hlen hag
        unfold mapLength
        rw [readSize1_window h1 (hag i (by omega) (by omega))]
        simp only [cfix, if_false]
        rw [show readSize2 d2 (i + 1) = .ok (b, i + 1 + 2) from
          readSizeN_window h2 hlen
            (fun j hj1 hj2 => hag j (by omega) (by simp only [Byte2] at hj2; omega))]
        simp [c16]
    · cases h2 : readSize4 d1 (i + 1) with
      | error e => rw [h2] at h; cases h
      | panic e => rw [h2] at h; cases h
      | ok q =>
        obtain ⟨b, o2⟩ := q
        rw [h2] at h
        simp only [Ret.ok.injEq, Prod.mk.injEq] at h
        obtain ⟨rfl, rfl⟩ := h
        obtain ⟨hi2, _, rfl⟩ := readSizeN_ok h2
        simp only [Byte4] at hi2 ⊢
        refine ⟨⟨by omega, by omega⟩, ?_⟩
        intro d2 hlen hag
        unfold mapLength
        rw [readSize1_window h1 (hag i (by omega) (by omega))]
        simp only [cfix, c16, if_false]
        rw [show readSize4 d2 (i + 1) = .ok (b, i + 1 + 4) from
          readSizeN_window h2 hlen
            (fun j hj1 hj2 => hag j (by omega) (by simp only [Byte4] at hj2; omega))]
        simp [c32]

/-! ## Reads on two buffers of one length that agree from an offset on -/

theorem readSize1_tail {d1 d2 : List Byte} {j : Nat} (hlen : d1.length = d2.length)
    (hag : d1[j]? = d2[j]?) : readSize1 d2 j = readSize1 d1 j := by
  rw [readSize1_eq, readSize1_eq, hlen, List.getD_eq_getElem?_getD, List.getD_eq_getElem?_getD,
    hag]

theorem readSizeN_tail {d1 d2 : List Byte} {j n : Nat} (hlen : d1.length = d2.length)
    (hag : ∀ t, j ≤ t → d1[t]? = d2[t]?) : readSizeN d2 j n = readSizeN d1 j n := by
  unfold readSizeN
  rw [hlen]
  by_cases h : d2.length < j + n
  · rw [if_pos h, if_pos h]
  · rw [if_neg h, if_neg h, take_drop_window (fun t ht _ => hag t ht)]

theorem asInt_tail {d1 d2 : List Byte} {i : Nat} {k : Kind} (hlen : d1.length = d2.length)
    (hag : ∀ t, i ≤ t → d1[t]? = d2[t]?) : asInt d2 i k = asInt d1 i k := by
  unfold asInt readSize2 readSize4 readSize8
  rw [readSize1_tail hlen (hag i (le_refl _)), readSize1_tail hlen (hag (i + 1) (by omega)),
    readSizeN_tail hlen (fun t ht => hag t (by omega)),
    readSizeN_tail hlen (fun t ht => hag t (by omega)),
    readSizeN_tail hlen (fun t ht => hag t (by omega))]

theorem stringByteLength_tail {d1 d2 : List Byte} {i : Nat} {k : Kind}
    (hlen : d1.length = d2.length) (hag : ∀ t, i ≤ t → d1[t]? = d2[t]?) :
    stringByteLength d2 i k = stringByteLength d1 i k := by
  unfold stringByteLength
  rw [readSize1_tail hlen (hag i (le_refl _))]
  cases h1 : readSize1 d1 i with
  | error e => rfl
  | panic e => rfl
  | ok p =>
    obtain ⟨code, o⟩ := p
    obtain ⟨_, rfl, _⟩ := readSize1_ok h1
    dsimp only
    unfold readSize2 readSize4
    rw [readSize1_tail hlen (hag (i + 1) (by omega)),
      readSizeN_tail hlen (fun t ht => hag t (by omega)),
      readSizeN_tail hlen (fun t ht => hag t (by omega))]

theorem mapLength_tail {d1 d2 : List Byte} {i : Nat} {k : Kind}
    (hlen : d1.length = d2.length) (hag : ∀ t, i ≤ t → d1[t]? = d2[t]?) :
    mapLength d2 i k = mapLength d1 i k := by
  unfold mapLength
  rw [readSize1_tail hlen (hag i (le_refl _))]
  cases h1 : readSize1 d1 i with
  | error e => rfl
  | panic e => rfl
  | ok p =>
    obtain ⟨code, o⟩ := p
    obtain ⟨_, rfl, _⟩ := readSize1_ok h1
    dsimp only
    unfold readSize2 readSize4
    rw [readSizeN_tail hlen (fun t ht => hag t (by omega)),
      readSizeN_tail hlen (fun t ht => hag t (by omega))]

theorem asStringByteByLength_tail {d1 d2 : List Byte} {o l : Nat} {k : Kind}
    (hlen : d1.length = d2.length) (hag : ∀ t, o ≤ t → d1[t]? = d2[t]?) :
    asStringByteByLength d2 o l k = asStringByteByLength d1 o l k := by
  unfold asStringByteByLength
  rw [readSizeN_tail hlen hag]

theorem asStringByte_tail {d1 d2 : List Byte} {i : Nat} {k : Kind}
    (hlen : d1.length = d2.length) (hag : ∀ t, i ≤ t → d1[t]? = d2[t]?) :
    asStringByte d2 i k = asStringByte d1 i k := by
  unfold asStringByte
  rw [stringByteLength_tail hlen hag]
  cases h1 : stringByteLength d1 i k with
  | error e => rfl
  | panic e => rfl
  | ok p =>
    obtain ⟨l, o⟩ := p
    obtain ⟨⟨hb, _⟩, _⟩ := stringByteLength_window h1
    dsimp only
    exact asStringByteByLength_tail hlen (fun t ht => hag t (by omega))

theorem asString_tail {d1 d2 : List Byte} {i : Nat} {k : Kind}
    (hlen : d1.length = d2.length) (hag : ∀ t, i ≤ t → d1[t]? = d2[t]?) :
    asString d2 i k = asString d1 i k := by
  unfold asString
  rw [asStringByte_tail hlen hag]

/-! ## Reads on two buffers of one length that agree on what the first one reads -/

theorem asInt_same {d1 d2 : List Byte} {i : Nat} {k : Kind} (hlen : d1.length = d2.length)
    (hag : ∀ j, i ≤ j → (∀ v o, asInt d1 i k = .ok (v, o) → j < o) → d1[j]? = d2[j]?) :
    asInt d2 i k = asInt d1 i k := by
  cases h : asInt d1 i k with
  | error e =>
    rw [← h]
    exact asInt_tail hlen (fun t ht => hag t ht (fun v o h2 => by rw [h] at h2; cases h2))
  | panic e =>
    rw [← h]
    exact asInt_tail hlen (fun t ht => hag t ht (fun v o h2 => by rw [h] at h2; cases h2))
  | ok p =>
    obtain ⟨v, o⟩ := p
    exact (asInt_window h).2 d2 (le_of_eq hlen)
      (fun j hj1 hj2 => hag j hj1 (fun v2 o2 h2 => by rw [h] at h2; cases h2; exact hj2))

theorem asString_same {d1 d2 : List Byte} {i : Nat} {k : Kind} (hlen : d1.length = d2.length)
    (hag : ∀ j, i ≤ j → (∀ v o, asString d1 i k = .ok (v, o) → j < o) → d1[j]? = d2[j]?) :
    asString d2 i k = asString d1 i k := by
  cases h : asString d1 i k with
  | error e =>
    rw [← h]
    exact asString_tail hlen (fun t ht => hag t ht (fun v o h2 => by rw [h] at h2; cases h2))
  | panic e =>
    rw [← h]
    exact asString_tail hlen (fun t ht => hag t ht (fun v o h2 => by rw [h] at h2; cases h2))
  | ok p =>
    obtain ⟨v, o⟩ := p
    exact (asString_window h).2 d2 (le_of_eq hlen)
      (fun j hj1 hj2 => hag j hj1 (fun v2 o2 h2 => by rw [h] at h2; cases h2; exact hj2))

theorem mapLength_same {d1 d2 : List Byte} {i : Nat} {k : Kind} (hlen : d1.length = d2.length)
    (hag : ∀ j, i ≤ j → (∀ v o, mapLength d1 i k = .ok (v, o) → j < o) → d1[j]? = d2[j]?) :
    mapLength d2 i k = mapLength d1 i k := by
  cases h : mapLength d1 i k with
  | error e =>
    rw [← h]
    exact mapLength_tail hlen (fun t ht => hag t ht (fun v o h2 => by rw [h] at h2; cases h2))
  | panic e =>
    rw [← h]
    exact mapLength_tail hlen (fun t ht => hag t ht (fun v o h2 => by rw [h] at h2; cases h2))
  | ok p =>
    obtain ⟨v, o⟩ := p
    exact (mapLength_window h).2 d2 (le_of_eq hlen)
      (fun j hj1 hj2 => hag j hj1 (fun v2 o2 h2 => by rw [h] at h2; cases h2; exact hj2))

theorem stringByteLength_same {d1 d2 : List Byte} {i : Nat} {k : Kind}
    (hlen : d1.length = d2.length)
    (hag : ∀ j, i ≤ j → (∀ v o, stringByteLength d1 i k = .ok (v, o) → j < o) →
      d1[j]? = d2[j]?) :
    stringByteLength d2 i k = stringByteLength d1 i k := by
  cases h : stringByteLength d1 i k with
  | error e =>
    rw [← h]
    exact stringByteLength_tail hlen
      (fun t ht => hag t ht (fun v o h2 => by rw [h] at h2; cases h2))
  | panic e =>
    rw [← h]
    exact stringByteLength_tail hlen
      (fun t ht => hag t ht (fun v o h2 => by rw [h] at h2; cases h2))
  | ok p =>
    obtain ⟨v, o⟩ := p
    exact (stringByteLength_window h).2 d2 (le_of_eq hlen)
      (fun j hj1 hj2 => hag j hj1 (fun v2 o2 h2 => by rw [h] at h2; cases h2; exact hj2))

/-- A key read on two buffers of one length that agree on the header of the key:
the same failure, or keys of one length ending at one offset. -/
theorem asStringByte_key {d1 d2 : List Byte} {i : Nat} {k : Kind} (hlen : d1.length = d2.length)
    (hag : ∀ j, i ≤ j →
      (∀ key o, asStringByte d1 i k = .ok (key, o) → j < o - key.length) → d1[j]? = d2[j]?) :
    (∀ e, asStringByte d1 i k = .error e → asStringByte d2 i k = .error e) ∧
    (∀ key o, asStringByte d1 i k = .ok (key, o) →
      key.length ≤ o ∧ i < o - key.length ∧
      ∃ key2, asStringByte d2 i k = .ok (key2, o) ∧ key2.length = key.length) := by
  constructor
  · intro e he
    rw [← he]
    exact asStringByte_tail hlen (fun t ht => hag t ht (fun key o h => by rw [he] at h; cases h))
  · intro key o h
    have h0 := h
    unfold asStringByte at h
    cases h1 : stringByteLength d1 i k with
    | error e => rw [h1] at h; cases h
    | panic e => rw [h1] at h; cases h
    | ok p =>
      obtain ⟨l, o1⟩ := p
      rw [h1] at h
      dsimp only at h
      obtain ⟨⟨hb1, hb2⟩, hw1⟩ := stringByteLength_window h1
      obtain ⟨⟨rfl, hkl, _⟩, _⟩ := asStringByteByLength_window h
      have ho1 : o1 + l - key.length = o1 := by omega
      refine ⟨by omega, by omega, ?_⟩
      have hs2 : stringByteLength d2 i k = .ok (l, o1) :=
        hw1 d2 (le_of_eq hlen)
          (fun j hj1 hj2 => hag j hj1 (fun key2 o2 h2 => by
            rw [h0] at h2
            simp only [Ret.ok.injEq, Prod.mk.injEq] at h2
            obtain ⟨rfl, rfl⟩ := h2
            omega))
      unfold asStringByte
      rw [hs2]
      dsimp only
      unfold asStringByteByLength at h ⊢
      by_cases hl : l < 1
      · rw [if_pos hl] at h
        rw [if_pos hl]
        simp only [Ret.ok.injEq, Prod.mk.injEq] at h
        have hl0 : l = 0 := by omega
        exact ⟨[], by rw [hl0, Nat.add_zero], by rw [← h.1]⟩
      · rw [if_neg hl] at h
        rw [if_neg hl]
        obtain ⟨hr1, _, _⟩ := readSizeN_ok h
        refine ⟨(d2.drop o1).take l, ?_, ?_⟩
        · unfold readSizeN
          rw [if_neg (by omega)]
        · simp only [List.length_take, List.length_drop]
          omega

/-- A key read that panics on a buffer panics alike on every buffer of that length
that agrees with it from the offset on. -/
theorem asStringByte_key_panic {d1 d2 : List Byte} {i : Nat} {k : Kind}
    (hlen : d1.length = d2.length)
    (hag : ∀ j, i ≤ j →
      (∀ key o, asStringByte d1 i k = .ok (key, o) → j < o - key.length) → d1[j]? = d2[j]?)
    (p : Panic) (hp : asStringByte d1 i k = .panic p) : asStringByte d2 i k = .panic p := by
  rw [← hp]
  exact asStringByte_tail hlen (fun t ht => hag t ht (fun key o h => by rw [hp] at h; cases h))

/-! ## What a successful dispatch looks at -/

theorem hasRequiredLeastMapSize_of_le (data : List Byte) (o l : Nat) (ho : o ≤ data.length) :
    hasRequiredLeastMapSize data o l
      = if data.length - o < l * 2 then .error .mapLack else .ok () := by
  unfold hasRequiredLeastMapSize
  rw [if_neg (by omega)]
  simp only [List.length_drop]

theorem hasRequiredLeastMapSize_ok {data : List Byte} {o l : Nat}
    (h : hasRequiredLeastMapSize data o l = .ok ()) :
    o ≤ data.length ∧ l * 2 ≤ data.length - o := by
  unfold hasRequiredLeastMapSize at h
  simp only [List.length_drop] at h
  split_ifs at h with h1 h2
  constructor <;> omega

theorem hasRequiredLeastMapSize_mono {d1 d2 : List Byte} {o l : Nat}
    (h : hasRequiredLeastMapSize d1 o l = .ok ()) (hlen : d1.length ≤ d2.length) :
    hasRequiredLeastMapSize d2 o l = .ok () := by
  obtain ⟨h1, h2⟩ := hasRequiredLeastMapSize_ok h
  rw [hasRequiredLeastMapSize_of_le d2 o l (by omega), if_neg (by omega)]

theorem entries_window (decOn : List Byte → Value → Nat → Option (Value × Ret Nat))
    (d1 : List Byte) (hdec : DecWindow decOn d1) (tm : typeMap) (k : Kind) :
    ∀ (n : Nat) (fs : List (FieldInfo × Value)) (o : Nat) (fs2 : List (FieldInfo × Value))
      (o' : Nat), entries (decOn d1) d1 tm k n fs o = some (fs2, .ok o') →
      (o ≤ o' ∧ (o ≤ d1.length → o' ≤ d1.length)) ∧
      ∀ d2 : List Byte, d1.length ≤ d2.length → (∀ j, o ≤ j → j < o' → d1[j]? = d2[j]?) →
        entries (decOn d2) d2 tm k n fs o = some (fs2, .ok o') := by
  intro n
  induction n with
  | zero =>
    intro fs o fs2 o' h
    simp only [entries, Option.some.injEq, Prod.mk.injEq, Ret.ok.injEq] at h
    obtain ⟨rfl, rfl⟩ := h
    refine ⟨⟨le_refl _, fun h => h⟩, ?_⟩
    intro d2 _ _
    simp only [entries]
  | succ n ih =>
    intro fs o fs2 o' h
    unfold entries at h
    cases hk : asStringByte d1 o k with
    | error e => rw [hk] at h; simp at h
    | panic e => rw [hk] at h; simp at h
    | ok p =>
      obtain ⟨dataKey, o2⟩ := p
      rw [hk] at h
      dsimp only at h
      obtain ⟨⟨hk1, hk2⟩, hkw⟩ := asStringByte_window hk
      by_cases hneg : matchField tm dataKey tm.keys 0 (-1) < 0
      · rw [if_pos hneg] at h; simp at h
      · rw [if_neg hneg] at h
        cases hget : fs.get? (matchField tm dataKey tm.keys 0 (-1)).toNat with
        | none => rw [hget] at h; simp at h
        | some q =>
          obtain ⟨info, field⟩ := q
          rw [hget] at h
          dsimp only at h
          cases hd : decOn d1 field o2 with
          | none => rw [hd] at h; simp at h
          | some r =>
            obtain ⟨field2, ret⟩ := r
            rw [hd] at h
            cases ret with
            | error e => simp at h
            | panic p => simp at h
            | ok o3 =>
              dsimp only at h
              obtain ⟨⟨hd1, hd2⟩, hdw⟩ := hdec field o2 field2 o3 hd
              obtain ⟨⟨hr1, hr2⟩, hrw⟩ := ih _ o3 fs2 o' h
              refine ⟨⟨by omega, fun _ => hr2 hd2⟩, ?_⟩
              intro d2 hlen hag
              unfold entries
              rw [hkw d2 hlen (fun j hj1 hj2 => hag j hj1 (by omega))]
              dsimp only
              rw [if_neg hneg, hget]
              dsimp only
              rw [hdw d2 hlen (fun j hj1 hj2 => hag j (by omega) (by omega))]
              dsimp only
              exact hrw d2 hlen (fun j hj1 hj2 => hag j (by omega) hj2)

theorem decode_window (fuel : Nat) (d1 : List Byte) :
    DecWindow (decode fuel) d1 := by
  induction fuel with
  | zero =>
    intro rv off rv2 o h
    simp [decode] at h
  | succ fuel ih =>
    intro rv off rv2 o h
    cases rv with
    | other kd => simp [decode] at h
    | int ki vi =>
      simp only [decode] at h
      cases h1 : asInt d1 off ki.toKind with
      | error e => rw [h1] at h; simp at h
      | panic e => rw [h1] at h; simp at h
      | ok p =>
        obtain ⟨v, o1⟩ := p
        rw [h1] at h
        simp only [Option.some.injEq, Prod.mk.injEq, Ret.ok.injEq] at h
        obtain ⟨rfl, rfl⟩ := h
        obtain ⟨hb, hw⟩ := asInt_window h1
        refine ⟨hb, ?_⟩
        intro d2 hlen hag
        simp only [decode, hw d2 hlen hag]
    | str s =>
      simp only [decode] at h
      cases h1 : asString d1 off Kind.string with
      | error e => rw [h1] at h; simp at h
      | panic e => rw [h1] at h; simp at h
      | ok p =>
        obtain ⟨v, o1⟩ := p
        rw [h1] at h
        simp only [Option.some.injEq, Prod.mk.injEq, Ret.ok.injEq] at h
        obtain ⟨rfl, rfl⟩ := h
        obtain ⟨hb, hw⟩ := asString_window h1
        refine ⟨hb, ?_⟩
        intro d2 hlen hag
        simp only [decode, hw d2 hlen hag]
    | struct fs =>
      simp only [decode] at h
      cases hs : setStruct (decode fuel d1) d1 fs off Kind.struct with
      | none => rw [hs] at h; simp at h
      | some r =>
        obtain ⟨fs2, ret⟩ := r
        rw [hs] at h
        cases ret with
        | error e => simp at h
        | panic p => simp at h
        | ok o1 =>
          simp only [Option.some.injEq, Prod.mk.injEq, Ret.ok.injEq] at h
          obtain ⟨rfl, rfl⟩ := h
          unfold setStruct at hs
          cases hm : mapLength d1 off Kind.struct with
          | error e => rw [hm] at hs; simp at hs
          | panic e => rw [hm] at hs; simp at hs
          | ok p =>
            obtain ⟨l, om⟩ := p
            rw [hm] at hs
            dsimp only at hs
            cases hq : hasRequiredLeastMapSize d1 om l with
            | error e => rw [hq] at hs; simp at hs
            | panic e => rw [hq] at hs; simp at hs
            | ok u =>
              rw [hq] at hs
              dsimp only at hs
              obtain ⟨⟨hm1, hm2⟩, hmw⟩ := mapLength_window hm
              obtain ⟨⟨he1, he2⟩, hew⟩ := entries_window (decode fuel) d1 ih _ _ _ _ _ _ _ hs
              refine ⟨⟨by omega, he2 hm2⟩, ?_⟩
              intro d2 hlen hag
              simp only [decode]
              unfold setStruct
              rw [hmw d2 hlen (fun j hj1 hj2 => hag j hj1 (by omega))]
              dsimp only
              rw [hasRequiredLeastMapSize_mono hq hlen]
              dsimp only
              rw [hew d2 hlen (fun j hj1 hj2 => hag j (by omega) hj2)]

/-! ## The entry loop, step by step -/

theorem asStringByte_ok_bounds {d : List Byte} {i : Nat} {k : Kind} {key : List Byte} {o : Nat}
    (h : asStringByte d i k = .ok (key, o)) :
    key.length ≤ o ∧ i < o - key.length ∧ o ≤ d.length := by
  have h0 := h
  unfold asStringByte at h
  cases h1 : stringByteLength d i k with
  | error e => rw [h1] at h; cases h
  | panic e => rw [h1] at h; cases h
  | ok p =>
    obtain ⟨l, o1⟩ := p
    rw [h1] at h
    dsimp only at h
    obtain ⟨⟨hb1, hb2⟩, _⟩ := stringByteLength_window h1
    obtain ⟨⟨rfl, hkl, hb3⟩, _⟩ := asStringByteByLength_window h
    have := hb3 hb2
    refine ⟨by omega, by omega, this⟩

theorem matchField_length (tm : typeMap) (key1 key2 : List Byte)
    (hlen : key1.length = key2.length) :
    ∀ (keys : List (List Byte)) (keyIndex : Nat) (fieldIndex : Int),
      matchField tm key1 keys keyIndex fieldIndex = matchField tm key2 keys keyIndex fieldIndex := by
  intro keys
  induction keys with
  | nil => intro keyIndex fieldIndex; rfl
  | cons keyBytes rest ih =>
    intro keyIndex fieldIndex
    simp only [matchField, hlen, ih]

theorem entries_succ_error {dec : Value → Nat → Option (Value × Ret Nat)} {d : List Byte}
    {tm : typeMap} {k : Kind} {n : Nat} {fs : List (FieldInfo × Value)} {o : Nat} {e : Error}
    (hk : asStringByte d o k = .error e) :
    entries dec d tm k (n + 1) fs o = some (fs, .error e) := by
  rw [entries, hk]

theorem entries_succ_panic {dec : Value → Nat → Option (Value × Ret Nat)} {d : List Byte}
    {tm : typeMap} {k : Kind} {n : Nat} {fs : List (FieldInfo × Value)} {o : Nat} {p : Panic}
    (hk : asStringByte d o k = .panic p) :
    entries dec d tm k (n + 1) fs o = some (fs, .panic p) := by
  rw [entries, hk]

theorem entries_succ_neg {dec : Value → Nat → Option (Value × Ret Nat)} {d : List Byte}
    {tm : typeMap} {k : Kind} {n : Nat} {fs : List (FieldInfo × Value)} {o : Nat}
    {key : List Byte} {o2 : Nat}
    (hk : asStringByte d o k = .ok (key, o2)) (hneg : matchField tm key tm.keys 0 (-1) < 0) :
    entries dec d tm k (n + 1) fs o
      = some (fs, .panic (.fieldIndexOutOfRange (matchField tm key tm.keys 0 (-1)))) := by
  rw [entries, hk]
  dsimp only
  rw [if_pos hneg]

theorem entries_succ_none {dec : Value → Nat → Option (Value × Ret Nat)} {d : List Byte}
    {tm : typeMap} {k : Kind} {n : Nat} {fs : List (FieldInfo × Value)} {o : Nat}
    {key : List Byte} {o2 : Nat}
    (hk : asStringByte d o k = .ok (key, o2)) (hneg : ¬ matchField tm key tm.keys 0 (-1) < 0)
    (hget : fs.get? (matchField tm key tm.keys 0 (-1)).toNat = none) :
    entries dec d tm k (n + 1) fs o
      = some (fs, .panic (.fieldIndexOutOfRange (matchField tm key tm.keys 0 (-1)))) := by
  rw [entries, hk]
  dsimp only
  rw [if_neg hneg, hget]

theorem entries_succ_field {dec : Value → Nat → Option (Value × Ret Nat)} {d : List Byte}
    {tm : typeMap} {k : Kind} {n : Nat} {fs : List (FieldInfo × Value)} {o : Nat}
    {key : List Byte} {o2 : Nat} {info : FieldInfo} {field : Value}
    (hk : asStringByte d o k = .ok (key, o2)) (hneg : ¬ matchField tm key tm.keys 0 (-1) < 0)
    (hget : fs.get? (matchField tm key tm.keys 0 (-1)).toNat = some (info, field)) :
    entries dec d tm k (n + 1) fs o =
      match dec field o2 with
      | none => none
      | some (field2, .ok o3) =>
        entries dec d tm k n (fs.set (matchField tm key tm.keys 0 (-1)).toNat (info, field2)) o3
      | some (field2, .error e) =>
        some (fs.set (matchField tm key tm.keys 0 (-1)).toNat (info, field2), .error e)
      | some (field2, .panic p) =>
        some (fs.set (matchField tm key tm.keys 0 (-1)).toNat (info, field2), .panic p) := by
  rw [entries, hk]
  dsimp only
  rw [if_neg hneg, hget]

/-- A successful run of the entry loop: its first entry. -/
theorem entries_succ_ok {dec : Value → Nat → Option (Value × Ret Nat)} {d : List Byte}
    {tm : typeMap} {k : Kind} {n : Nat} {fs fs2 : List (FieldInfo × Value)} {o o' : Nat}
    (h : entries dec d tm k (n + 1) fs o = some (fs2, .ok o')) :
    ∃ key o2 info field field2 o3,
      asStringByte d o k = .ok (key, o2) ∧ ¬ matchField tm key tm.keys 0 (-1) < 0 ∧
      fs.get? (matchField tm key tm.keys 0 (-1)).toNat = some (info, field) ∧
      dec field o2 = some (field2, .ok o3) ∧
      entries dec d tm k n (fs.set (matchField tm key tm.keys 0 (-1)).toNat (info, field2)) o3
        = some (fs2, .ok o') := by
  cases hk : asStringByte d o k with
  | error e => rw [entries_succ_error hk] at h; simp at h
  | panic e => rw [entries_succ_panic hk] at h; simp at h
  | ok p =>
    obtain ⟨key, o2⟩ := p
    by_cases hneg : matchField tm key tm.keys 0 (-1) < 0
    · rw [entries_succ_neg hk hneg] at h; simp at h
    · cases hget : fs.get? (matchField tm key tm.keys 0 (-1)).toNat with
      | none => rw [entries_succ_none hk hneg hget] at h; simp at h
      | some q =>
        obtain ⟨info, field⟩ := q
        rw [entries_succ_field hk hneg hget] at h
        cases hd : dec field o2 with
        | none => rw [hd] at h; simp at h
        | some r =>
          obtain ⟨field2, ret⟩ := r
          rw [hd] at h
          cases ret with
          | error e => simp at h
          | panic p => simp at h
          | ok o3 => exact ⟨key, o2, info, field, field2, o3, rfl, hneg, hget, hd, h⟩

/-! ## Where the key spans lie -/

theorem inSpans_nil (j : Nat) : inSpans [] j = false := rfl

theorem inSpans_cons (s : Nat × Nat) (l : List (Nat × Nat)) (j : Nat) :
    inSpans (s :: l) j = (decide (s.1 ≤ j ∧ j < s.1 + s.2) || inSpans l j) := by
  simp [inSpans]

theorem inSpans_append (l1 l2 : List (Nat × Nat)) (j : Nat) :
    inSpans (l1 ++ l2) j = (inSpans l1 j || inSpans l2 j) := by
  simp [inSpans]

theorem entrySpans_succ_error {dec : Value → Nat → Option (Value × Ret Nat)}
    {spans : Value → Nat → List (Nat × Nat)} {d : List Byte}
    {tm : typeMap} {k : Kind} {n : Nat} {fs : List (FieldInfo × Value)} {o : Nat} {e : Error}
    (hk : asStringByte d o k = .error e) :
    entrySpans dec spans d tm k (n + 1) fs o = [] := by
  rw [entrySpans, hk]

theorem entrySpans_succ_panic {dec : Value → Nat → Option (Value × Ret Nat)}
    {spans : Value → Nat → List (Nat × Nat)} {d : List Byte}
    {tm : typeMap} {k : Kind} {n : Nat} {fs : List (FieldInfo × Value)} {o : Nat} {p : Panic}
    (hk : asStringByte d o k = .panic p) :
    entrySpans dec spans d tm k (n + 1) fs o = [] := by
  rw [entrySpans, hk]

theorem entrySpans_succ_neg {dec : Value → Nat → Option (Value × Ret Nat)}
    {spans : Value → Nat → List (Nat × Nat)} {d : List Byte}
    {tm : typeMap} {k : Kind} {n : Nat} {fs : List (FieldInfo × Value)} {o : Nat}
    {key : List Byte} {o2 : Nat}
    (hk : asStringByte d o k = .ok (key, o2)) (hneg : matchField tm key tm.keys 0 (-1) < 0) :
    entrySpans dec spans d tm k (n + 1) fs o = [(o2 - key.length, key.length)] := by
  rw [entrySpans, hk]
  dsimp only
  rw [if_pos hneg]

theorem entrySpans_succ_none {dec : Value → Nat → Option (Value × Ret Nat)}
    {spans : Value → Nat → List (Nat × Nat)} {d : List Byte}
    {tm : typeMap} {k : Kind} {n : Nat} {fs : List (FieldInfo × Value)} {o : Nat}
    {key : List Byte} {o2 : Nat}
    (hk : asStringByte d o k = .ok (key, o2)) (hneg : ¬ matchField tm key tm.keys 0 (-1) < 0)
    (hget : fs.get? (matchField tm key tm.keys 0 (-1)).toNat = none) :
    entrySpans dec spans d tm k (n + 1) fs o = [(o2 - key.length, key.length)] := by
  rw [entrySpans, hk]
  dsimp only
  rw [if_neg hneg, hget]

theorem entrySpans_succ_field {dec : Value → Nat → Option (Value × Ret Nat)}
    {spans : Value → Nat → List (Nat × Nat)} {d : List Byte}
    {tm : typeMap} {k : Kind} {n : Nat} {fs : List (FieldInfo × Value)} {o : Nat}
    {key : List Byte} {o2 : Nat} {info : FieldInfo} {field : Value}
    (hk : asStringByte d o k = .ok (key, o2)) (hneg : ¬ matchField tm key tm.keys 0 (-1) < 0)
    (hget : fs.get? (matchField tm key tm.keys 0 (-1)).toNat = some (info, field)) :
    entrySpans dec spans d tm k (n + 1) fs o =
      (o2 - key.length, key.length) ::
        (spans field o2 ++
          match dec field o2 with
          | some (field2, .ok o3) =>
            entrySpans dec spans d tm k n
              (fs.set (matchField tm key tm.keys 0 (-1)).toNat (info, field2)) o3
          | _ => []) := by
  rw [entrySpans, hk]
  dsimp only
  rw [if_neg hneg, hget]

theorem entries_ok_le (decOn : List Byte → Value → Nat → Option (Value × Ret Nat))
    (d : List Byte) (hw : DecWindow decOn d) (tm : typeMap) (k : Kind) (n : Nat)
    (fs fs2 : List (FieldInfo × Value)) (o o' : Nat)
    (h : entries (decOn d) d tm k n fs o = some (fs2, .ok o')) : o ≤ o' :=
  (entries_window decOn d hw tm k n fs o fs2 o' h).1.1

/-- Every key span of a run of the entry loop lies at or after the payload of its
first key and, when the run succeeds, before the offset it returns. -/
theorem entrySpans_bound (decOn : List Byte → Value → Nat → Option (Value × Ret Nat))
    (spansOn : Value → Nat → List (Nat × Nat)) (d : List Byte) (hw : DecWindow decOn d)
    (hsb : ∀ rv off j, inSpans (spansOn rv off) j = true →
      off ≤ j ∧ ∀ rv2 o, decOn d rv off = some (rv2, .ok o) → j < o)
    (tm : typeMap) (k : Kind) :
    ∀ (n : Nat) (fs : List (FieldInfo × Value)) (o j : Nat),
      inSpans (entrySpans (decOn d) spansOn d tm k n fs o) j = true →
      (∀ key o2, asStringByte d o k = .ok (key, o2) → o2 - key.length ≤ j) ∧ o ≤ j ∧
      ∀ fs2 o', entries (decOn d) d tm k n fs o = some (fs2, .ok o') → j < o' := by
  intro n
  induction n with
  | zero => intro fs o j h; simp [entrySpans, inSpans] at h
  | succ n ih =>
    intro fs o j h
    cases hk : asStringByte d o k with
    | error e => rw [entrySpans_succ_error hk, inSpans_nil] at h; cases h
    | panic e => rw [entrySpans_succ_panic hk, inSpans_nil] at h; cases h
    | ok p =>
      obtain ⟨key, o2⟩ := p
      obtain ⟨kb1, kb2, kb3⟩ := asStringByte_ok_bounds hk
      have hrest : o2 - key.length ≤ j ∧
          ∀ fs2 o', entries (decOn d) d tm k (n + 1) fs o = some (fs2, .ok o') → j < o' := by
        by_cases hneg : matchField tm key tm.keys 0 (-1) < 0
        · rw [entrySpans_succ_neg hk hneg, inSpans_cons, inSpans_nil] at h
          simp only [Bool.or_false, decide_eq_true_eq] at h
          refine ⟨h.1, ?_⟩
          intro fs2 o' he
          rw [entries_succ_neg hk hneg] at he; simp at he
        · cases hget : fs.get? (matchField tm key tm.keys 0 (-1)).toNat with
          | none =>
            rw [entrySpans_succ_none hk hneg hget, inSpans_cons, inSpans_nil] at h
            simp only [Bool.or_false, decide_eq_true_eq] at h
            refine ⟨h.1, ?_⟩
            intro fs2 o' he
            rw [entries_succ_none hk hneg hget] at he; simp at he
          | some q =>
            obtain ⟨info, field⟩ := q
            rw [entrySpans_succ_field hk hneg hget, inSpans_cons, inSpans_append] at h
            simp only [Bool.or_eq_true, decide_eq_true_eq] at h
            cases hd : decOn d field o2 with
            | none =>
              rw [hd] at h
              refine ⟨?_, ?_⟩
              · rcases h with h | h | h
                · exact h.1
                · have := (hsb field o2 j h).1; omega
                · simp [inSpans] at h
              · intro fs2 o' he
                rw [entries_succ_field hk hneg hget, hd] at he; simp at he
            | some r =>
              obtain ⟨field2, ret⟩ := r
              rw [hd] at h
              cases ret with
              | error e =>
                refine ⟨?_, ?_⟩
                · rcases h with h | h | h
                  · exact h.1
                  · have := (hsb field o2 j h).1; omega
                  · simp [inSpans] at h
                · intro fs2 o' he
                  rw [entries_succ_field hk hneg hget, hd] at he; simp at he
              | panic p =>
                refine ⟨?_, ?_⟩
                · rcases h with h | h | h
                  · exact h.1
                  · have := (hsb field o2 j h).1; omega
                  · simp [inSpans] at h
                · intro fs2 o' he
                  rw [entries_succ_field hk hneg hget, hd] at he; simp at he
              | ok o3 =>
                dsimp only at h
                have hd3 : o2 < o3 := (hw field o2 field2 o3 hd).1.1
                refine ⟨?_, ?_⟩
                · rcases h with h | h | h
                  · exact h.1
                  · have := (hsb field o2 j h).1; omega
                  · have := (ih _ o3 j h).2.1; omega
                · intro fs2 o' he
                  rw [entries_succ_field hk hneg hget, hd] at he
                  dsimp only at he
                  have ho3 : o3 ≤ o' := entries_ok_le decOn d hw tm k n _ fs2 o3 o' he
                  rcases h with h | h | h
                  · omega
                  · have := (hsb field o2 j h).2 field2 o3 hd; omega
                  · exact (ih _ o3 j h).2.2 fs2 o' he
      refine ⟨?_, by omega, hrest.2⟩
      intro key' o2' he
      simp only [Ret.ok.injEq, Prod.mk.injEq] at he
      obtain ⟨rfl, rfl⟩ := he
      exact hrest.1

/-- Every key span of a dispatch lies at or after its first offset and, when the
dispatch succeeds, before the offset it returns. -/
theorem keySpans_bound (fuel : Nat) (d : List Byte) :
    ∀ rv off j, inSpans (keySpans fuel d rv off) j = true →
      off ≤ j ∧ ∀ rv2 o, decode fuel d rv off = some (rv2, .ok o) → j < o := by
  induction fuel with
  | zero => intro rv off j h; simp [keySpans, inSpans] at h
  | succ fuel ih =>
    intro rv off j h
    cases rv with
    | other kd => simp [keySpans, inSpans] at h
    | int ki vi => simp [keySpans, inSpans] at h
    | str s => simp [keySpans, inSpans] at h
    | struct fs =>
      simp only [keySpans] at h
      cases hm : mapLength d off Kind.struct with
      | error e => rw [hm] at h; simp [inSpans] at h
      | panic e => rw [hm] at h; simp [inSpans] at h
      | ok p =>
        obtain ⟨l, om⟩ := p
        rw [hm] at h
        dsimp only at h
        obtain ⟨⟨hm1, hm2⟩, _⟩ := mapLength_window hm
        cases hq : hasRequiredLeastMapSize d om l with
        | error e => rw [hq] at h; simp [inSpans] at h
        | panic e => rw [hq] at h; simp [inSpans] at h
        | ok u =>
          rw [hq] at h
          dsimp only at h
          obtain ⟨_, hb1, hb2⟩ := entrySpans_bound (decode fuel) (keySpans fuel d) d
            (decode_window fuel d) ih _ _ _ _ _ _ h
          refine ⟨by omega, ?_⟩
          intro rv2 o hdec
          simp only [decode, setStruct, hm, hq] at hdec
          cases he : entries (decode fuel d) d (fieldMap fs 0 { keys := [], indexes := [] })
              Kind.struct l fs om with
          | none => rw [he] at hdec; simp at hdec
          | some r =>
            obtain ⟨fs2, ret⟩ := r
            rw [he] at hdec
            cases ret with
            | error e => simp at hdec
            | panic p => simp at hdec
            | ok o1 =>
              simp only [Option.some.injEq, Prod.mk.injEq, Ret.ok.injEq] at hdec
              obtain ⟨_, rfl⟩ := hdec
              exact hb2 fs2 o1 he

/-! ## Buffers that differ only inside key payloads -/

theorem hasRequiredLeastMapSize_len {d1 d2 : List Byte} (o l : Nat)
    (hlen : d1.length = d2.length) :
    hasRequiredLeastMapSize d2 o l = hasRequiredLeastMapSize d1 o l := by
  unfold hasRequiredLeastMapSize
  simp only [List.length_drop, hlen]

theorem entries_same (decOn : List Byte → Value → Nat → Option (Value × Ret Nat))
    (spansOn : List Byte → Value → Nat → List (Nat × Nat)) (d1 d2 : List Byte)
    (hlen : d1.length = d2.length) (hw : DecWindow decOn d1)
    (hsb : ∀ rv off j, inSpans (spansOn d1 rv off) j = true →
      off ≤ j ∧ ∀ rv2 o, decOn d1 rv off = some (rv2, .ok o) → j < o)
    (hsame : ∀ rv off,
      (∀ j, off ≤ j → (∀ rv2 o, decOn d1 rv off = some (rv2, .ok o) → j < o) →
        inSpans (spansOn d1 rv off) j = false → d1[j]? = d2[j]?) →
      decOn d2 rv off = decOn d1 rv off ∧ spansOn d2 rv off = spansOn d1 rv off)
    (tm : typeMap) (k : Kind) :
    ∀ (n : Nat) (fs : List (FieldInfo × Value)) (o : Nat),
      (∀ j, o ≤ j →
        (∀ fs2 o', entries (decOn d1) d1 tm k n fs o = some (fs2, .ok o') → j < o') →
        inSpans (entrySpans (decOn d1) (spansOn d1) d1 tm k n fs o) j = false →
        d1[j]? = d2[j]?) →
      entries (decOn d2) d2 tm k n fs o = entries (decOn d1) d1 tm k n fs o ∧
      entrySpans (decOn d2) (spansOn d2) d2 tm k n fs o
        = entrySpans (decOn d1) (spansOn d1) d1 tm k n fs o := by
  intro n
  induction n with
  | zero => intro fs o _; exact ⟨rfl, rfl⟩
  | succ n ih =>
    intro fs o H
    cases hk : asStringByte d1 o k with
    | error e =>
      rw [entries_succ_error hk, entrySpans_succ_error hk]
      rw [entries_succ_error hk, entrySpans_succ_error hk] at H
      have hk2 : asStringByte d2 o k = .error e :=
        (asStringByte_key hlen (fun j hj _ =>
          H j hj (fun fs2 o' he => by simp at he) (inSpans_nil j))).1 e hk
      rw [entries_succ_error hk2, entrySpans_succ_error hk2]
      exact ⟨rfl, rfl⟩
    | panic e =>
      rw [entries_succ_panic hk, entrySpans_succ_panic hk]
      rw [entries_succ_panic hk, entrySpans_succ_panic hk] at H
      have hk2 : asStringByte d2 o k = .panic e :=
        asStringByte_key_panic hlen (fun j hj _ =>
          H j hj (fun fs2 o' he => by simp at he) (inSpans_nil j)) e hk
      rw [entries_succ_panic hk2, entrySpans_succ_panic hk2]
      exact ⟨rfl, rfl⟩
    | ok p =>
      obtain ⟨key, o2⟩ := p
      obtain ⟨kb1, kb2, kb3⟩ := asStringByte_ok_bounds hk
      -- the header of the key is outside every span and before the returned offset
      have hhead : ∀ j, o ≤ j → j < o2 - key.length → d1[j]? = d2[j]? := by
        intro j hj1 hj2
        apply H j hj1
        · intro fs2 o' he
          obtain ⟨key', o2', info, field, field2, o3, hk', _, _, hd, hr⟩ := entries_succ_ok he
          rw [hk] at hk'
          simp only [Ret.ok.injEq, Prod.mk.injEq] at hk'
          obtain ⟨rfl, rfl⟩ := hk'
          have := (hw field o2 field2 o3 hd).1.1
          have := entries_ok_le decOn d1 hw tm k n _ fs2 o3 o' hr
          omega
        · cases hin : inSpans (entrySpans (decOn d1) (spansOn d1) d1 tm k (n + 1) fs o) j with
          | false => rfl
          | true =>
            have := (entrySpans_bound decOn (spansOn d1) d1 hw hsb tm k (n + 1) fs o j hin).1
              key o2 hk
            omega
      obtain ⟨key2, hk2, hkl⟩ := ((asStringByte_key hlen (fun j hj hb =>
        hhead j hj (hb key o2 hk))).2 key o2 hk).2.2
      have hmf : matchField tm key2 tm.keys 0 (-1) = matchField tm key tm.keys 0 (-1) :=
        matchField_length tm key2 key hkl tm.keys 0 (-1)
      by_cases hneg : matchField tm key tm.keys 0 (-1) < 0
      · rw [entries_succ_neg hk hneg, entries_succ_neg hk2 (by rw [hmf]; exact hneg), hmf,
          entrySpans_succ_neg hk hneg, entrySpans_succ_neg hk2 (by rw [hmf]; exact hneg), hkl]
        exact ⟨rfl, rfl⟩
      · cases hget : fs.get? (matchField tm key tm.keys 0 (-1)).toNat with
        | none =>
          rw [entries_succ_none hk hneg hget,
            entries_succ_none hk2 (by rw [hmf]; exact hneg) (by rw [hmf]; exact hget), hmf,
            entrySpans_succ_none hk hneg hget,
            entrySpans_succ_none hk2 (by rw [hmf]; exact hneg) (by rw [hmf]; exact hget), hkl]
          exact ⟨rfl, rfl⟩
        | some q =>
          obtain ⟨info, field⟩ := q
          rw [entries_succ_field hk hneg hget,
            entries_succ_field hk2 (by rw [hmf]; exact hneg) (by rw [hmf]; exact hget), hmf,
            entrySpans_succ_field hk hneg hget,
            entrySpans_succ_field hk2 (by rw [hmf]; exact hneg) (by rw [hmf]; exact hget), hmf,
            hkl]
          rw [entries_succ_field hk hneg hget, entrySpans_succ_field hk hneg hget] at H
          -- the value
          have hval : decOn d2 field o2 = decOn d1 field o2 ∧
              spansOn d2 field o2 = spansOn d1 field o2 := by
            apply hsame
            intro j hj hb hns
            apply H j (by omega)
            · intro fs2 o' he
              cases hd : decOn d1 field o2 with
              | none => rw [hd] at he; simp at he
              | some r =>
                obtain ⟨field2, ret⟩ := r
                rw [hd] at he
                cases ret with
                | error e => simp at he
                | panic p => simp at he
                | ok o3 =>
                  dsimp only at he
                  have := hb field2 o3 hd
                  have := entries_ok_le decOn d1 hw tm k n _ fs2 o3 o' he
                  omega
            · rw [inSpans_cons, inSpans_append, hns]
              simp only [Bool.false_or, Bool.or_eq_false_iff, decide_eq_false_iff_not]
              refine ⟨by omega, ?_⟩
              cases hd : decOn d1 field o2 with
              | none => rfl
              | some r =>
                obtain ⟨field2, ret⟩ := r
                cases ret with
                | error e => rfl
                | panic p => rfl
                | ok o3 =>
                  dsimp only
                  have hj3 := hb field2 o3 hd
                  cases hin : inSpans (entrySpans (decOn d1) (spansOn d1) d1 tm k n
                      (fs.set (matchField tm key tm.keys 0 (-1)).toNat (info, field2)) o3) j with
                  | false => rfl
                  | true =>
                    have := (entrySpans_bound decOn (spansOn d1) d1 hw hsb tm k n _ o3 j hin).2.1
                    omega
          rw [hval.1, hval.2]
          cases hd : decOn d1 field o2 with
          | none => exact ⟨rfl, rfl⟩
          | some r =>
            obtain ⟨field2, ret⟩ := r
            cases ret with
            | error e => exact ⟨rfl, rfl⟩
            | panic p => exact ⟨rfl, rfl⟩
            | ok o3 =>
              dsimp only
              rw [hd] at H
              dsimp only at H
              have hd3 : o2 < o3 := (hw field o2 field2 o3 hd).1.1
              have hrest := ih (fs.set (matchField tm key tm.keys 0 (-1)).toNat (info, field2)) o3
                ?_
              · exact ⟨hrest.1, by rw [hrest.2]⟩
              intro j hj hb hns
              apply H j (by omega) hb
              rw [inSpans_cons, inSpans_append, hns]
              simp only [Bool.or_false, Bool.or_eq_false_iff, decide_eq_false_iff_not]
              refine ⟨by omega, ?_⟩
              cases hin : inSpans (spansOn d1 field o2) j with
              | false => rfl
              | true =>
                have := (hsb field o2 j hin).2 field2 o3 hd
                omega

/-- Two buffers of one length that agree on every byte the dispatch on the first
reads outside key payloads give one result. -/
theorem decode_same (fuel : Nat) (d1 d2 : List Byte) (hlen : d1.length = d2.length) :
    ∀ rv off,
      (∀ j, off ≤ j → (∀ rv2 o, decode fuel d1 rv off = some (rv2, .ok o) → j < o) →
        inSpans (keySpans fuel d1 rv off) j = false → d1[j]? = d2[j]?) →
      decode fuel d2 rv off = decode fuel d1 rv off ∧
      keySpans fuel d2 rv off = keySpans fuel d1 rv off := by
  induction fuel with
  | zero => intro rv off _; exact ⟨rfl, rfl⟩
  | succ fuel ih =>
    intro rv off H
    cases rv with
    | other kd => exact ⟨rfl, rfl⟩
    | int ki vi =>
      refine ⟨?_, rfl⟩
      simp only [decode]
      have : asInt d2 off ki.toKind = asInt d1 off ki.toKind := by
        apply asInt_same hlen
        intro j hj hb
        apply H j hj
        · intro rv2 o hdec
          simp only [decode] at hdec
          cases h1 : asInt d1 off ki.toKind with
          | error e => rw [h1] at hdec; simp at hdec
          | panic e => rw [h1] at hdec; simp at hdec
          | ok p =>
            obtain ⟨v, o1⟩ := p
            rw [h1] at hdec
            simp only [Option.some.injEq, Prod.mk.injEq, Ret.ok.injEq] at hdec
            obtain ⟨_, rfl⟩ := hdec
            exact hb v o1 h1
        · simp [keySpans, inSpans]
      rw [this]
    | str s =>
      refine ⟨?_, rfl⟩
      simp only [decode]
      have : asString d2 off Kind.string = asString d1 off Kind.string := by
        apply asString_same hlen
        intro j hj hb
        apply H j hj
        · intro rv2 o hdec
          simp only [decode] at hdec
          cases h1 : asString d1 off Kind.string with
          | error e => rw [h1] at hdec; simp at hdec
          | panic e => rw [h1] at hdec; simp at hdec
          | ok p =>
            obtain ⟨v, o1⟩ := p
            rw [h1] at hdec
            simp only [Option.some.injEq, Prod.mk.injEq, Ret.ok.injEq] at hdec
            obtain ⟨_, rfl⟩ := hdec
            exact hb v o1 h1
        · simp [keySpans, inSpans]
      rw [this]
    | struct fs =>
      have hdec1 : ∀ (d : List Byte), decode (fuel + 1) d (.struct fs) off =
          match setStruct (decode fuel d) d fs off Kind.struct with
          | none => none
          | some (fs2, .ok o) => some (.struct fs2, .ok o)
          | some (fs2, .error e) => some (.struct fs2, .error e)
          | some (fs2, .panic p) => some (.struct fs2, .panic p) := fun d => by
        simp only [decode]
      have hset : setStruct (decode fuel d2) d2 fs off Kind.struct
            = setStruct (decode fuel d1) d1 fs off Kind.struct ∧
          keySpans (fuel + 1) d2 (.struct fs) off = keySpans (fuel + 1) d1 (.struct fs) off := by
        cases hm : mapLength d1 off Kind.struct with
        | error e =>
          have hm2 : mapLength d2 off Kind.struct = .error e := by
            rw [← hm]
            apply mapLength_same hlen
            intro j hj _
            apply H j hj
            · intro rv2 o hdec
              rw [hdec1] at hdec
              simp [setStruct, hm] at hdec
            · simp [keySpans, hm, inSpans]
          simp only [setStruct, keySpans, hm, hm2, and_self]
        | panic e =>
          have hm2 : mapLength d2 off Kind.struct = .panic e := by
            rw [← hm]
            apply mapLength_same hlen
            intro j hj _
            apply H j hj
            · intro rv2 o hdec
              rw [hdec1] at hdec
              simp [setStruct, hm] at hdec
            · simp [keySpans, hm, inSpans]
          simp only [setStruct, keySpans, hm, hm2, and_self]
        | ok p =>
          obtain ⟨l, om⟩ := p
          obtain ⟨⟨hm1, hm2⟩, _⟩ := mapLength_window hm
          cases hq : hasRequiredLeastMapSize d1 om l with
          | error e =>
            have hmm : mapLength d2 off Kind.struct = .ok (l, om) := by
              rw [← hm]
              apply mapLength_same hlen
              intro j hj _
              apply H j hj
              · intro rv2 o hdec
                rw [hdec1] at hdec
                simp [setStruct, hm, hq] at hdec
              · simp [keySpans, hm, hq, inSpans]
            simp only [setStruct, keySpans, hm, hmm, hasRequiredLeastMapSize_len om l hlen, hq,
              and_self]
          | panic e =>
            have hmm : mapLength d2 off Kind.struct = .ok (l, om) := by
              rw [← hm]
              apply mapLength_same hlen
              intro j hj _
              apply H j hj
              · intro rv2 o hdec
                rw [hdec1] at hdec
                simp [setStruct, hm, hq] at hdec
              · simp [keySpans, hm, hq, inSpans]
            simp only [setStruct, keySpans, hm, hmm, hasRequiredLeastMapSize_len om l hlen, hq,
              and_self]
          | ok u =>
            have hks : keySpans (fuel + 1) d1 (.struct fs) off
                = entrySpans (decode fuel d1) (keySpans fuel d1) d1
                    (fieldMap fs 0 { keys := [], indexes := [] }) Kind.struct l fs om := by
              simp only [keySpans, hm, hq]
            have hset1 : setStruct (decode fuel d1) d1 fs off Kind.struct
                = entries (decode fuel d1) d1 (fieldMap fs 0 { keys := [], indexes := [] })
                    Kind.struct l fs om := by
              simp only [setStruct, hm, hq]
            have hbound : ∀ j, (∀ fs2 o', entries (decode fuel d1) d1
                  (fieldMap fs 0 { keys := [], indexes := [] }) Kind.struct l fs om
                    = some (fs2, .ok o') → j < o') →
                ∀ rv2 o, decode (fuel + 1) d1 (.struct fs) off = some (rv2, .ok o) → j < o := by
              intro j hb rv2 o hdec
              rw [hdec1, hset1] at hdec
              cases he : entries (decode fuel d1) d1 (fieldMap fs 0 { keys := [], indexes := [] })
                  Kind.struct l fs om with
              | none => rw [he] at hdec; simp at hdec
              | some r =>
                obtain ⟨fs2, ret⟩ := r
                rw [he] at hdec
                cases ret with
                | error e => simp at hdec
                | panic p => simp at hdec
                | ok o1 =>
                  simp only [Option.some.injEq, Prod.mk.injEq, Ret.ok.injEq] at hdec
                  obtain ⟨_, rfl⟩ := hdec
                  exact hb fs2 o1 he
            have hmm : mapLength d2 off Kind.struct = .ok (l, om) := by
              rw [← hm]
              apply mapLength_same hlen
              intro j hj hb
              have hjm : j < om := hb l om hm
              apply H j hj
              · apply hbound
                intro fs2 o' he
                have := entries_ok_le (decode fuel) d1 (decode_window fuel d1) _ _ _ _ _ _ _ he
                omega
              · rw [hks]
                cases hin : inSpans (entrySpans (decode fuel d1) (keySpans fuel d1) d1
                    (fieldMap fs 0 { keys := [], indexes := [] }) Kind.struct l fs om) j with
                | false => rfl
                | true =>
                  have := (entrySpans_bound (decode fuel) (keySpans fuel d1) d1
                    (decode_window fuel d1) (keySpans_bound fuel d1) _ _ _ _ _ _ hin).2.1
                  omega
            have hent := entries_same (decode fuel) (keySpans fuel) d1 d2 hlen
              (decode_window fuel d1) (keySpans_bound fuel d1) ih
              (fieldMap fs 0 { keys := [], indexes := [] }) Kind.struct l fs om
              (fun j hj hb hns => H j (by omega) (hbound j hb) (by rw [hks]; exact hns))
            rw [hset1, hks]
            simp only [setStruct, keySpans, hmm, hasRequiredLeastMapSize_len om l hlen, hq]
            exact hent
      rw [hdec1, hdec1, hset.1]
      exact ⟨rfl, hset.2⟩


/-! ## The field map and the selection of a field -/

theorem fieldMap_eq (fs : List (FieldInfo × Value)) :
    ∀ (i : Nat) (tm : typeMap), fieldMap fs i tm =
      { keys := tm.keys ++ (fieldPairs fs i).map Prod.fst,
        indexes := tm.indexes ++ (fieldPairs fs i).map Prod.snd } := by
  induction fs with
  | nil => intro i tm; simp [fieldMap, fieldPairs]
  | cons p rest ih =>
    intro i tm
    obtain ⟨field, v⟩ := p
    by_cases h : (CheckField field).1 = true
    · simp [fieldMap, fieldPairs, h, ih]
    · simp [fieldMap, fieldPairs, h, ih]

theorem fieldPairs_nonneg (fs : List (FieldInfo × Value)) :
    ∀ (i : Nat) (p : List Byte × Int), p ∈ fieldPairs fs i → 0 ≤ p.2 := by
  induction fs with
  | nil => intro i p hp; simp [fieldPairs] at hp
  | cons q rest ih =>
    intro i p hp
    obtain ⟨field, v⟩ := q
    by_cases h : (CheckField field).1 = true
    · simp only [fieldPairs, h, if_true, List.mem_cons] at hp
      rcases hp with rfl | hp
      · exact Int.ofNat_nonneg i
      · exact ih _ p hp
    · simp only [fieldPairs, h] at hp
      exact ih _ p hp

theorem matchField_pairs (tm : typeMap) (key : List Byte) (P : List (List Byte × Int))
    (hidx : tm.indexes = P.map Prod.snd) (hnn : ∀ p ∈ P, 0 ≤ p.2) :
    ∀ (S Q : List (List Byte × Int)) (fieldIndex : Int), P = Q ++ S →
      matchField tm key (S.map Prod.fst) Q.length fieldIndex =
        match S.find? (fun p => decide (p.1.length = key.length)) with
        | some p => p.2
        | none => fieldIndex := by
  intro S
  induction S with
  | nil => intro Q fieldIndex _; rfl
  | cons p S ih =>
    intro Q fieldIndex hP
    have hP2 : P = (Q ++ [p]) ++ S := by rw [hP]; simp
    simp only [List.map_cons, matchField, List.find?_cons]
    by_cases hl : p.1.length = key.length
    · have hget : tm.indexes[Q.length]?.getD (-1) = p.2 := by
        rw [hidx, hP, List.map_append, List.getElem?_append_right (by simp)]
        simp
      have hp : 0 ≤ p.2 := hnn p (by rw [hP]; simp)
      simp [hl, hget, hp]
    · have := ih (Q ++ [p]) fieldIndex hP2
      simp only [List.length_append, List.length_singleton] at this
      simp [hl, this]

theorem fieldPairs_find (n : Nat) (fs : List (FieldInfo × Value)) :
    ∀ i : Nat,
      ((fieldPairs fs i).find? (fun p => decide (p.1.length = n))).map Prod.snd =
        (fs.findIdx? (fun p => (CheckField p.1).1 && decide ((CheckField p.1).2.length = n)) i).map
          (fun (t : Nat) => (t : Int)) := by
  induction fs with
  | nil => intro i; simp [fieldPairs]
  | cons q rest ih =>
    intro i
    obtain ⟨field, v⟩ := q
    rw [List.findIdx?_cons]
    by_cases h : (CheckField field).1 = true
    · by_cases hl : (CheckField field).2.length = n
      · simp [fieldPairs, h, hl]
      · simp [fieldPairs, h, hl, ih]
    · simp [fieldPairs, h, ih]

/-- The inner loop of `setStruct` on the field map of a struct: the index of the
first participating field whose key has as many bytes as the decoded key, or -1. -/
theorem matchField_fieldMap (fs : List (FieldInfo × Value)) (key : List Byte) :
    matchField (fieldMap fs 0 { keys := [], indexes := [] }) key
        (fieldMap fs 0 { keys := [], indexes := [] }).keys 0 (-1) =
      match selectByLength fs key.length with
      | some t => (t : Int)
      | none => -1 := by
  have hfm := fieldMap_eq fs 0 { keys := [], indexes := [] }
  simp only [List.nil_append] at hfm
  have h1 := matchField_pairs (fieldMap fs 0 { keys := [], indexes := [] }) key (fieldPairs fs 0)
    (by rw [hfm]) (fieldPairs_nonneg fs 0) (fieldPairs fs 0) [] (-1) rfl
  have hk : (fieldMap fs 0 { keys := [], indexes := [] }).keys = (fieldPairs fs 0).map Prod.fst := by
    rw [hfm]
  rw [hk]
  simp only [List.length_nil] at h1
  rw [h1]
  have h2 := fieldPairs_find key.length fs 0
  unfold selectByLength
  cases hf : (fieldPairs fs 0).find? (fun p => decide (p.1.length = key.length)) with
  | none =>
    rw [hf] at h2
    cases hs : fs.findIdx? (fun p => (CheckField p.1).1 &&
        decide ((CheckField p.1).2.length = key.length)) with
    | none => rfl
    | some t => rw [hs] at h2; simp at h2
  | some p =>
    rw [hf] at h2
    cases hs : fs.findIdx? (fun p => (CheckField p.1).1 &&
        decide ((CheckField p.1).2.length = key.length)) with
    | none => rw [hs] at h2; simp at h2
    | some t =>
      rw [hs] at h2
      simp only [Option.map_some', Option.some.injEq] at h2
      exact h2


/-! ## Fuel: the dispatcher terminates -/

theorem depth_le_depthList (fs : List (FieldInfo × Value)) :
    ∀ (i : Nat) (info : FieldInfo) (v : Value), fs.get? i = some (info, v) →
      v.depth ≤ Value.depthList fs := by
  induction fs with
  | nil => intro i info v h; simp at h
  | cons p rest ih =>
    intro i info v h
    obtain ⟨f, w⟩ := p
    cases i with
    | zero =>
      simp only [List.get?_cons_zero, Option.some.injEq, Prod.mk.injEq] at h
      obtain ⟨_, rfl⟩ := h
      simp only [Value.depthList]
      exact le_max_left _ _
    | succ i =>
      simp only [List.get?_cons_succ] at h
      have := ih i info v h
      simp only [Value.depthList]
      exact le_trans this (le_max_right _ _)

theorem depthList_set (fs : List (FieldInfo × Value)) :
    ∀ (i : Nat) (info : FieldInfo) (v v2 : Value), fs.get? i = some (info, v) →
      v2.depth = v.depth → Value.depthList (fs.set i (info, v2)) = Value.depthList fs := by
  induction fs with
  | nil => intro i info v v2 h; simp at h
  | cons p rest ih =>
    intro i info v v2 h hd
    obtain ⟨f, w⟩ := p
    cases i with
    | zero =>
      simp only [List.get?_cons_zero, Option.some.injEq, Prod.mk.injEq] at h
      obtain ⟨rfl, rfl⟩ := h
      simp only [List.set_cons_zero, Value.depthList, hd]
    | succ i =>
      simp only [List.get?_cons_succ] at h
      simp only [List.set_cons_succ, Value.depthList, ih i info v v2 h hd]

theorem entries_depth (dec : Value → Nat → Option (Value × Ret Nat))
    (hdec : ∀ v o v2 r, dec v o = some (v2, r) → v2.depth = v.depth)
    (d : List Byte) (tm : typeMap) (k : Kind) :
    ∀ (n : Nat) (fs : List (FieldInfo × Value)) (o : Nat) (fs2 : List (FieldInfo × Value))
      (r : Ret Nat), entries dec d tm k n fs o = some (fs2, r) →
      Value.depthList fs2 = Value.depthList fs := by
  intro n
  induction n with
  | zero =>
    intro fs o fs2 r h
    simp only [entries, Option.some.injEq, Prod.mk.injEq] at h
    rw [← h.1]
  | succ n ih =>
    intro fs o fs2 r h
    cases hk : asStringByte d o k with
    | error e =>
      rw [entries_succ_error hk] at h
      simp only [Option.some.injEq, Prod.mk.injEq] at h
      rw [← h.1]
    | panic e =>
      rw [entries_succ_panic hk] at h
      simp only [Option.some.injEq, Prod.mk.injEq] at h
      rw [← h.1]
    | ok p =>
      obtain ⟨key, o2⟩ := p
      by_cases hneg : matchField tm key tm.keys 0 (-1) < 0
      · rw [entries_succ_neg hk hneg] at h
        simp only [Option.some.injEq, Prod.mk.injEq] at h
        rw [← h.1]
      · cases hget : fs.get? (matchField tm key tm.keys 0 (-1)).toNat with
        | none =>
          rw [entries_succ_none hk hneg hget] at h
          simp only [Option.some.injEq, Prod.mk.injEq] at h
          rw [← h.1]
        | some q =>
          obtain ⟨info, field⟩ := q
          rw [entries_succ_field hk hneg hget] at h
          cases hd : dec field o2 with
          | none => rw [hd] at h; simp at h
          | some r2 =>
            obtain ⟨field2, ret⟩ := r2
            rw [hd] at h
            have hset := depthList_set fs _ info field field2 hget (hdec field o2 field2 ret hd)
            cases ret with
            | error e =>
              simp only [Option.some.injEq, Prod.mk.injEq] at h
              rw [← h.1, hset]
            | panic p =>
              simp only [Option.some.injEq, Prod.mk.injEq] at h
              rw [← h.1, hset]
            | ok o3 =>
              dsimp only at h
              rw [ih _ o3 fs2 r h, hset]

theorem setStruct_depth (dec : Value → Nat → Option (Value × Ret Nat))
    (hdec : ∀ v o v2 r, dec v o = some (v2, r) → v2.depth = v.depth)
    (d : List Byte) (fs : List (FieldInfo × Value)) (off : Nat) (k : Kind)
    (fs2 : List (FieldInfo × Value)) (r : Ret Nat)
    (h : setStruct dec d fs off k = some (fs2, r)) :
    Value.depthList fs2 = Value.depthList fs := by
  unfold setStruct at h
  cases hm : mapLength d off k with
  | error e =>
    rw [hm] at h
    simp only [Option.some.injEq, Prod.mk.injEq] at h
    rw [← h.1]
  | panic e =>
    rw [hm] at h
    simp only [Option.some.injEq, Prod.mk.injEq] at h
    rw [← h.1]
  | ok p =>
    obtain ⟨l, om⟩ := p
    rw [hm] at h
    dsimp only at h
    cases hq : hasRequiredLeastMapSize d om l with
    | error e =>
      rw [hq] at h
      simp only [Option.some.injEq, Prod.mk.injEq] at h
      rw [← h.1]
    | panic e =>
      rw [hq] at h
      simp only [Option.some.injEq, Prod.mk.injEq] at h
      rw [← h.1]
    | ok u =>
      rw [hq] at h
      exact entries_depth dec hdec d _ k l fs om fs2 r h

/-- The dispatcher leaves the shape of its destination as it was: the depth of the
destination after the call is the depth before. -/
theorem decode_depth (fuel : Nat) (d : List Byte) :
    ∀ v o v2 r, decode fuel d v o = some (v2, r) → v2.depth = v.depth := by
  induction fuel with
  | zero => intro v o v2 r h; simp [decode] at h
  | succ fuel ih =>
    intro v o v2 r h
    cases v with
    | other kd =>
      simp only [decode, Option.some.injEq, Prod.mk.injEq] at h
      rw [← h.1]
    | int ki vi =>
      simp only [decode] at h
      cases h1 : asInt d o ki.toKind with
      | error e =>
        rw [h1] at h
        simp only [Option.some.injEq, Prod.mk.injEq] at h
        rw [← h.1]
      | panic e =>
        rw [h1] at h
        simp only [Option.some.injEq, Prod.mk.injEq] at h
        rw [← h.1]
      | ok p =>
        rw [h1] at h
        simp only [Option.some.injEq, Prod.mk.injEq] at h
        rw [← h.1]
        simp only [Value.depth]
    | str s =>
      simp only [decode] at h
      cases h1 : asString d o Kind.string with
      | error e =>
        rw [h1] at h
        simp only [Option.some.injEq, Prod.mk.injEq] at h
        rw [← h.1]
      | panic e =>
        rw [h1] at h
        simp only [Option.some.injEq, Prod.mk.injEq] at h
        rw [← h.1]
      | ok p =>
        rw [h1] at h
        simp only [Option.some.injEq, Prod.mk.injEq] at h
        rw [← h.1]
        simp only [Value.depth]
    | struct fs =>
      simp only [decode] at h
      cases hs : setStruct (decode fuel d) d fs o Kind.struct with
      | none => rw [hs] at h; simp at h
      | some q =>
        obtain ⟨fs2, ret⟩ := q
        rw [hs] at h
        have hdl := setStruct_depth (decode fuel d) ih d fs o Kind.struct fs2 ret hs
        cases ret with
        | ok o1 =>
          simp only [Option.some.injEq, Prod.mk.injEq] at h
          rw [← h.1]; simp only [Value.depth, hdl]
        | error e =>
          simp only [Option.some.injEq, Prod.mk.injEq] at h
          rw [← h.1]; simp only [Value.depth, hdl]
        | panic p =>
          simp only [Option.some.injEq, Prod.mk.injEq] at h
          rw [← h.1]; simp only [Value.depth, hdl]

theorem entries_total (dec : Value → Nat → Option (Value × Ret Nat)) (D : Nat)
    (hdec : ∀ v o v2 r, dec v o = some (v2, r) → v2.depth = v.depth)
    (htot : ∀ v o, v.depth ≤ D → ∃ res, dec v o = some res)
    (d : List Byte) (tm : typeMap) (k : Kind) :
    ∀ (n : Nat) (fs : List (FieldInfo × Value)) (o : Nat), Value.depthList fs ≤ D →
      ∃ res, entries dec d tm k n fs o = some res := by
  intro n
  induction n with
  | zero => intro fs o _; exact ⟨_, rfl⟩
  | succ n ih =>
    intro fs o hD
    cases hk : asStringByte d o k with
    | error e => exact ⟨_, entries_succ_error hk⟩
    | panic e => exact ⟨_, entries_succ_panic hk⟩
    | ok p =>
      obtain ⟨key, o2⟩ := p
      by_cases hneg : matchField tm key tm.keys 0 (-1) < 0
      · exact ⟨_, entries_succ_neg hk hneg⟩
      · cases hget : fs.get? (matchField tm key tm.keys 0 (-1)).toNat with
        | none => exact ⟨_, entries_succ_none hk hneg hget⟩
        | some q =>
          obtain ⟨info, field⟩ := q
          rw [entries_succ_field hk hneg hget]
          have hfd : field.depth ≤ D := le_trans (depth_le_depthList fs _ info field hget) hD
          obtain ⟨⟨field2, ret⟩, hd⟩ := htot field o2 hfd
          rw [hd]
          have hset := depthList_set fs _ info field field2 hget (hdec field o2 field2 ret hd)
          cases ret with
          | error e => exact ⟨_, rfl⟩
          | panic p => exact ⟨_, rfl⟩
          | ok o3 => exact ih _ o3 (by rw [hset]; exact hD)

/-- With at least `Value.depth` fuel the dispatcher returns a result. -/
theorem decode_total (fuel : Nat) (d : List Byte) :
    ∀ v o, v.depth ≤ fuel → ∃ res, decode fuel d v o = some res := by
  induction fuel with
  | zero =>
    intro v o h
    cases v <;> simp [Value.depth] at h
  | succ fuel ih =>
    intro v o h
    cases v with
    | other kd => exact ⟨_, rfl⟩
    | int ki vi =>
      simp only [decode]
      cases asInt d o ki.toKind with
      | error e => exact ⟨_, rfl⟩
      | panic e => exact ⟨_, rfl⟩
      | ok p => exact ⟨_, rfl⟩
    | str s =>
      simp only [decode]
      cases asString d o Kind.string with
      | error e => exact ⟨_, rfl⟩
      | panic e => exact ⟨_, rfl⟩
      | ok p => exact ⟨_, rfl⟩
    | struct fs =>
      simp only [Value.depth] at h
      have hD : Value.depthList fs ≤ fuel := by omega
      have hs : ∃ res, setStruct (decode fuel d) d fs o Kind.struct = some res := by
        unfold setStruct
        cases mapLength d o Kind.struct with
        | error e => exact ⟨_, rfl⟩
        | panic e => exact ⟨_, rfl⟩
        | ok p =>
          obtain ⟨l, om⟩ := p
          dsimp only
          cases hasRequiredLeastMapSize d om l with
          | error e => exact ⟨_, rfl⟩
          | panic e => exact ⟨_, rfl⟩
          | ok u =>
            exact entries_total (decode fuel d) fuel (decode_depth fuel d) ih d _ _ l fs om hD
      obtain ⟨⟨fs2, ret⟩, hs⟩ := hs
      simp only [decode, hs]
      cases ret with
      | ok o1 => exact ⟨_, rfl⟩
      | error e => exact ⟨_, rfl⟩
      | panic p => exact ⟨_, rfl⟩

/-- The entry point always returns: on every buffer and every argument `Decode`
ends with an error result, a nil error or a panic. -/
theorem Decode_total (data : List Byte) (v : Holder) : ∃ res, Decode data v = some res := by
  unfold Decode
  by_cases h : data.length < 1
  · rw [if_pos h]; exact ⟨_, rfl⟩
  · rw [if_neg h]
    cases v with
    | notPtr => exact ⟨_, rfl⟩
    | nilPtr => exact ⟨_, rfl⟩
    | ptr rv =>
      obtain ⟨⟨rv2, ret⟩, hd⟩ := decode_total rv.depth data rv 0 (le_refl _)
      simp only [hd]
      cases ret with
      | ok o1 =>
        dsimp only
        by_cases hl : data.length ≠ o1
        · rw [if_pos hl]; exact ⟨_, rfl⟩
        · rw [if_neg hl]; exact ⟨_, rfl⟩
      | error e => exact ⟨_, rfl⟩
      | panic p => exact ⟨_, rfl⟩


/-! ## Claims on the struct decoder and the entry point -/

/-- C1 (the code at the test of the repository): the bytes of the test are the map encoding of
`User{ID: 1, Name: "jimmy", ABCD: "abcd"}`, and `Decode` of them into a zero `User`
returns nil but leaves `Name` equal to "abcd" and `ABCD` empty: the key "ABCD" has
the length of the name of `Name`, the first field of that length, so the value of
the third entry is stored into `Name`.  The round trip does not hold on the code. -/
theorem C1_test_round_trip_broken :
    encode (testUser 1 [0x6a, 0x69, 0x6d, 0x6d, 0x79] [0x61, 0x62, 0x63, 0x64]) = testData ∧
    Decode testData (.ptr (testUser 0 [] []))
      = some (.ptr (testUser 1 [0x61, 0x62, 0x63, 0x64] []), .ok ()) :=
  ⟨by decide, rfl⟩

/-- C2 (the code at a concrete input): the map `{ID: 1, Name: "jimmy"}` decoded into a struct
that has the field `ID` only.  The key "Name" has the length of no participating
field, `fieldIndex` stays -1 and `rv.Field(-1)` panics: `Decode` does not return. -/
theorem C2_unmatched_key_panics :
    Decode
        [0x82, 0xa2, 0x49, 0x44, 0xd3, 0, 0, 0, 0, 0, 0, 0, 1,
          0xa4, 0x4e, 0x61, 0x6d, 0x65, 0xa5, 0x6a, 0x69, 0x6d, 0x6d, 0x79]
        (.ptr (.struct [(⟨0x49, [0x44], []⟩, .int .int64 0)]))
      = some (.ptr (.struct [(⟨0x49, [0x44], []⟩, .int .int64 1)]),
          .panic (.fieldIndexOutOfRange (-1))) :=
  rfl

/-- C3: the field an entry goes to depends on the length of its key only.  The inner
loop of `setStruct` returns the index of the first participating field, in
declaration order, whose effective key has as many bytes as the decoded key (-1 when
there is none), and the value of the entry is dispatched into that field.  Hence two
buffers of one length that hold the same bytes outside the key payloads read by the
dispatch on the first give the same result and the same destination, from the
dispatcher and from `Decode`, and their key payloads lie at the same offsets. -/
theorem C3_selection_by_key_length :
    (∀ (fs : List (FieldInfo × Value)) (key : List Byte),
      matchField (fieldMap fs 0 { keys := [], indexes := [] }) key
          (fieldMap fs 0 { keys := [], indexes := [] }).keys 0 (-1) =
        match selectByLength fs key.length with
        | some t => (t : Int)
        | none => -1) ∧
    (∀ (dec : Value → Nat → Option (Value × Ret Nat)) (d : List Byte) (k : Kind) (n : Nat)
      (fs0 fs : List (FieldInfo × Value)) (o : Nat) (key : List Byte) (o2 t : Nat)
      (info : FieldInfo) (field : Value),
      asStringByte d o k = .ok (key, o2) → selectByLength fs0 key.length = some t →
      fs.get? t = some (info, field) →
      entries dec d (fieldMap fs0 0 { keys := [], indexes := [] }) k (n + 1) fs o =
        match dec field o2 with
        | none => none
        | some (field2, .ok o3) =>
          entries dec d (fieldMap fs0 0 { keys := [], indexes := [] }) k n
            (fs.set t (info, field2)) o3
        | some (field2, .error e) => some (fs.set t (info, field2), .error e)
        | some (field2, .panic p) => some (fs.set t (info, field2), .panic p)) ∧
    (∀ (fuel : Nat) (d1 d2 : List Byte) (rv : Value) (off : Nat), d1.length = d2.length →
      (∀ j, inSpans (keySpans fuel d1 rv off) j = false → d1[j]? = d2[j]?) →
      decode fuel d2 rv off = decode fuel d1 rv off ∧
      keySpans fuel d2 rv off = keySpans fuel d1 rv off) ∧
    (∀ (d1 d2 : List Byte) (rv : Value), d1.length = d2.length →
      (∀ j, inSpans (keySpans rv.depth d1 rv 0) j = false → d1[j]? = d2[j]?) →
      Decode d2 (.ptr rv) = Decode d1 (.ptr rv)) := by
  refine ⟨matchField_fieldMap, ?_, ?_, ?_⟩
  · intro dec d k n fs0 fs o key o2 t info field hk hsel hget
    have hmf := matchField_fieldMap fs0 key
    rw [hsel] at hmf
    dsimp only at hmf
    have hneg : ¬ matchField (fieldMap fs0 0 { keys := [], indexes := [] }) key
        (fieldMap fs0 0 { keys := [], indexes := [] }).keys 0 (-1) < 0 := by
      rw [hmf]; exact not_lt.mpr (Int.ofNat_nonneg t)
    have hget2 : fs.get? (matchField (fieldMap fs0 0 { keys := [], indexes := [] }) key
        (fieldMap fs0 0 { keys := [], indexes := [] }).keys 0 (-1)).toNat
          = some (info, field) := by
      rw [hmf, Int.toNat_ofNat]; exact hget
    rw [entries_succ_field hk hneg hget2, hmf, Int.toNat_ofNat]
  · intro fuel d1 d2 rv off hlen hag
    exact decode_same fuel d1 d2 hlen rv off (fun j _ _ hns => hag j hns)
  · intro d1 d2 rv hlen hag
    have hd := (decode_same rv.depth d1 d2 hlen rv 0 (fun j _ _ hns => hag j hns)).1
    simp only [Decode, ← hlen, hd]

/-- C3 at a concrete input: the one-entry map `{"A": 5}` and the same bytes with the
key "Z", decoded into a struct with the int64 field `A`. -/
theorem C3_selection_by_key_length_witness :
    keySpans 2 [0x81, 0xa1, 0x41, 0xd0, 0x05] (.struct [(⟨0x41, [], []⟩, .int .int64 0)]) 0
      = [(2, 1)] ∧
    Decode [0x81, 0xa1, 0x5a, 0xd0, 0x05] (.ptr (.struct [(⟨0x41, [], []⟩, .int .int64 0)]))
      = Decode [0x81, 0xa1, 0x41, 0xd0, 0x05]
          (.ptr (.struct [(⟨0x41, [], []⟩, .int .int64 0)])) ∧
    Decode [0x81, 0xa1, 0x41, 0xd0, 0x05] (.ptr (.struct [(⟨0x41, [], []⟩, .int .int64 0)]))
      = some (.ptr (.struct [(⟨0x41, [], []⟩, .int .int64 5)]), .ok ()) :=
  ⟨by decide,
   C3_selection_by_key_length.2.2.2 [0x81, 0xa1, 0x41, 0xd0, 0x05]
     [0x81, 0xa1, 0x5a, 0xd0, 0x05] (.struct [(⟨0x41, [], []⟩, .int .int64 0)]) rfl
     (fun j hj => by
       by_cases h5 : j < 5
       · have hall : ∀ i, i < 5 →
             inSpans (keySpans 2 [0x81, 0xa1, 0x41, 0xd0, 0x05]
               (.struct [(⟨0x41, [], []⟩, .int .int64 0)]) 0) i = false →
             ([0x81, 0xa1, 0x41, 0xd0, 0x05] : List Byte)[i]?
               = ([0x81, 0xa1, 0x5a, 0xd0, 0x05] : List Byte)[i]? := by decide
         exact hall j h5 hj
       · rw [List.getElem?_eq_none (by simp; omega), List.getElem?_eq_none (by simp; omega)]),
   rfl⟩

/-- C4: on a non-empty buffer and a pointer destination, when the dispatcher on the
pointee from offset 0 succeeds with offset `o`, `Decode` returns nil if `o` is the
length of the buffer and the error "failed deserialization size=.., last=.."
otherwise; so a buffer made of one value that the dispatcher consumes whole,
followed by at least one more byte, is rejected with that error. -/
theorem C4_full_consumption (data : List Byte) (rv rv2 : Value) (o : Nat) (hne : data ≠ [])
    (h : decode rv.depth data rv 0 = some (rv2, .ok o)) :
    (o = data.length → Decode data (.ptr rv) = some (.ptr rv2, .ok ())) ∧
    (o ≠ data.length →
      Decode data (.ptr rv) = some (.ptr rv2, .error (.sizeMismatch data.length o))) ∧
    (o = data.length → ∀ extra : List Byte, extra ≠ [] →
      Decode (data ++ extra) (.ptr rv)
        = some (.ptr rv2, .error (.sizeMismatch (data ++ extra).length data.length))) := by
  have hlen : ¬ data.length < 1 := by
    cases data with
    | nil => exact absurd rfl hne
    | cons a l => simp
  refine ⟨?_, ?_, ?_⟩
  · intro ho
    simp only [Decode, hlen, if_false, h, ho, ne_eq, not_true_eq_false]
  · intro ho
    have ho2 : data.length ≠ o := fun e => ho e.symm
    simp only [Decode, hlen, if_false, h, ne_eq, ho2, not_false_eq_true, if_true]
  · intro ho extra hex
    subst ho
    have hw := (decode_window rv.depth data rv 0 rv2 data.length h).2 (data ++ extra)
      (by simp) (fun j _ hj => (List.getElem?_append_left hj).symm)
    have hex2 : 0 < extra.length := List.length_pos.mpr hex
    have hl2 : ¬ (data ++ extra).length < 1 := by simp only [List.length_append]; omega
    have hl3 : (data ++ extra).length ≠ data.length := by
      simp only [List.length_append]; omega
    simp only [Decode, hl2, if_false, hw, ne_eq, hl3, not_false_eq_true, if_true]

/-- C4 at a concrete input: `d0 05` decodes whole into an int64; `d0 05 00` is
rejected. -/
theorem C4_full_consumption_witness :
    ([0xd0, 0x05] : List Byte) ≠ [] ∧
    decode (Value.int .int64 0).depth [0xd0, 0x05] (.int .int64 0) 0
      = some (.int .int64 5, .ok 2) ∧
    Decode [0xd0, 0x05] (.ptr (.int .int64 0)) = some (.ptr (.int .int64 5), .ok ()) ∧
    Decode ([0xd0, 0x05] ++ [0x00]) (.ptr (.int .int64 0))
      = some (.ptr (.int .int64 5),
          .error (.sizeMismatch ([0xd0, 0x05] ++ [(0x00 : Byte)]).length
            ([0xd0, 0x05] : List Byte).length)) :=
  ⟨by decide, rfl,
   (C4_full_consumption [0xd0, 0x05] (.int .int64 0) (.int .int64 5) 2 (by decide) rfl).1 rfl,
   (C4_full_consumption [0xd0, 0x05] (.int .int64 0) (.int .int64 5) 2 (by decide) rfl).2.2 rfl
     [0x00] (by decide)⟩


/-! ## Claims on the entry point and the scalar decoders -/

/-- C5: on an empty buffer (nil or of length zero) `Decode` returns the error
"data is empty" whatever the destination argument is, pointer or not, and the
destination is the one it was given. -/
theorem C5_empty_input (v : Holder) : Decode [] v = some (v, .error .emptyData) := rfl

/-- C6: for each width `w` of 1, 2, 4 or 8 bytes and each `v` that fits in `8w` bits
signed, on a buffer that holds at offset `pre.length` the code byte of that width
followed by the big-endian two's-complement bytes of `v`, `asInt` returns `v` and
the offset just past the payload. -/
theorem C6_asInt_sign_extension (w : Nat) (hw : w = 1 ∨ w = 2 ∨ w = 4 ∨ w = 8) (v : Int)
    (hlo : -(2 : Int) ^ (8 * w - 1) ≤ v) (hhi : v < (2 : Int) ^ (8 * w - 1))
    (code : Byte) (hcode : code.val = intCode w) (pre post : List Byte) (k : Kind) :
    asInt (pre ++ code :: (twosComplement w v ++ post)) pre.length k
      = .ok (v, pre.length + 1 + w) := by
  have hval : toSigned (8 * w) (bigEndian (twosComplement w v)) = v := by
    rw [bigEndian_twosComplement]
    exact toSigned_of_range (8 * w) (by omega) v hlo hhi
  have h64 : toSigned 64 v = v := by
    apply toSigned_id 64 (by norm_num)
    · rcases hw with rfl | rfl | rfl | rfl <;> norm_num at hlo ⊢ <;> omega
    · rcases hw with rfl | rfl | rfl | rfl <;> norm_num at hhi ⊢ <;> omega
  have hrd := readSizeN_after pre code (twosComplement w v) post w
    (twosComplement_length w v).symm
  unfold asInt
  rw [readSize1_append]
  rcases hw with rfl | rfl | rfl | rfl
  · obtain ⟨b, hb⟩ : ∃ b, twosComplement 1 v = [b] := by
      have := twosComplement_length 1 v
      match h : twosComplement 1 v, this with
      | [b], _ => exact ⟨b, rfl⟩
    have hb1 : (bigEndian (twosComplement 1 v) : Int) = (b.val : Int) := by
      rw [hb]; simp [bigEndian]
    rw [hb1] at hval
    have hr1 := readSize1_after pre code b post
    rw [hb]
    simp only [List.singleton_append, hr1]
    simp [hcode, intCode, Int8, hval, h64]
  · simp only [readSize2, Byte2, hrd]
    simp [hcode, intCode, Int8, Int16, hval, h64]
  · simp only [readSize4, Byte4, hrd]
    simp [hcode, intCode, Int8, Int16, Int32, hval, h64]
  · simp only [readSize8, Byte8, hrd]
    simp [hcode, intCode, Int8, Int16, Int32, Int64, hval, h64]

/-- C6 at a concrete input: the Int16 code followed by `ff fe` at offset 1 is -2. -/
theorem C6_asInt_sign_extension_witness :
    ((2 : Nat) = 1 ∨ (2 : Nat) = 2 ∨ (2 : Nat) = 4 ∨ (2 : Nat) = 8) ∧
    -(2 : Int) ^ (8 * 2 - 1) ≤ -2 ∧ (-2 : Int) < (2 : Int) ^ (8 * 2 - 1) ∧
    (0xd1 : Byte).val = intCode 2 ∧
    twosComplement 2 (-2) = [0xff, 0xfe] ∧
    asInt ([0x00] ++ (0xd1 : Byte) :: (twosComplement 2 (-2) ++ [0x07])) [(0x00 : Byte)].length
        Kind.int64 = .ok (-2, [(0x00 : Byte)].length + 1 + 2) :=
  ⟨by decide, by decide, by decide, by decide, by decide,
    C6_asInt_sign_extension 2 (by decide) (-2) (by decide) (by decide) 0xd1 (by decide)
      [0x00] [0x07] Kind.int64⟩

/-- C7: where the buffer holds the byte `c` at offset `i`, `asInt` returns zero and
the offset `i + 1` if `c` is Nil (0xc0), and fails with the invalid-code error,
yielding no value, if `c` is none of 0xc0, 0xd0, 0xd1, 0xd2, 0xd3; the positive
fixints, the negative fixints and the Uint8/16/32/64 codes are among the latter. -/
theorem C7_asInt_codes (data : List Byte) (i : Nat) (k : Kind) (c : Byte)
    (h : data[i]? = some c) :
    (c.val = 0xc0 → asInt data i k = .ok (0, i + 1)) ∧
    (c.val ≠ 0xc0 → c.val ≠ 0xd0 → c.val ≠ 0xd1 → c.val ≠ 0xd2 → c.val ≠ 0xd3 →
      asInt data i k = .error (.invalidCode c k)) ∧
    (c.val ≤ 0x7f ∨ 0xe0 ≤ c.val ∨ (0xcc ≤ c.val ∧ c.val ≤ 0xcf) →
      asInt data i k = .error (.invalidCode c k)) := by
  have hother : c.val ≠ 0xc0 → c.val ≠ 0xd0 → c.val ≠ 0xd1 → c.val ≠ 0xd2 → c.val ≠ 0xd3 →
      asInt data i k = .error (.invalidCode c k) := by
    intro h0 h1 h2 h3 h4
    simp [asInt, readSize1_of_get data i c h, Int8, Int16, Int32, Int64, Nil, h0, h1, h2, h3,
      h4, errorTemplate]
  refine ⟨?_, hother, ?_⟩
  · intro hc
    simp [asInt, readSize1_of_get data i c h, hc, Int8, Int16, Int32, Int64, Nil]
  · intro hc
    apply hother <;> omega

/-- C7 at concrete inputs: Nil at offset 1, and the positive fixint 5 at offset 0. -/
theorem C7_asInt_codes_witness :
    asInt [0x05, 0xc0] 1 Kind.int = .ok (0, 2) ∧
    asInt [0x05, 0xc0] 0 Kind.int = .error (.invalidCode 0x05 Kind.int) :=
  ⟨(C7_asInt_codes [0x05, 0xc0] 1 Kind.int 0xc0 (by decide)).1 (by decide),
   (C7_asInt_codes [0x05, 0xc0] 0 Kind.int 0x05 (by decide)).2.2 (by decide)⟩

/-- C8: a string header of any of the four forms that can carry `len(s)`, followed
by the bytes `s`, decodes to `s`: `stringByteLength` returns `len(s)` and the offset
past the header, `asString` returns `s` and the offset past the payload; for the
empty string no payload byte is consumed; a Nil code decodes as the empty string
with one byte consumed; any other leading code fails with the invalid-code error. -/
theorem C8_asString_payload (k : Kind) :
    (∀ (f : StrForm) (s pre post : List Byte), s.length ≤ f.cap →
      stringByteLength (pre ++ (strHeader f s.length ++ (s ++ post))) pre.length k
        = .ok (s.length, pre.length + f.headerLen) ∧
      asString (pre ++ (strHeader f s.length ++ (s ++ post))) pre.length k
        = .ok (s, pre.length + f.headerLen + s.length)) ∧
    (∀ (f : StrForm) (pre post : List Byte),
      asString (pre ++ (strHeader f 0 ++ post)) pre.length k
        = .ok ([], pre.length + f.headerLen)) ∧
    (∀ (data : List Byte) (i : Nat) (c : Byte), data[i]? = some c → c.val = 0xc0 →
      asString data i k = .ok ([], i + 1)) ∧
    (∀ (data : List Byte) (i : Nat) (c : Byte), data[i]? = some c →
      ¬ (0xa0 ≤ c.val ∧ c.val ≤ 0xbf) → c.val ≠ 0xd9 → c.val ≠ 0xda → c.val ≠ 0xdb →
      c.val ≠ 0xc0 → asString data i k = .error (.invalidCode c k)) := by
  refine ⟨?_, ?_, ?_, ?_⟩
  · intro f s pre post hs
    exact ⟨stringByteLength_header f s.length hs pre (s ++ post) k,
      asString_header f s hs pre post k⟩
  · intro f pre post
    have := asString_header f [] (Nat.zero_le _) pre post k
    simpa using this
  · intro data i c h hc
    simp [asString, asStringByte, stringByteLength, readSize1_of_get data i c h, hc, FixStr,
      Str8, Str16, Str32, Nil, asStringByteByLength]
  · intro data i c h h0 h1 h2 h3 h4
    have h0' : ¬ (FixStr ≤ c.val ∧ c.val ≤ FixStr + 0x1f) := by
      simpa [FixStr] using h0
    simp [asString, asStringByte, stringByteLength, readSize1_of_get data i c h, h0', h1, h2,
      h3, h4, Str8, Str16, Str32, Nil, errorTemplate]

/-- C8 at concrete inputs: the fixstr "hi" at offset 1, an empty Str16 string, Nil,
and the code 0xc3 where a string is expected. -/
theorem C8_asString_payload_witness :
    asString [0x00, 0xa2, 0x68, 0x69, 0x01] 1 Kind.string = .ok ([0x68, 0x69], 4) ∧
    asString [0xda, 0x00, 0x00, 0x01] 0 Kind.string = .ok ([], 3) ∧
    asString [0xc0] 0 Kind.string = .ok ([], 1) ∧
    asString [0xc3] 0 Kind.string = .error (.invalidCode 0xc3 Kind.string) :=
  ⟨((C8_asString_payload Kind.string).1 .fixstr [0x68, 0x69] [0x00] [0x01] (by decide)).2,
   (C8_asString_payload Kind.string).2.1 .str16 [] [0x01],
   (C8_asString_payload Kind.string).2.2.1 [0xc0] 0 0xc0 (by decide) (by decide),
   (C8_asString_payload Kind.string).2.2.2 [0xc3] 0 0xc3 (by decide) (by decide) (by decide)
     (by decide) (by decide) (by decide)⟩

/-- C9, amended: for offsets and lengths whose sum is at most `maxInt`, the largest
`int`, `readSizeN(i, n)` fails with "too short bytes" exactly when `i + n` exceeds
the length of the buffer; whenever `i + n` is within the buffer it returns the `n`
bytes from offset `i` on with the offset `i + n`; `readSize1/2/4/8` are the cases
1, 2, 4, 8.  Hence a string whose header declares `L ≥ 1` bytes with fewer than `L`
left, and an Int8/16/32/64 code with fewer payload bytes than its width, make
`asString` and `asInt` fail with "too short bytes", the end of the declared payload
being at most `maxInt`. -/
theorem C9_bounds_checked_reads (data : List Byte) (i : Nat) :
    (∀ n, i + n ≤ maxInt →
      (readSizeN data i n = .error .tooShort ↔ data.length < i + n)) ∧
    (∀ n, i + n ≤ data.length →
      ∃ bs, readSizeN data i n = .ok (bs, i + n) ∧ bs.length = n ∧
        ∀ j, j < n → bs[j]? = data[i + j]?) ∧
    (readSize2 data i = readSizeN data i 2 ∧ readSize4 data i = readSizeN data i 4 ∧
      readSize8 data i = readSizeN data i 8) ∧
    (i + 1 ≤ maxInt → (readSize1 data i = .error .tooShort ↔ data.length < i + 1)) ∧
    (∀ c, data[i]? = some c → readSize1 data i = .ok (c, i + 1)) ∧
    (∀ k L o, stringByteLength data i k = .ok (L, o) → 1 ≤ L → data.length < o + L →
      o + L ≤ maxInt → asString data i k = .error .tooShort) ∧
    (∀ k c w, data[i]? = some c → (w = 1 ∨ w = 2 ∨ w = 4 ∨ w = 8) → c.val = intCode w →
      data.length < i + 1 + w → i + 1 + w ≤ maxInt →
      asInt data i k = .error .tooShort) := by
  refine ⟨?_, ?_, ⟨rfl, rfl, rfl⟩, ?_, ?_, ?_, ?_⟩
  · intro n hm
    unfold readSizeN
    by_cases h : data.length < i + n
    · simp [h, hm]
    · simp [h]
  · intro n h
    refine ⟨(data.drop i).take n, ?_, ?_, ?_⟩
    · unfold readSizeN; rw [if_neg (by omega)]
    · simp; omega
    · intro j hj
      rw [List.getElem?_take, if_pos hj, List.getElem?_drop]
  · intro hm
    rw [readSize1_eq]
    by_cases h : data.length < i + 1
    · simp [h, hm]
    · simp [h]
  · intro c h
    exact readSize1_of_get data i c h
  · intro k L o h hL hlen hm
    unfold asString asStringByte
    rw [h]
    simp only [asStringByteByLength, if_neg (show ¬ L < 1 by omega),
      readSizeN_short data o L hlen hm]
  · intro k c w h hw hc hlen hm
    unfold asInt
    rw [readSize1_of_get data i c h]
    rcases hw with rfl | rfl | rfl | rfl
    · simp [hc, intCode, Int8, readSize1_short data (i + 1) (by omega) hm]
    · simp [hc, intCode, Int8, Int16, readSize2, Byte2,
        readSizeN_short data (i + 1) 2 (by omega) hm]
    · simp [hc, intCode, Int8, Int16, Int32, readSize4, Byte4,
        readSizeN_short data (i + 1) 4 (by omega) hm]
    · simp [hc, intCode, Int8, Int16, Int32, Int64, readSize8, Byte8,
        readSizeN_short data (i + 1) 8 (by omega) hm]

/-- C9 at concrete inputs: a fixstr header declaring 3 bytes with 2 left, and an
Int32 code with 3 payload bytes. -/
theorem C9_bounds_checked_reads_witness :
    asString [0xa3, 0x61, 0x62] 0 Kind.string = .error .tooShort ∧
    asInt [0xd2, 0x00, 0x00, 0x01] 0 Kind.int = .error .tooShort ∧
    readSizeN [0x01, 0x02, 0x03] 1 3 = .error .tooShort :=
  ⟨(C9_bounds_checked_reads [0xa3, 0x61, 0x62] 0).2.2.2.2.2.1 Kind.string 3 1 rfl
      (by decide) (by decide) (by decide),
   (C9_bounds_checked_reads [0xd2, 0x00, 0x00, 0x01] 0).2.2.2.2.2.2 Kind.int 0xd2 4 (by decide)
      (by decide) (by decide) (by decide) (by decide),
   ((C9_bounds_checked_reads [0x01, 0x02, 0x03] 1).1 3 (by decide)).2 (by decide)⟩

/-- C9 as stated fails where the sum of the offset and the length wraps: on a buffer
of 3 bytes `readSizeN(maxInt, 1)` does not fail with "too short bytes" although
`maxInt + 1` exceeds the length of the buffer; the slice expression panics. -/
theorem C9_bounds_checked_reads_counterexample :
    ¬ (readSizeN [0x01, 0x02, 0x03] 9223372036854775807 1 = .error .tooShort ↔
        ([0x01, 0x02, 0x03] : List Byte).length < 9223372036854775807 + 1) ∧
    readSizeN [0x01, 0x02, 0x03] 9223372036854775807 1 = .panic .sliceBounds := by
  have h : readSizeN [0x01, 0x02, 0x03] 9223372036854775807 1 = .panic .sliceBounds := by
    decide
  refine ⟨?_, h⟩
  rw [h]
  intro hiff
  have := hiff.mpr (by decide)
  cases this

/-- C10: when the map header at the given offset decodes to the count `N` with the
offset `o` after the header and fewer than `2 * N` bytes remain from `o` on,
`setStruct` fails with "data length lacks to create map" whatever the dispatcher of
the entries is, so before any entry is decoded, and the fields of the destination
are the ones it was given; the dispatcher on a struct destination fails likewise. -/
theorem C10_map_precheck (data : List Byte) (offset N o : Nat) (k : Kind)
    (h : mapLength data offset k = .ok (N, o)) (hlt : data.length - o < 2 * N) :
    (∀ dec fs, setStruct dec data fs offset k = some (fs, .error .mapLack)) ∧
    (k = Kind.struct → ∀ fuel fs,
      decode (fuel + 1) data (.struct fs) offset = some (.struct fs, .error .mapLack)) := by
  have hs : ∀ dec fs, setStruct dec data fs offset k = some (fs, .error .mapLack) := by
    intro dec fs
    obtain ⟨⟨_, ho⟩, _⟩ := mapLength_window h
    unfold setStruct
    rw [h]
    simp only [hasRequiredLeastMapSize_of_le data o N ho]
    rw [if_pos (by omega)]
  refine ⟨hs, ?_⟩
  intro hk fuel fs
  subst hk
  simp only [decode, hs]

/-- C10 at a concrete input: a fixmap header of 3 entries followed by 5 bytes. -/
theorem C10_map_precheck_witness :
    mapLength [0x83, 0xa1, 0x41, 0xc0, 0xa1, 0x42] 0 Kind.struct = .ok (3, 1) ∧
    decode 1 [0x83, 0xa1, 0x41, 0xc0, 0xa1, 0x42] (.struct [(⟨0x41, [], []⟩, .int .int64 7)]) 0
      = some (.struct [(⟨0x41, [], []⟩, .int .int64 7)], .error .mapLack) :=
  ⟨rfl,
   (C10_map_precheck [0x83, 0xa1, 0x41, 0xc0, 0xa1, 0x42] 0 3 1 Kind.struct rfl
      (by decide)).2 rfl 0 [(⟨0x41, [], []⟩, .int .int64 7)]⟩

/-! ## Lemmas on the map header -/

theorem mapLength_fixmap (data : List Byte) (i : Nat) (c : Byte) (k : Kind)
    (h : data[i]? = some c) (h1 : FixMap ≤ c.val) (h2 : c.val ≤ FixMap + 0x0f) :
    mapLength data i k = .ok (c.val - FixMap, i + 1) := by
  unfold mapLength
  rw [readSize1_of_get data i c h]
  have hfix : isFixMap c = true := by
    unfold isFixMap; exact decide_eq_true ⟨h1, h2⟩
  simp only [hfix, if_true]
  have : (c.val + 256 - FixMap) % 256 = c.val - FixMap := by
    simp only [FixMap] at h1 h2 ⊢; omega
  rw [this]

theorem mapLength_map16 (pre bs post : List Byte) (c : Byte) (k : Kind)
    (hc : c.val = Map16) (hbs : 2 = bs.length) :
    mapLength (pre ++ c :: (bs ++ post)) pre.length k
      = .ok (bigEndian bs, pre.length + 1 + 2) := by
  unfold mapLength
  rw [readSize1_append]
  have hfix : isFixMap c = false := by
    unfold isFixMap; simp [hc, Map16, FixMap]
  simp [hfix, hc, Map16, readSize2, Byte2, readSizeN_after pre c bs post 2 hbs]

theorem mapLength_map32 (pre bs post : List Byte) (c : Byte) (k : Kind)
    (hc : c.val = Map32) (hbs : 4 = bs.length) :
    mapLength (pre ++ c :: (bs ++ post)) pre.length k
      = .ok (bigEndian bs, pre.length + 1 + 4) := by
  unfold mapLength
  rw [readSize1_append]
  have hfix : isFixMap c = false := by
    unfold isFixMap; simp [hc, Map32, FixMap]
  simp [hfix, hc, Map16, Map32, readSize4, Byte4, readSizeN_after pre c bs post 4 hbs]

theorem mapLength_other (data : List Byte) (i : Nat) (c : Byte) (k : Kind)
    (h : data[i]? = some c) (h0 : ¬ (FixMap ≤ c.val ∧ c.val ≤ FixMap + 0x0f))
    (h1 : c.val ≠ Map16) (h2 : c.val ≠ Map32) :
    mapLength data i k = .error (.invalidCode c k) := by
  unfold mapLength
  rw [readSize1_of_get data i c h]
  have hfix : isFixMap c = false := by
    unfold isFixMap; exact decide_eq_false h0
  simp [hfix, h1, h2, errorTemplate]

/-! ## Lemmas on the field map -/

theorem fieldPairs_enumFrom (fs : List (FieldInfo × Value)) :
    ∀ i : Nat, fieldPairs fs i =
      (fs.enumFrom i).filterMap (fun p =>
        if (CheckField p.2.1).1 then some ((CheckField p.2.1).2, (p.1 : Int)) else none) := by
  induction fs with
  | nil => intro i; rfl
  | cons q rest ih =>
    intro i
    obtain ⟨field, v⟩ := q
    by_cases h : (CheckField field).1 = true
    · simp [fieldPairs, List.enumFrom, List.filterMap_cons, h, ih]
    · simp [fieldPairs, List.enumFrom, List.filterMap_cons, h, ih]

/-! ## Unsupported kinds -/

theorem kind_other (rv : Value)
    (h : rv.kind ≠ Kind.struct ∧ rv.kind ≠ Kind.int ∧ rv.kind ≠ Kind.int8 ∧
      rv.kind ≠ Kind.int16 ∧ rv.kind ≠ Kind.int32 ∧ rv.kind ≠ Kind.int64 ∧
      rv.kind ≠ Kind.string) :
    ∃ k : OtherKind, rv = .other k := by
  cases rv with
  | other k => exact ⟨k, rfl⟩
  | int ki v => cases ki <;> simp [Value.kind, IntKind.toKind] at h
  | str s => simp [Value.kind] at h
  | struct fs => simp [Value.kind] at h

theorem set_get_same {α : Type} (l : List α) (i : Nat) (a : α) (h : l.get? i = some a) :
    l.set i a = l := by
  induction l generalizing i with
  | nil => rfl
  | cons b rest ih =>
    cases i with
    | zero =>
      simp only [List.get?_cons_zero, Option.some.injEq] at h
      rw [h]; rfl
    | succ i =>
      simp only [List.get?_cons_succ] at h
      simp only [List.set_cons_succ, ih i h]

/-! ## The cursor -/

theorem entries_consumes (decOn : List Byte → Value → Nat → Option (Value × Ret Nat))
    (d : List Byte) (hw : DecWindow decOn d) (tm : typeMap) (k : Kind) :
    ∀ (n : Nat) (fs fs2 : List (FieldInfo × Value)) (o o' : Nat),
      entries (decOn d) d tm k n fs o = some (fs2, .ok o') → o + 2 * n ≤ o' := by
  intro n
  induction n with
  | zero =>
    intro fs fs2 o o' h
    simp only [entries, Option.some.injEq, Prod.mk.injEq, Ret.ok.injEq] at h
    omega
  | succ n ih =>
    intro fs fs2 o o' h
    obtain ⟨key, o2, info, field, field2, o3, hk, _, _, hd, hr⟩ := entries_succ_ok h
    obtain ⟨_, hk2, _⟩ := asStringByte_ok_bounds hk
    have := (hw field o2 field2 o3 hd).1.1
    have := ih _ fs2 o3 o' hr
    omega

/-! ## Fuel beyond the depth of the destination changes nothing -/

theorem entries_congr (dec1 dec2 : Value → Nat → Option (Value × Ret Nat)) (D : Nat)
    (hdec : ∀ v o v2 r, dec1 v o = some (v2, r) → v2.depth = v.depth)
    (heq : ∀ v o, v.depth ≤ D → dec1 v o = dec2 v o)
    (d : List Byte) (tm : typeMap) (k : Kind) :
    ∀ (n : Nat) (fs : List (FieldInfo × Value)) (o : Nat), Value.depthList fs ≤ D →
      entries dec1 d tm k n fs o = entries dec2 d tm k n fs o := by
  intro n
  induction n with
  | zero => intro fs o _; rfl
  | succ n ih =>
    intro fs o hD
    cases hk : asStringByte d o k with
    | error e => rw [entries_succ_error hk, entries_succ_error hk]
    | panic e => rw [entries_succ_panic hk, entries_succ_panic hk]
    | ok p =>
      obtain ⟨key, o2⟩ := p
      by_cases hneg : matchField tm key tm.keys 0 (-1) < 0
      · rw [entries_succ_neg hk hneg, entries_succ_neg hk hneg]
      · cases hget : fs.get? (matchField tm key tm.keys 0 (-1)).toNat with
        | none => rw [entries_succ_none hk hneg hget, entries_succ_none hk hneg hget]
        | some q =>
          obtain ⟨info, field⟩ := q
          rw [entries_succ_field hk hneg hget, entries_succ_field hk hneg hget]
          have hfd : field.depth ≤ D := le_trans (depth_le_depthList fs _ info field hget) hD
          rw [← heq field o2 hfd]
          cases hd : dec1 field o2 with
          | none => rfl
          | some r =>
            obtain ⟨field2, ret⟩ := r
            cases ret with
            | error e => rfl
            | panic p => rfl
            | ok o3 =>
              dsimp only
              have hset := depthList_set fs _ info field field2 hget
                (hdec field o2 field2 (.ok o3) hd)
              exact ih _ o3 (by rw [hset]; exact hD)

theorem decode_fuel_eq (d : List Byte) :
    ∀ (f1 f2 : Nat) (rv : Value) (off : Nat), rv.depth ≤ f1 → rv.depth ≤ f2 →
      decode f1 d rv off = decode f2 d rv off := by
  intro f1
  induction f1 with
  | zero =>
    intro f2 rv off h1 _
    cases rv <;> simp [Value.depth] at h1
  | succ f1 ih =>
    intro f2 rv off h1 h2
    cases f2 with
    | zero => cases rv <;> simp [Value.depth] at h2
    | succ f2 =>
      cases rv with
      | other kd => rfl
      | int ki vi => rfl
      | str s => rfl
      | struct fs =>
        simp only [Value.depth] at h1 h2
        have hD1 : Value.depthList fs ≤ f1 := by omega
        have hD2 : Value.depthList fs ≤ f2 := by omega
        have hent : ∀ (tm : typeMap) (k : Kind) (n o : Nat),
            entries (decode f1 d) d tm k n fs o = entries (decode f2 d) d tm k n fs o := by
          intro tm k n o
          exact entries_congr (decode f1 d) (decode f2 d) (min f1 f2) (decode_depth f1 d)
            (fun v o hv => ih f2 v o (le_trans hv (min_le_left _ _))
              (le_trans hv (min_le_right _ _)))
            d tm k n fs o (le_min hD1 hD2)
        simp only [decode, setStruct, hent]

/-- The result of the dispatcher does not depend on the fuel once it reaches the
depth of the destination. -/
theorem decode_fuel_stable (fuel : Nat) (d : List Byte) (rv : Value) (off : Nat)
    (h : rv.depth ≤ fuel) : decode fuel d rv off = decode rv.depth d rv off :=
  decode_fuel_eq d fuel rv.depth rv off h (le_refl _)

theorem entryIters_le (dec : Value → Nat → Option (Value × Ret Nat)) (d : List Byte)
    (tm : typeMap) (k : Kind) :
    ∀ (n : Nat) (fs : List (FieldInfo × Value)) (o : Nat), entryIters dec d tm k n fs o ≤ n := by
  intro n
  induction n with
  | zero => intro fs o; simp [entryIters]
  | succ n ih =>
    intro fs o
    unfold entryIters
    cases asStringByte d o k with
    | error e => simp
    | panic e => simp
    | ok p =>
      obtain ⟨key, o2⟩ := p
      dsimp only
      by_cases hneg : matchField tm key tm.keys 0 (-1) < 0
      · rw [if_pos hneg]; omega
      · rw [if_neg hneg]
        cases fs.get? (matchField tm key tm.keys 0 (-1)).toNat with
        | none => simp
        | some q =>
          obtain ⟨info, field⟩ := q
          dsimp only
          cases dec field o2 with
          | none => simp
          | some r =>
            obtain ⟨field2, ret⟩ := r
            cases ret with
            | error e => simp
            | panic p => simp
            | ok o3 =>
              dsimp only
              have := ih (fs.set (matchField tm key tm.keys 0 (-1)).toNat (info, field2)) o3
              omega

/-! ## Integer destinations -/

theorem toSigned_range (b : Nat) (hb : 0 < b) (v : Int) :
    -(2 : Int) ^ (b - 1) ≤ toSigned b v ∧ toSigned b v < (2 : Int) ^ (b - 1) := by
  obtain ⟨c, rfl⟩ : ∃ c, b = c + 1 := ⟨b - 1, by omega⟩
  simp only [Nat.add_sub_cancel]
  have h2 : (2 : Int) ^ (c + 1) = 2 * 2 ^ c := by rw [pow_succ]; ring
  have hpos : (0 : Int) < 2 ^ c := by positivity
  have hnn : 0 ≤ v % 2 ^ (c + 1) := Int.emod_nonneg _ (by positivity)
  have hlt : v % 2 ^ (c + 1) < 2 ^ (c + 1) := Int.emod_lt_of_pos _ (by positivity)
  unfold toSigned
  simp only [Nat.add_sub_cancel]
  by_cases h : v % 2 ^ (c + 1) < 2 ^ c
  · rw [if_pos h]; constructor <;> omega
  · rw [if_neg h]; constructor <;> omega

theorem toSigned_congr (b : Nat) (v : Int) : toSigned b v % 2 ^ b = v % 2 ^ b := by
  unfold toSigned
  by_cases h : v % 2 ^ b < 2 ^ (b - 1)
  · rw [if_pos h, Int.emod_emod_of_dvd _ (dvd_refl _)]
  · rw [if_neg h, Int.sub_emod, Int.emod_self, sub_zero, Int.emod_emod_of_dvd _ (dvd_refl _),
      Int.emod_emod_of_dvd _ (dvd_refl _)]

theorem toSigned_unique (b : Nat) (hb : 0 < b) (v y : Int)
    (hlo : -(2 : Int) ^ (b - 1) ≤ y) (hhi : y < (2 : Int) ^ (b - 1))
    (hc : y % 2 ^ b = v % 2 ^ b) : y = toSigned b v := by
  rw [← toSigned_id b hb y hlo hhi, ← toSigned_emod b y, hc, toSigned_emod]

theorem asInt_encoded (w : Nat) (hw : w = 1 ∨ w = 2 ∨ w = 4 ∨ w = 8) (v : Int)
    (hlo : -(2 : Int) ^ (8 * w - 1) ≤ v) (hhi : v < (2 : Int) ^ (8 * w - 1))
    (code : Byte) (hcode : code.val = intCode w) (pre post : List Byte) (k : Kind) :
    asInt (pre ++ code :: (twosComplement w v ++ post)) pre.length k
      = .ok (v, pre.length + 1 + w) := by
  have hval : toSigned (8 * w) (bigEndian (twosComplement w v)) = v := by
    rw [bigEndian_twosComplement]
    exact toSigned_of_range (8 * w) (by omega) v hlo hhi
  have h64 : toSigned 64 v = v := by
    apply toSigned_id 64 (by norm_num)
    · rcases hw with rfl | rfl | rfl | rfl <;> norm_num at hlo ⊢ <;> omega
    · rcases hw with rfl | rfl | rfl | rfl <;> norm_num at hhi ⊢ <;> omega
  have hrd := readSizeN_after pre code (twosComplement w v) post w
    (twosComplement_length w v).symm
  unfold asInt
  rw [readSize1_append]
  rcases hw with rfl | rfl | rfl | rfl
  · obtain ⟨b, hb⟩ : ∃ b, twosComplement 1 v = [b] := by
      have := twosComplement_length 1 v
      match h : twosComplement 1 v, this with
      | [b], _ => exact ⟨b, rfl⟩
    have hb1 : (bigEndian (twosComplement 1 v) : Int) = (b.val : Int) := by
      rw [hb]; simp [bigEndian]
    rw [hb1] at hval
    have hr1 := readSize1_after pre code b post
    rw [hb]
    simp only [List.singleton_append, hr1]
    simp [hcode, intCode, Int8, hval, h64]
  · simp only [readSize2, Byte2, hrd]
    simp [hcode, intCode, Int8, Int16, hval, h64]
  · simp only [readSize4, Byte4, hrd]
    simp [hcode, intCode, Int8, Int16, Int32, hval, h64]
  · simp only [readSize8, Byte8, hrd]
    simp [hcode, intCode, Int8, Int16, Int32, Int64, hval, h64]

theorem IntKind.bits_pos (k : IntKind) : 0 < k.bits := by
  cases k <;> simp [IntKind.bits]

/-! ## What a call may have written -/

theorem Assigned.trans {data : List Byte} {v1 v2 v3 : Value} (h12 : Assigned data v1 v2)
    (h23 : Assigned data v2 v3) : Assigned data v1 v3 := by
  induction h12 generalizing v3 with
  | unchanged v => exact h23
  | int k v x off o h =>
    cases h23 with
    | unchanged _ => exact Assigned.int k v x off o h
    | int _ _ x2 off2 o2 h2 => exact Assigned.int k v x2 off2 o2 h2
  | str s s2 off o h =>
    cases h23 with
    | unchanged _ => exact Assigned.str s s2 off o h
    | str _ s3 off2 o2 h2 => exact Assigned.str s s3 off2 o2 h2
  | struct fs fs2 hlen hinfo hval ih =>
    cases h23 with
    | unchanged _ => exact Assigned.struct fs fs2 hlen hinfo hval
    | struct _ fs3 hlen2 hinfo2 hval2 =>
      refine Assigned.struct fs fs3 (hlen.trans hlen2) ?_ ?_
      · intro i p r hp hr
        have hi : i < fs2.length := by
          rw [← hlen]
          rcases Nat.lt_or_ge i fs.length with h | h
          · exact h
          · rw [List.get?_eq_none.mpr h] at hp; cases hp
        obtain ⟨q, hq⟩ : ∃ q, fs2.get? i = some q := ⟨fs2.get ⟨i, hi⟩, List.get?_eq_get hi⟩
        exact (hinfo i p q hp hq).trans (hinfo2 i q r hq hr)
      · intro i p r hp hr
        have hi : i < fs2.length := by
          rw [← hlen]
          rcases Nat.lt_or_ge i fs.length with h | h
          · exact h
          · rw [List.get?_eq_none.mpr h] at hp; cases hp
        obtain ⟨q, hq⟩ : ∃ q, fs2.get? i = some q := ⟨fs2.get ⟨i, hi⟩, List.get?_eq_get hi⟩
        exact ih i p q hp hq (hval2 i q r hq hr)

theorem Assigned.set_field {data : List Byte} (fs : List (FieldInfo × Value)) (idx : Nat)
    (info : FieldInfo) (field field2 : Value) (hget : fs.get? idx = some (info, field))
    (h : Assigned data field field2) :
    Assigned data (.struct fs) (.struct (fs.set idx (info, field2))) := by
  refine Assigned.struct fs _ (by simp) ?_ ?_
  · intro i p q hp hq
    by_cases hi : idx = i
    · subst hi
      rw [hget] at hp
      have hlt : idx < fs.length := by
        rcases Nat.lt_or_ge idx fs.length with h | h
        · exact h
        · rw [List.get?_eq_none.mpr h] at hget; cases hget
      rw [List.get?_eq_getElem?, List.getElem?_set_self hlt] at hq
      cases hp; cases hq; rfl
    · rw [List.get?_eq_getElem?, List.getElem?_set_ne hi, ← List.get?_eq_getElem?, hp] at hq
      cases hq; rfl
  · intro i p q hp hq
    by_cases hi : idx = i
    · subst hi
      rw [hget] at hp
      have hlt : idx < fs.length := by
        rcases Nat.lt_or_ge idx fs.length with h | h
        · exact h
        · rw [List.get?_eq_none.mpr h] at hget; cases hget
      rw [List.get?_eq_getElem?, List.getElem?_set_self hlt] at hq
      cases hp; cases hq; exact h
    · rw [List.get?_eq_getElem?, List.getElem?_set_ne hi, ← List.get?_eq_getElem?, hp] at hq
      cases hq; exact Assigned.unchanged _

theorem entries_assigned (dec : Value → Nat → Option (Value × Ret Nat)) (d : List Byte)
    (hdec : ∀ v o v2 r, dec v o = some (v2, r) → Assigned d v v2) (tm : typeMap) (k : Kind) :
    ∀ (n : Nat) (fs : List (FieldInfo × Value)) (o : Nat) (fs2 : List (FieldInfo × Value))
      (r : Ret Nat), entries dec d tm k n fs o = some (fs2, r) →
      Assigned d (.struct fs) (.struct fs2) := by
  intro n
  induction n with
  | zero =>
    intro fs o fs2 r h
    simp only [entries, Option.some.injEq, Prod.mk.injEq] at h
    rw [← h.1]; exact Assigned.unchanged _
  | succ n ih =>
    intro fs o fs2 r h
    cases hk : asStringByte d o k with
    | error e =>
      rw [entries_succ_error hk] at h
      simp only [Option.some.injEq, Prod.mk.injEq] at h
      rw [← h.1]; exact Assigned.unchanged _
    | panic e =>
      rw [entries_succ_panic hk] at h
      simp only [Option.some.injEq, Prod.mk.injEq] at h
      rw [← h.1]; exact Assigned.unchanged _
    | ok p =>
      obtain ⟨key, o2⟩ := p
      by_cases hneg : matchField tm key tm.keys 0 (-1) < 0
      · rw [entries_succ_neg hk hneg] at h
        simp only [Option.some.injEq, Prod.mk.injEq] at h
        rw [← h.1]; exact Assigned.unchanged _
      · cases hget : fs.get? (matchField tm key tm.keys 0 (-1)).toNat with
        | none =>
          rw [entries_succ_none hk hneg hget] at h
          simp only [Option.some.injEq, Prod.mk.injEq] at h
          rw [← h.1]; exact Assigned.unchanged _
        | some q =>
          obtain ⟨info, field⟩ := q
          rw [entries_succ_field hk hneg hget] at h
          cases hd : dec field o2 with
          | none => rw [hd] at h; simp at h
          | some r2 =>
            obtain ⟨field2, ret⟩ := r2
            rw [hd] at h
            have hset := @Assigned.set_field d fs _ info field field2 hget
              (hdec field o2 field2 ret hd)
            cases ret with
            | error e =>
              simp only [Option.some.injEq, Prod.mk.injEq] at h
              rw [← h.1]; exact hset
            | panic p =>
              simp only [Option.some.injEq, Prod.mk.injEq] at h
              rw [← h.1]; exact hset
            | ok o3 =>
              dsimp only at h
              exact hset.trans (ih _ o3 fs2 r h)

theorem decode_assigned (fuel : Nat) (d : List Byte) :
    ∀ v o v2 r, decode fuel d v o = some (v2, r) → Assigned d v v2 := by
  induction fuel with
  | zero => intro v o v2 r h; simp [decode] at h
  | succ fuel ih =>
    intro v o v2 r h
    cases v with
    | other kd =>
      simp only [decode, Option.some.injEq, Prod.mk.injEq] at h
      rw [← h.1]; exact Assigned.unchanged _
    | int ki vi =>
      simp only [decode] at h
      cases h1 : asInt d o ki.toKind with
      | error e =>
        rw [h1] at h
        simp only [Option.some.injEq, Prod.mk.injEq] at h
        rw [← h.1]; exact Assigned.unchanged _
      | panic e =>
        rw [h1] at h
        simp only [Option.some.injEq, Prod.mk.injEq] at h
        rw [← h.1]; exact Assigned.unchanged _
      | ok p =>
        obtain ⟨x, o1⟩ := p
        rw [h1] at h
        simp only [Option.some.injEq, Prod.mk.injEq] at h
        rw [← h.1]
        exact Assigned.int ki vi x o o1 h1
    | str s =>
      simp only [decode] at h
      cases h1 : asString d o Kind.string with
      | error e =>
        rw [h1] at h
        simp only [Option.some.injEq, Prod.mk.injEq] at h
        rw [← h.1]; exact Assigned.unchanged _
      | panic e =>
        rw [h1] at h
        simp only [Option.some.injEq, Prod.mk.injEq] at h
        rw [← h.1]; exact Assigned.unchanged _
      | ok p =>
        obtain ⟨x, o1⟩ := p
        rw [h1] at h
        simp only [Option.some.injEq, Prod.mk.injEq] at h
        rw [← h.1]
        exact Assigned.str s x o o1 h1
    | struct fs =>
      simp only [decode] at h
      cases hs : setStruct (decode fuel d) d fs o Kind.struct with
      | none => rw [hs] at h; simp at h
      | some q =>
        obtain ⟨fs2, ret⟩ := q
        rw [hs] at h
        have hfs : Assigned d (.struct fs) (.struct fs2) := by
          unfold setStruct at hs
          cases hm : mapLength d o Kind.struct with
          | error e =>
            rw [hm] at hs
            simp only [Option.some.injEq, Prod.mk.injEq] at hs
            rw [← hs.1]; exact Assigned.unchanged _
          | panic e =>
            rw [hm] at hs
            simp only [Option.some.injEq, Prod.mk.injEq] at hs
            rw [← hs.1]; exact Assigned.unchanged _
          | ok p =>
            obtain ⟨l, om⟩ := p
            rw [hm] at hs
            dsimp only at hs
            cases hq : hasRequiredLeastMapSize d om l with
            | error e =>
              rw [hq] at hs
              simp only [Option.some.injEq, Prod.mk.injEq] at hs
              rw [← hs.1]; exact Assigned.unchanged _
            | panic e =>
              rw [hq] at hs
              simp only [Option.some.injEq, Prod.mk.injEq] at hs
              rw [← hs.1]; exact Assigned.unchanged _
            | ok u =>
              rw [hq] at hs
              exact entries_assigned (decode fuel d) d ih _ _ l fs om fs2 ret hs
        cases ret with
        | ok o1 =>
          simp only [Option.some.injEq, Prod.mk.injEq] at h
          rw [← h.1]; exact hfs
        | error e =>
          simp only [Option.some.injEq, Prod.mk.injEq] at h
          rw [← h.1]; exact hfs
        | panic p =>
          simp only [Option.some.injEq, Prod.mk.injEq] at h
          rw [← h.1]; exact hfs

/-! ## Cutting a buffer after what a successful call has read -/

theorem readSizeN_cut {d1 d2 : List Byte} {i n : Nat} {bs : List Byte} {o : Nat}
    (h : readSizeN d1 i n = .ok (bs, o)) (hlen : i + n ≤ d2.length)
    (hag : ∀ j, i ≤ j → j < i + n → d1[j]? = d2[j]?) :
    readSizeN d2 i n = .ok (bs, o) := by
  obtain ⟨h1, h2, h3⟩ := readSizeN_ok h
  unfold readSizeN
  rw [if_neg (by omega), take_drop_window hag, h2, h3]

theorem asInt_cut {d1 : List Byte} {i : Nat} {k : Kind} {v : Int} {o : Nat}
    (h : asInt d1 i k = .ok (v, o)) (d2 : List Byte) (hlen : o ≤ d2.length)
    (hag : ∀ j, i ≤ j → j < o → d1[j]? = d2[j]?) :
    asInt d2 i k = .ok (v, o) := by
  unfold asInt at h
  cases h1 : readSize1 d1 i with
  | error e => rw [h1] at h; cases h
  | panic e => rw [h1] at h; cases h
  | ok p =>
    obtain ⟨code, o1⟩ := p
    rw [h1] at h
    simp only at h
    obtain ⟨_, _, hi⟩ := readSize1_ok h1
    split_ifs at h with c8 c16 c32 c64 cnil
    · cases h2 : readSize1 d1 (i + 1) with
      | error e => rw [h2] at h; cases h
      | panic e => rw [h2] at h; cases h
      | ok q =>
        obtain ⟨b, o2⟩ := q
        rw [h2] at h
        simp only [Ret.ok.injEq, Prod.mk.injEq] at h
        obtain ⟨rfl, rfl⟩ := h
        obtain ⟨_, rfl, hi2⟩ := readSize1_ok h2
        unfold asInt
        rw [readSize1_window h1 (hag i (by omega) (by omega))]
        simp only [c8, if_true]
        rw [readSize1_window h2 (hag (i + 1) (by omega) (by omega))]
    · cases h2 : readSize2 d1 (i + 1) with
      | error e => rw [h2] at h; cases h
      | panic e => rw [h2] at h; cases h
      | ok q =>
        obtain ⟨b, o2⟩ := q
        rw [h2] at h
        simp only [Ret.ok.injEq, Prod.mk.injEq] at h
        obtain ⟨rfl, rfl⟩ := h
        obtain ⟨hi2, _, rfl⟩ := readSizeN_ok h2
        simp only [Byte2] at hi2 hlen hag ⊢
        unfold asInt
        rw [readSize1_window h1 (hag i (by omega) (by omega))]
        rw [show readSize2 d2 (i + 1) = .ok (b, i + 1 + 2) from
          readSizeN_cut h2 (by simp only [Byte2, Byte4, Byte8]; omega)
            (fun j hj1 hj2 => hag j (by omega) (by simp only [Byte2] at hj2; omega))]
        simp [c16, Int8, Int16]
    · cases h2 : readSize4 d1 (i + 1) with
      | error e => rw [h2] at h; cases h
      | panic e => rw [h2] at h; cases h
      | ok q =>
        obtain ⟨b, o2⟩ := q
        rw [h2] at h
        simp only [Ret.ok.injEq, Prod.mk.injEq] at h
        obtain ⟨rfl, rfl⟩ := h
        obtain ⟨hi2, _, rfl⟩ := readSizeN_ok h2
        simp only [Byte4] at hi2 hlen hag ⊢
        unfold asInt
        rw [readSize1_window h1 (hag i (by omega) (by omega))]
        rw [show readSize4 d2 (i + 1) = .ok (b, i + 1 + 4) from
          readSizeN_cut h2 (by simp only [Byte2, Byte4, Byte8]; omega)
            (fun j hj1 hj2 => hag j (by omega) (by simp only [Byte4] at hj2; omega))]
        simp [c32, Int8, Int16, Int32]
    · cases h2 : readSize8 d1 (i + 1) with
      | error e => rw [h2] at h; cases h
      | panic e => rw [h2] at h; cases h
      | ok q =>
        obtain ⟨b, o2⟩ := q
        rw [h2] at h
        simp only [Ret.ok.injEq, Prod.mk.injEq] at h
        obtain ⟨rfl, rfl⟩ := h
        obtain ⟨hi2, _, rfl⟩ := readSizeN_ok h2
        simp only [Byte8] at hi2 hlen hag ⊢
        unfold asInt
        rw [readSize1_window h1 (hag i (by omega) (by omega))]
        rw [show readSize8 d2 (i + 1) = .ok (b, i + 1 + 8) from
          readSizeN_cut h2 (by simp only [Byte2, Byte4, Byte8]; omega)
            (fun j hj1 hj2 => hag j (by omega) (by simp only [Byte8] at hj2; omega))]
        simp [c64, Int8, Int16, Int32, Int64]
    · simp only [Ret.ok.injEq, Prod.mk.injEq] at h
      obtain ⟨rfl, rfl⟩ := h
      unfold asInt
      rw [readSize1_window h1 (hag i (by omega) (by omega))]
      simp [cnil, Int8, Int16, Int32, Int64, Nil]

theorem stringByteLength_cut {d1 : List Byte} {i : Nat} {k : Kind} {l o : Nat}
    (h : stringByteLength d1 i k = .ok (l, o)) (d2 : List Byte) (hlen : o ≤ d2.length)
    (hag : ∀ j, i ≤ j → j < o → d1[j]? = d2[j]?) :
    stringByteLength d2 i k = .ok (l, o) := by
  unfold stringByteLength at h
  cases h1 : readSize1 d1 i with
  | error e => rw [h1] at h; cases h
  | panic e => rw [h1] at h; cases h
  | ok p =>
    obtain ⟨code, o1⟩ := p
    rw [h1] at h
    simp only at h
    obtain ⟨_, rfl, hi⟩ := readSize1_ok h1
    split_ifs at h with cfix c8 c16 c32 cnil
    · simp only [Ret.ok.injEq, Prod.mk.injEq] at h
      obtain ⟨rfl, rfl⟩ := h
      unfold stringByteLength
      rw [readSize1_window h1 (hag i (by omega) (by omega))]
      simp only [cfix, and_self, if_true]
    · cases h2 : readSize1 d1 (i + 1) with
      | error e => rw [h2] at h; cases h
      | panic e => rw [h2] at h; cases h
      | ok q =>
        obtain ⟨b, o2⟩ := q
        rw [h2] at h
        simp only [Ret.ok.injEq, Prod.mk.injEq] at h
        obtain ⟨rfl, rfl⟩ := h
        obtain ⟨_, rfl, hi2⟩ := readSize1_ok h2
        unfold stringByteLength
        rw [readSize1_window h1 (hag i (by omega) (by omega))]
        dsimp only
        rw [if_neg cfix, if_pos c8, readSize1_window h2 (hag (i + 1) (by omega) (by omega))]
    · cases h2 : readSize2 d1 (i + 1) with
      | error e => rw [h2] at h; cases h
      | panic e => rw [h2] at h; cases h
      | ok q =>
        obtain ⟨b, o2⟩ := q
        rw [h2] at h
        simp only [Ret.ok.injEq, Prod.mk.injEq] at h
        obtain ⟨rfl, rfl⟩ := h
        obtain ⟨hi2, _, rfl⟩ := readSizeN_ok h2
        simp only [Byte2] at hi2 hlen hag ⊢
        unfold stringByteLength
        rw [readSize1_window h1 (hag i (by omega) (by omega))]
        simp only [cfix, c8, if_false]
        rw [show readSize2 d2 (i + 1) = .ok (b, i + 1 + 2) from
          readSizeN_cut h2 (by simp only [Byte2, Byte4, Byte8]; omega)
            (fun j hj1 hj2 => hag j (by omega) (by simp only [Byte2] at hj2; omega))]
        simp [c16]
    · cases h2 : readSize4 d1 (i + 1) with
      | error e => rw [h2] at h; cases h
      | panic e => rw [h2] at h; cases h
      | ok q =>
        obtain ⟨b, o2⟩ := q
        rw [h2] at h
        simp only [Ret.ok.injEq, Prod.mk.injEq] at h
        obtain ⟨rfl, rfl⟩ := h
        obtain ⟨hi2, _, rfl⟩ := readSizeN_ok h2
        simp only [Byte4] at hi2 hlen hag ⊢
        unfold stringByteLength
        rw [readSize1_window h1 (hag i (by omega) (by omega))]
        simp only [cfix, c8, c16, if_false]
        rw [show readSize4 d2 (i + 1) = .ok (b, i + 1 + 4) from
          readSizeN_cut h2 (by simp only [Byte2, Byte4, Byte8]; omega)
            (fun j hj1 hj2 => hag j (by omega) (by simp only [Byte4] at hj2; omega))]
        simp [c32]
    · simp only [Ret.ok.injEq, Prod.mk.injEq] at h
      obtain ⟨rfl, rfl⟩ := h
      unfold stringByteLength
      rw [readSize1_window h1 (hag i (by omega) (by omega))]
      dsimp only
      rw [if_neg cfix, if_neg c8, if_neg c16, if_neg c32, if_pos cnil]

theorem mapLength_cut {d1 : List Byte} {i : Nat} {k : Kind} {l o : Nat}
    (h : mapLength d1 i k = .ok (l, o)) (d2 : List Byte) (hlen : o ≤ d2.length)
    (hag : ∀ j, i ≤ j → j < o → d1[j]? = d2[j]?) :
    mapLength d2 i k = .ok (l, o) := by
  unfold mapLength at h
  cases h1 : readSize1 d1 i with
  | error e => rw [h1] at h; cases h
  | panic e => rw [h1] at h; cases h
  | ok p =>
    obtain ⟨code, o1⟩ := p
    rw [h1] at h
    simp only at h
    obtain ⟨_, rfl, hi⟩ := readSize1_ok h1
    split_ifs at h with cfix c16 c32
    · simp only [Ret.ok.injEq, Prod.mk.injEq] at h
      obtain ⟨rfl, rfl⟩ := h
      unfold mapLength
      rw [readSize1_window h1 (hag i (by omega) (by omega))]
      simp only [cfix, if_true]
    · cases h2 : readSize2 d1 (i + 1) with
      | error e => rw [h2] at h; cases h
      | panic e => rw [h2] at h; cases h
      | ok q =>
        obtain ⟨b, o2⟩ := q
        rw [h2] at h
        simp only [Ret.ok.injEq, Prod.mk.injEq] at h
        obtain ⟨rfl, rfl⟩ := h
        obtain ⟨hi2, _, rfl⟩ := readSizeN_ok h2
        simp only [Byte2] at hi2 hlen hag ⊢
        unfold mapLength
        rw [readSize1_window h1 (hag i (by omega) (by omega))]
        simp only [cfix, if_false]
        rw [show readSize2 d2 (i + 1) = .ok (b, i + 1 + 2) from
          readSizeN_cut h2 (by simp only [Byte2, Byte4, Byte8]; omega)
            (fun j hj1 hj2 => hag j (by omega) (by simp only [Byte2] at hj2; omega))]
        simp [c16]
    · cases h2 : readSize4 d1 (i + 1) with
      | error e => rw [h2] at h; cases h
      | panic e => rw [h2] at h; cases h
      | ok q =>
        obtain ⟨b, o2⟩ := q
        rw [h2] at h
        simp only [Ret.ok.injEq, Prod.mk.injEq] at h
        obtain ⟨rfl, rfl⟩ := h
        obtain ⟨hi2, _, rfl⟩ := readSizeN_ok h2
        simp only [Byte4] at hi2 hlen hag ⊢
        unfold mapLength
        rw [readSize1_window h1 (hag i (by omega) (by omega))]
        simp only [cfix, c16, if_false]
        rw [show readSize4 d2 (i + 1) = .ok (b, i + 1 + 4) from
          readSizeN_cut h2 (by simp only [Byte2, Byte4, Byte8]; omega)
            (fun j hj1 hj2 => hag j (by omega) (by simp only [Byte4] at hj2; omega))]
        simp [c32]

/-! ## Reads on two buffers of one length that agree from an offset on -/

theorem asStringByteByLength_cut {d1 : List Byte} {o l : Nat} {k : Kind} {bs : List Byte}
    {o2 : Nat} (h : asStringByteByLength d1 o l k = .ok (bs, o2)) (d2 : List Byte) (k2 : Kind)
    (hlen : o2 ≤ d2.length) (hag : ∀ j, o ≤ j → j < o2 → d1[j]? = d2[j]?) :
    asStringByteByLength d2 o l k2 = .ok (bs, o2) := by
  unfold asStringByteByLength at h ⊢
  by_cases hl : l < 1
  · rw [if_pos hl] at h
    rw [if_pos hl]
    exact h
  · rw [if_neg hl] at h
    rw [if_neg hl]
    obtain ⟨_, _, h3⟩ := readSizeN_ok h
    subst h3
    exact readSizeN_cut h hlen hag

theorem asStringByte_cut {d1 : List Byte} {i : Nat} {k : Kind} {bs : List Byte} {o : Nat}
    (h : asStringByte d1 i k = .ok (bs, o)) (d2 : List Byte) (hlen : o ≤ d2.length)
    (hag : ∀ j, i ≤ j → j < o → d1[j]? = d2[j]?) :
    asStringByte d2 i k = .ok (bs, o) := by
  unfold asStringByte at h
  cases h1 : stringByteLength d1 i k with
  | error e => rw [h1] at h; cases h
  | panic e => rw [h1] at h; cases h
  | ok p =>
    obtain ⟨l, o1⟩ := p
    rw [h1] at h
    simp only at h
    obtain ⟨⟨hb1, hb2⟩, _⟩ := stringByteLength_window h1
    obtain ⟨⟨hb3, _, hb4⟩, _⟩ := asStringByteByLength_window h
    unfold asStringByte
    rw [stringByteLength_cut h1 d2 (by omega) (fun j hj1 hj2 => hag j hj1 (by omega))]
    exact asStringByteByLength_cut h d2 k hlen (fun j hj1 hj2 => hag j (by omega) hj2)

theorem asString_cut {d1 : List Byte} {i : Nat} {k : Kind} {bs : List Byte} {o : Nat}
    (h : asString d1 i k = .ok (bs, o)) (d2 : List Byte) (hlen : o ≤ d2.length)
    (hag : ∀ j, i ≤ j → j < o → d1[j]? = d2[j]?) :
    asString d2 i k = .ok (bs, o) := by
  unfold asString at h
  cases h1 : asStringByte d1 i k with
  | error e => rw [h1] at h; cases h
  | panic e => rw [h1] at h; cases h
  | ok p =>
    obtain ⟨bs1, o1⟩ := p
    rw [h1] at h
    simp only [Ret.ok.injEq, Prod.mk.injEq] at h
    obtain ⟨rfl, rfl⟩ := h
    unfold asString
    rw [asStringByte_cut h1 d2 hlen hag]

theorem entries_cut (decOn : List Byte → Value → Nat → Option (Value × Ret Nat))
    (d1 : List Byte) (hw : DecWindow decOn d1)
    (hcut : ∀ rv off rv2 o, decOn d1 rv off = some (rv2, .ok o) →
      ∀ d2 : List Byte, o ≤ d2.length → (∀ j, off ≤ j → j < o → d1[j]? = d2[j]?) →
        decOn d2 rv off = some (rv2, .ok o))
    (tm : typeMap) (k : Kind) :
    ∀ (n : Nat) (fs : List (FieldInfo × Value)) (o : Nat) (fs2 : List (FieldInfo × Value))
      (o' : Nat), entries (decOn d1) d1 tm k n fs o = some (fs2, .ok o') →
      ∀ d2 : List Byte, o' ≤ d2.length → (∀ j, o ≤ j → j < o' → d1[j]? = d2[j]?) →
        entries (decOn d2) d2 tm k n fs o = some (fs2, .ok o') := by
  intro n
  induction n with
  | zero =>
    intro fs o fs2 o' h d2 _ _
    simp only [entries] at h ⊢
    exact h
  | succ n ih =>
    intro fs o fs2 o' h d2 hlen hag
    obtain ⟨key, o2, info, field, field2, o3, hk, hneg, hget, hd, hr⟩ := entries_succ_ok h
    obtain ⟨hk1, hk2, _⟩ := asStringByte_ok_bounds hk
    have hd1 : o2 < o3 := (hw field o2 field2 o3 hd).1.1
    have hr1 : o3 ≤ o' := entries_ok_le decOn d1 hw tm k n _ fs2 o3 o' hr
    have hk' := asStringByte_cut hk d2 (by omega) (fun j hj1 hj2 => hag j hj1 (by omega))
    have hd' := hcut field o2 field2 o3 hd d2 (by omega)
      (fun j hj1 hj2 => hag j (by omega) (by omega))
    have hr' := ih _ o3 fs2 o' hr d2 hlen (fun j hj1 hj2 => hag j (by omega) hj2)
    rw [entries_succ_field hk' hneg hget, hd']
    exact hr'

/-- A dispatch that succeeds with offset `o` succeeds alike on every buffer of at
least `o` bytes that holds the same bytes on `[off, o)`. -/
theorem decode_cut (fuel : Nat) (d1 : List Byte) :
    ∀ rv off rv2 o, decode fuel d1 rv off = some (rv2, .ok o) →
      ∀ d2 : List Byte, o ≤ d2.length → (∀ j, off ≤ j → j < o → d1[j]? = d2[j]?) →
        decode fuel d2 rv off = some (rv2, .ok o) := by
  induction fuel with
  | zero =>
    intro rv off rv2 o h
    simp [decode] at h
  | succ fuel ih =>
    intro rv off rv2 o h d2 hlen hag
    cases rv with
    | other kd => simp [decode] at h
    | int ki vi =>
      simp only [decode] at h
      cases h1 : asInt d1 off ki.toKind with
      | error e => rw [h1] at h; simp at h
      | panic e => rw [h1] at h; simp at h
      | ok p =>
        obtain ⟨v, o1⟩ := p
        rw [h1] at h
        simp only [Option.some.injEq, Prod.mk.injEq, Ret.ok.injEq] at h
        obtain ⟨rfl, rfl⟩ := h
        simp only [decode, asInt_cut h1 d2 hlen hag]
    | str s =>
      simp only [decode] at h
      cases h1 : asString d1 off Kind.string with
      | error e => rw [h1] at h; simp at h
      | panic e => rw [h1] at h; simp at h
      | ok p =>
        obtain ⟨v, o1⟩ := p
        rw [h1] at h
        simp only [Option.some.injEq, Prod.mk.injEq, Ret.ok.injEq] at h
        obtain ⟨rfl, rfl⟩ := h
        simp only [decode, asString_cut h1 d2 hlen hag]
    | struct fs =>
      simp only [decode] at h
      cases hs : setStruct (decode fuel d1) d1 fs off Kind.struct with
      | none => rw [hs] at h; simp at h
      | some r =>
        obtain ⟨fs2, ret⟩ := r
        rw [hs] at h
        cases ret with
        | error e => simp at h
        | panic p => simp at h
        | ok o1 =>
          simp only [Option.some.injEq, Prod.mk.injEq, Ret.ok.injEq] at h
          obtain ⟨rfl, rfl⟩ := h
          unfold setStruct at hs
          cases hm : mapLength d1 off Kind.struct with
          | error e => rw [hm] at hs; simp at hs
          | panic e => rw [hm] at hs; simp at hs
          | ok p =>
            obtain ⟨l, om⟩ := p
            rw [hm] at hs
            dsimp only at hs
            cases hq : hasRequiredLeastMapSize d1 om l with
            | error e => rw [hq] at hs; simp at hs
            | panic e => rw [hq] at hs; simp at hs
            | ok u =>
              rw [hq] at hs
              dsimp only at hs
              obtain ⟨⟨hm1, hm2⟩, _⟩ := mapLength_window hm
              have he1 := entries_consumes (decode fuel) d1 (decode_window fuel d1) _ _ _ _ _ _ _
                hs
              have hm' := mapLength_cut hm d2 (by omega) (fun j hj1 hj2 => hag j hj1 (by omega))
              have hq' : hasRequiredLeastMapSize d2 om l = .ok () := by
                rw [hasRequiredLeastMapSize_of_le d2 om l (by omega), if_neg (by omega)]
              have he' := entries_cut (decode fuel) d1 (decode_window fuel d1) ih _ _ _ _ _ _ _
                hs d2 hlen (fun j hj1 hj2 => hag j (by omega) hj2)
              simp only [decode, setStruct, hm', hq', he']

theorem decode_take (fuel : Nat) (data : List Byte) (rv rv2 : Value) (off o : Nat)
    (h : decode fuel data rv off = some (rv2, .ok o)) :
    decode fuel (data.take o) rv off = some (rv2, .ok o) := by
  have hb := (decode_window fuel data rv off rv2 o h).1
  apply decode_cut fuel data rv off rv2 o h
  · simp only [List.length_take]; omega
  · intro j _ hj
    rw [List.getElem?_take, if_pos hj]

/-! ## Zero values -/

theorem zero_int {z : Value} {k : IntKind} {v : Int} (h : z.zero = (Value.int k v).zero) :
    ∃ x, z = .int k x := by
  cases z with
  | int k2 x => simp only [Value.zero, Value.int.injEq, and_true] at h; exact ⟨x, by rw [h]⟩
  | str s => simp [Value.zero] at h
  | struct fs => simp [Value.zero] at h
  | other k2 => simp [Value.zero] at h

theorem zero_str {z : Value} {s : List Byte} (h : z.zero = (Value.str s).zero) :
    ∃ t, z = .str t := by
  cases z with
  | int k2 x => simp [Value.zero] at h
  | str t => exact ⟨t, rfl⟩
  | struct fs => simp [Value.zero] at h
  | other k2 => simp [Value.zero] at h

theorem zero_struct {z : Value} {fs : List (FieldInfo × Value)}
    (h : z.zero = (Value.struct fs).zero) :
    ∃ zs, z = .struct zs ∧ Value.zeroFields zs = Value.zeroFields fs := by
  cases z with
  | int k2 x => simp [Value.zero] at h
  | str t => simp [Value.zero] at h
  | struct zs => simp only [Value.zero, Value.struct.injEq] at h; exact ⟨zs, rfl, h⟩
  | other k2 => simp [Value.zero] at h

theorem zeroFields_length (fs : List (FieldInfo × Value)) :
    (Value.zeroFields fs).length = fs.length := by
  induction fs with
  | nil => rfl
  | cons p rest ih => obtain ⟨f, v⟩ := p; simp [Value.zeroFields, ih]

theorem zeroFields_eq_length {zs fs : List (FieldInfo × Value)}
    (h : Value.zeroFields zs = Value.zeroFields fs) : zs.length = fs.length := by
  rw [← zeroFields_length zs, h, zeroFields_length]

theorem zeroFields_get {zs : List (FieldInfo × Value)} :
    ∀ {fs : List (FieldInfo × Value)} {i : Nat} {f : FieldInfo} {v : Value},
      Value.zeroFields zs = Value.zeroFields fs → fs.get? i = some (f, v) →
      ∃ z, zs.get? i = some (f, z) ∧ z.zero = v.zero := by
  induction zs with
  | nil =>
    intro fs i f v h hget
    cases fs with
    | nil => simp at hget
    | cons p rest => obtain ⟨g, w⟩ := p; simp [Value.zeroFields] at h
  | cons q zrest ih =>
    intro fs i f v h hget
    obtain ⟨g, z0⟩ := q
    cases fs with
    | nil => simp at hget
    | cons p rest =>
      obtain ⟨g2, w⟩ := p
      simp only [Value.zeroFields, List.cons.injEq, Prod.mk.injEq] at h
      obtain ⟨⟨hg, hz⟩, hrest⟩ := h
      cases i with
      | zero =>
        simp only [List.get?_cons_zero, Option.some.injEq, Prod.mk.injEq] at hget
        obtain ⟨rfl, rfl⟩ := hget
        exact ⟨z0, by simp [hg], hz⟩
      | succ i =>
        simp only [List.get?_cons_succ] at hget
        obtain ⟨z, hz1, hz2⟩ := ih hrest hget
        exact ⟨z, by simpa using hz1, hz2⟩

theorem zeroFields_set {zs : List (FieldInfo × Value)} :
    ∀ {fs : List (FieldInfo × Value)} {i : Nat} {f : FieldInfo} {v : Value},
      Value.zeroFields zs = Value.zeroFields fs → fs.get? i = some (f, v) →
      Value.zeroFields (zs.set i (f, v)) = Value.zeroFields fs := by
  induction zs with
  | nil => intro fs i f v h _; simpa using h
  | cons q zrest ih =>
    intro fs i f v h hget
    obtain ⟨g, z0⟩ := q
    cases fs with
    | nil => simp at hget
    | cons p rest =>
      obtain ⟨g2, w⟩ := p
      simp only [Value.zeroFields, List.cons.injEq, Prod.mk.injEq] at h
      obtain ⟨⟨hg, hz⟩, hrest⟩ := h
      cases i with
      | zero =>
        simp only [List.get?_cons_zero, Option.some.injEq, Prod.mk.injEq] at hget
        obtain ⟨rfl, rfl⟩ := hget
        simp only [List.set_cons_zero, Value.zeroFields, hrest]
      | succ i =>
        simp only [List.get?_cons_succ] at hget
        simp only [List.set_cons_succ, Value.zeroFields, hg, hz, ih hrest hget]

theorem zeroFields_map_fst (zs : List (FieldInfo × Value)) :
    (Value.zeroFields zs).map Prod.fst = zs.map Prod.fst := by
  induction zs with
  | nil => rfl
  | cons p rest ih => obtain ⟨f, v⟩ := p; simp [Value.zeroFields, ih]

theorem zeroFields_eq_map_fst {zs fs : List (FieldInfo × Value)}
    (h : Value.zeroFields zs = Value.zeroFields fs) : zs.map Prod.fst = fs.map Prod.fst := by
  rw [← zeroFields_map_fst zs, h, zeroFields_map_fst]

mutual
theorem zero_zero : ∀ v : Value, v.zero.zero = v.zero
  | .int k x => rfl
  | .str s => rfl
  | .other k => rfl
  | .struct fs => by
    simp only [Value.zero, zeroFields_zeroFields fs]
theorem zeroFields_zeroFields :
    ∀ fs : List (FieldInfo × Value),
      Value.zeroFields (Value.zeroFields fs) = Value.zeroFields fs
  | [] => rfl
  | (f, v) :: rest => by
    simp only [Value.zeroFields, zero_zero v, zeroFields_zeroFields rest]
end

mutual
theorem depth_zero : ∀ v : Value, v.zero.depth = v.depth
  | .int k x => rfl
  | .str s => rfl
  | .other k => rfl
  | .struct fs => by
    simp only [Value.zero, Value.depth, depthList_zeroFields fs]
theorem depthList_zeroFields :
    ∀ fs : List (FieldInfo × Value),
      Value.depthList (Value.zeroFields fs) = Value.depthList fs
  | [] => rfl
  | (f, v) :: rest => by
    simp only [Value.zeroFields, Value.depthList, depth_zero v, depthList_zeroFields rest]
end

/-! ## Selection under distinct key lengths -/

theorem findIdx_distinct (n : Nat) :
    ∀ (fs : List (FieldInfo × Value)) (s i : Nat) (f : FieldInfo) (v : Value),
      (∀ p ∈ fs, (CheckField p.1).1 = true) →
      (fs.map (fun p => (CheckField p.1).2.length)).Nodup →
      fs.get? i = some (f, v) → (CheckField f).2.length = n →
      fs.findIdx? (fun p => (CheckField p.1).1 && decide ((CheckField p.1).2.length = n)) s
        = some (s + i) := by
  intro fs
  induction fs with
  | nil => intro s i f v _ _ hget; simp at hget
  | cons q rest ih =>
    intro s i f v hall hnd hget hlen
    obtain ⟨g, w⟩ := q
    rw [List.findIdx?_cons]
    cases i with
    | zero =>
      simp only [List.get?_cons_zero, Option.some.injEq, Prod.mk.injEq] at hget
      obtain ⟨rfl, rfl⟩ := hget
      have hp : (CheckField g).1 = true := hall (g, w) (List.mem_cons_self _ _)
      simp [hp, hlen]
    | succ i =>
      simp only [List.get?_cons_succ] at hget
      simp only [List.map_cons, List.nodup_cons] at hnd
      have hne : (CheckField g).2.length ≠ n := by
        intro he
        apply hnd.1
        rw [he, ← hlen]
        have hmem : (f, v) ∈ rest := List.get?_mem hget
        exact List.mem_map.mpr ⟨(f, v), hmem, rfl⟩
      have := ih (s + 1) i f v (fun p hp => hall p (List.mem_cons_of_mem _ hp)) hnd.2 hget hlen
      rw [if_neg (by simp [hne]), this]
      congr 1
      omega

theorem infosOk_iff (fs : List (FieldInfo × Value)) (h : infosOk (fs.map Prod.fst) = true) :
    (∀ p ∈ fs, (CheckField p.1).1 = true) ∧
    (fs.map (fun p => (CheckField p.1).2.length)).Nodup := by
  unfold infosOk at h
  simp only [Bool.and_eq_true, List.all_eq_true, decide_eq_true_eq, List.map_map] at h
  refine ⟨?_, ?_⟩
  · intro p hp
    exact h.1 p.1 (List.mem_map.mpr ⟨p, hp, rfl⟩)
  · exact h.2

/-- Under distinct key lengths the inner loop of `setStruct` finds the field whose
key it is given. -/
theorem matchField_distinct (zs : List (FieldInfo × Value)) (i : Nat) (f : FieldInfo)
    (z : Value) (hok : infosOk (zs.map Prod.fst) = true) (hget : zs.get? i = some (f, z))
    (key : List Byte) (hkey : key.length = (CheckField f).2.length) :
    matchField (fieldMap zs 0 { keys := [], indexes := [] }) key
      (fieldMap zs 0 { keys := [], indexes := [] }).keys 0 (-1) = (i : Int) := by
  obtain ⟨hall, hnd⟩ := infosOk_iff zs hok
  have hsel : selectByLength zs key.length = some i := by
    unfold selectByLength
    have := findIdx_distinct key.length zs 0 i f z hall hnd hget hkey.symm
    simpa using this
  rw [matchField_fieldMap, hsel]

/-! ## Map headers -/

theorem mapHeaderOf_length (h : MapForm) (n : Nat) : (mapHeaderOf h n).length = h.headerLen := by
  cases h <;> simp [mapHeaderOf, MapForm.headerLen, beBytes_length]

theorem mapLength_header (h : MapForm) (n : Nat) (hn : n ≤ h.cap) (pre post : List Byte)
    (k : Kind) :
    mapLength (pre ++ (mapHeaderOf h n ++ post)) pre.length k
      = .ok (n, pre.length + h.headerLen) := by
  cases h with
  | fixmap =>
    simp only [MapForm.cap] at hn
    have hv : (Fin.ofNat (FixMap + n) : Byte).val = FixMap + n := by
      show (FixMap + n) % 256 = FixMap + n
      simp only [FixMap]; omega
    have := mapLength_fixmap (pre ++ (mapHeaderOf .fixmap n ++ post)) pre.length
      (Fin.ofNat (FixMap + n)) k
      (by simp only [mapHeaderOf, List.singleton_append]
          rw [List.getElem?_append_right (le_refl _)]; simp)
      (by omega) (by omega)
    rw [hv, Nat.add_sub_cancel_left] at this
    exact this
  | map16 =>
    simp only [MapForm.cap] at hn
    have := mapLength_map16 pre (beBytes 2 n) post (Fin.ofNat Map16) k rfl
      (beBytes_length 2 n).symm
    rw [bigEndian_beBytes_of_lt 2 n (by norm_num; omega)] at this
    exact this
  | map32 =>
    simp only [MapForm.cap] at hn
    have := mapLength_map32 pre (beBytes 4 n) post (Fin.ofNat Map32) k rfl
      (beBytes_length 4 n).symm
    rw [bigEndian_beBytes_of_lt 4 n (by norm_num; omega)] at this
    exact this

/-! ## Sizes of the encodings -/

theorem strHeader_pos (f : StrForm) (n : Nat) : 1 ≤ (strHeader f n).length := by
  rw [strHeader_length]; cases f <;> simp [StrForm.headerLen]

theorem encodeWith_pos (p : Plan) (v : Value) (h : planOk p v = true) :
    1 ≤ (encodeWith p v).length := by
  cases p with
  | int w =>
    cases v with
    | int k x => simp [encodeWith]
    | str s => simp [planOk] at h
    | struct fs => simp [planOk] at h
    | other k => simp [planOk] at h
  | str f =>
    cases v with
    | int k x => simp [planOk] at h
    | str s =>
      simp only [encodeWith, List.length_append]
      have := strHeader_pos f s.length
      omega
    | struct fs => simp [planOk] at h
    | other k => simp [planOk] at h
  | map hf es =>
    cases v with
    | int k x => simp [planOk] at h
    | str s => simp [planOk] at h
    | struct fs =>
      simp only [encodeWith, List.length_append, mapHeaderOf_length]
      cases hf <;> simp only [MapForm.headerLen] <;> omega
    | other k => simp [planOk] at h

theorem encodeEntries_size (fs : List (FieldInfo × Value)) :
    ∀ es : List (Nat × StrForm × Plan), entriesOk es fs = true →
      2 * es.length ≤ (encodeEntries es fs).length := by
  intro es
  induction es with
  | nil => intro _; simp
  | cons e rest ih =>
    intro h
    obtain ⟨i, kf, p⟩ := e
    cases hget : fs.get? i with
    | none => simp only [entriesOk, hget] at h; cases h
    | some q =>
      obtain ⟨f, v⟩ := q
      simp only [entriesOk, hget, Bool.and_eq_true, decide_eq_true_eq] at h
      have h1 := strHeader_pos kf (CheckField f).2.length
      have h2 := encodeWith_pos p v h.1.2
      have h3 := ih h.2
      simp only [encodeEntries, hget, List.length_append, List.length_cons]
      omega

/-! ## The fields after every entry has been stored -/

theorem storeEntries_length (fs : List (FieldInfo × Value)) :
    ∀ (es : List (Nat × StrForm × Plan)) (cur : List (FieldInfo × Value)),
      (storeEntries fs es cur).length = cur.length := by
  intro es
  induction es with
  | nil => intro cur; rfl
  | cons e rest ih =>
    intro cur
    obtain ⟨i, kf, p⟩ := e
    cases hget : fs.get? i with
    | none => simp only [storeEntries, hget, ih]
    | some fv => simp only [storeEntries, hget, ih, List.length_set]

theorem storeEntries_get (fs : List (FieldInfo × Value)) :
    ∀ (es : List (Nat × StrForm × Plan)) (cur : List (FieldInfo × Value)) (j : Nat),
      cur.length = fs.length →
      (storeEntries fs es cur).get? j
        = if j ∈ es.map Prod.fst then fs.get? j else cur.get? j := by
  intro es
  induction es with
  | nil => intro cur j _; simp [storeEntries]
  | cons e rest ih =>
    intro cur j hlen
    obtain ⟨i, kf, p⟩ := e
    simp only [List.map_cons, List.mem_cons]
    cases hget : fs.get? i with
    | none =>
      simp only [storeEntries, hget]
      rw [ih cur j hlen]
      by_cases hj : j ∈ rest.map Prod.fst
      · rw [if_pos hj, if_pos (Or.inr hj)]
      · by_cases hij : j = i
        · rw [if_neg hj, if_pos (Or.inl hij)]
          subst hij
          have hge : fs.length ≤ j := by
            rcases Nat.lt_or_ge j fs.length with h | h
            · rw [List.get?_eq_get h] at hget; cases hget
            · exact h
          rw [hget, List.get?_eq_none.mpr (show cur.length ≤ j by omega)]
        · rw [if_neg hj, if_neg (not_or.mpr ⟨hij, hj⟩)]
    | some fv =>
      have hi : i < cur.length := by
        rw [hlen]
        rcases Nat.lt_or_ge i fs.length with h | h
        · exact h
        · rw [List.get?_eq_none.mpr h] at hget; cases hget
      simp only [storeEntries, hget]
      rw [ih (cur.set i fv) j (by simp [hlen])]
      by_cases hj : j ∈ rest.map Prod.fst
      · rw [if_pos hj, if_pos (Or.inr hj)]
      · by_cases hij : j = i
        · rw [if_neg hj, if_pos (Or.inl hij)]
          subst hij
          rw [hget, List.get?_eq_getElem?, List.getElem?_set_self hi]
        · have hne : i ≠ j := fun e => hij e.symm
          rw [if_neg hj, if_neg (not_or.mpr ⟨hij, hj⟩), List.get?_eq_getElem?,
            List.getElem?_set_ne hne, List.get?_eq_getElem?]

theorem storeEntries_all (fs cur : List (FieldInfo × Value)) (es : List (Nat × StrForm × Plan))
    (hlen : cur.length = fs.length) (hcov : ∀ j, j < fs.length → j ∈ es.map Prod.fst) :
    storeEntries fs es cur = fs := by
  apply List.ext_get?
  intro j
  rw [storeEntries_get fs es cur j hlen]
  by_cases hj : j < fs.length
  · rw [if_pos (hcov j hj)]
  · have h1 : fs.get? j = none := List.get?_eq_none.mpr (by omega)
    have h2 : cur.get? j = none := List.get?_eq_none.mpr (by omega)
    rw [h1, h2]; simp

/-! ## Decoding what an encoder wrote -/

theorem asStringByte_header (f : StrForm) (s : List Byte) (hn : s.length ≤ f.cap)
    (pre post : List Byte) (k : Kind) :
    asStringByte (pre ++ (strHeader f s.length ++ (s ++ post))) pre.length k
      = .ok (s, pre.length + f.headerLen + s.length) := by
  have h := asString_header f s hn pre post k
  unfold asString at h
  cases h1 : asStringByte (pre ++ (strHeader f s.length ++ (s ++ post))) pre.length k with
  | error e => rw [h1] at h; cases h
  | panic e => rw [h1] at h; cases h
  | ok p =>
    obtain ⟨bs, o⟩ := p
    rw [h1] at h
    exact h

theorem intCode_val (w : Nat) : (Fin.ofNat (intCode w) : Byte).val = intCode w := by
  show intCode w % 256 = intCode w
  unfold intCode
  split_ifs <;> rfl

theorem depth_pos (v : Value) : 1 ≤ v.depth := by
  cases v <;> simp [Value.depth]

theorem entries_encoded (fuel : Nat) (fs zs0 : List (FieldInfo × Value))
    (hz0 : Value.zeroFields zs0 = Value.zeroFields fs)
    (hok : infosOk (fs.map Prod.fst) = true)
    (hrt : ∀ (p : Plan) (v z : Value) (data pre post : List Byte),
      data = pre ++ (encodeWith p v ++ post) → planOk p v = true → z.zero = v.zero →
      v.depth ≤ fuel →
      decode fuel data z pre.length = some (v, .ok (pre.length + (encodeWith p v).length)))
    (hD : Value.depthList fs ≤ fuel) :
    ∀ (es : List (Nat × StrForm × Plan)) (cur : List (FieldInfo × Value))
      (data pre post : List Byte),
      data = pre ++ (encodeEntries es fs ++ post) → entriesOk es fs = true →
      Value.zeroFields cur = Value.zeroFields fs →
      entries (decode fuel data) data (fieldMap zs0 0 { keys := [], indexes := [] })
          Kind.struct es.length cur pre.length
        = some (storeEntries fs es cur, .ok (pre.length + (encodeEntries es fs).length)) := by
  intro es
  induction es with
  | nil =>
    intro cur data pre post _ _ _
    simp [entries, storeEntries, encodeEntries]
  | cons e rest ih =>
    intro cur data pre post hdata hes hz
    obtain ⟨i, kf, p⟩ := e
    cases hget : fs.get? i with
    | none => simp only [entriesOk, hget] at hes; cases hes
    | some q =>
      obtain ⟨f, v⟩ := q
      simp only [entriesOk, hget, Bool.and_eq_true, decide_eq_true_eq] at hes
      obtain ⟨⟨hcap, hp⟩, hrest⟩ := hes
      have henc : encodeEntries ((i, kf, p) :: rest) fs
          = strHeader kf (CheckField f).2.length ++ ((CheckField f).2 ++
              (encodeWith p v ++ encodeEntries rest fs)) := by
        simp only [encodeEntries, hget]
      have hdata' : data = pre ++ (strHeader kf (CheckField f).2.length ++
          ((CheckField f).2 ++ (encodeWith p v ++ (encodeEntries rest fs ++ post)))) := by
        rw [hdata, henc]; simp only [List.append_assoc]
      have hk : asStringByte data pre.length Kind.struct
          = .ok ((CheckField f).2, pre.length + kf.headerLen + (CheckField f).2.length) := by
        rw [hdata']
        exact asStringByte_header kf (CheckField f).2 hcap pre _ Kind.struct
      obtain ⟨z0, hz0get, _⟩ := zeroFields_get hz0 hget
      obtain ⟨zi, hzget, hzi⟩ := zeroFields_get hz hget
      have hok0 : infosOk (zs0.map Prod.fst) = true := by
        rw [zeroFields_eq_map_fst hz0]; exact hok
      have hmf := matchField_distinct zs0 i f z0 hok0 hz0get (CheckField f).2 rfl
      have hneg : ¬ matchField (fieldMap zs0 0 { keys := [], indexes := [] }) (CheckField f).2
          (fieldMap zs0 0 { keys := [], indexes := [] }).keys 0 (-1) < 0 := by
        rw [hmf]; exact not_lt.mpr (Int.ofNat_nonneg i)
      have hgetc : cur.get? (matchField (fieldMap zs0 0 { keys := [], indexes := [] })
          (CheckField f).2 (fieldMap zs0 0 { keys := [], indexes := [] }).keys 0 (-1)).toNat
            = some (f, zi) := by
        rw [hmf, Int.toNat_ofNat]; exact hzget
      have hvd : v.depth ≤ fuel := le_trans (depth_le_depthList fs i f v hget) hD
      have hdv := hrt p v zi data (pre ++ (strHeader kf (CheckField f).2.length ++
          (CheckField f).2)) (encodeEntries rest fs ++ post)
        (by rw [hdata']; simp only [List.append_assoc]) hp hzi hvd
      have hlen2 : (pre ++ (strHeader kf (CheckField f).2.length ++ (CheckField f).2)).length
          = pre.length + kf.headerLen + (CheckField f).2.length := by
        simp only [List.length_append, strHeader_length]; omega
      rw [hlen2] at hdv
      have ih' := ih (cur.set i (f, v)) data
        (pre ++ (strHeader kf (CheckField f).2.length ++ ((CheckField f).2 ++ encodeWith p v)))
        post (by rw [hdata']; simp only [List.append_assoc]) hrest (zeroFields_set hz hget)
      have hlen3 : (pre ++ (strHeader kf (CheckField f).2.length ++
          ((CheckField f).2 ++ encodeWith p v))).length
          = pre.length + kf.headerLen + (CheckField f).2.length + (encodeWith p v).length := by
        simp only [List.length_append, strHeader_length]; omega
      rw [hlen3] at ih'
      simp only [List.length_cons]
      rw [entries_succ_field hk hneg hgetc, hdv]
      dsimp only
      rw [hmf, Int.toNat_ofNat, ih']
      have hst : storeEntries fs ((i, kf, p) :: rest) cur
          = storeEntries fs rest (cur.set i (f, v)) := by
        simp only [storeEntries, hget]
      rw [hst, henc]
      simp only [List.length_append, strHeader_length]
      congr 3
      omega

theorem perm_range_length {l : List Nat} {n : Nat} (h : l.Perm (List.range n)) :
    l.length = n := by
  have := h.length_eq
  simpa using this

theorem decode_encoded : ∀ (fuel : Nat) (p : Plan) (v z : Value) (data pre post : List Byte),
    data = pre ++ (encodeWith p v ++ post) → planOk p v = true → z.zero = v.zero →
    v.depth ≤ fuel →
    decode fuel data z pre.length = some (v, .ok (pre.length + (encodeWith p v).length)) := by
  intro fuel
  induction fuel with
  | zero =>
    intro p v z data pre post _ _ _ hd
    have := depth_pos v
    omega
  | succ fuel ih =>
    intro p v z data pre post hdata hp hz hd
    cases p with
    | int w =>
      cases v with
      | int k x =>
        simp only [planOk, Bool.and_eq_true, decide_eq_true_eq] at hp
        obtain ⟨⟨hk, hw⟩, hlo, hhi⟩ := hp
        obtain ⟨y, rfl⟩ := zero_int hz
        have hdata' : data = pre ++ (Fin.ofNat (intCode w) : Byte) ::
            (twosComplement w x ++ post) := by
          rw [hdata]; simp only [encodeWith, List.cons_append]
        have ha := asInt_encoded w hw x hlo hhi (Fin.ofNat (intCode w)) (intCode_val w)
          pre post k.toKind
        rw [← hdata'] at ha
        have h64 : toSigned k.bits x = x := by
          rw [hk]
          apply toSigned_id 64 (by norm_num)
          · rcases hw with rfl | rfl | rfl | rfl <;> norm_num at hlo ⊢ <;> omega
          · rcases hw with rfl | rfl | rfl | rfl <;> norm_num at hhi ⊢ <;> omega
        simp only [decode, ha, h64, encodeWith, List.length_cons, twosComplement_length]
        congr 3
        omega
      | str s => simp [planOk] at hp
      | struct fs => simp [planOk] at hp
      | other k => simp [planOk] at hp
    | str f =>
      cases v with
      | int k x => simp [planOk] at hp
      | str s =>
        simp only [planOk, decide_eq_true_eq] at hp
        obtain ⟨t, rfl⟩ := zero_str hz
        have ha := asString_header f s hp pre post Kind.string
        have hdata' : data = pre ++ (strHeader f s.length ++ (s ++ post)) := by
          rw [hdata]; simp only [encodeWith, List.append_assoc]
        rw [← hdata'] at ha
        simp only [decode, ha, encodeWith, List.length_append, strHeader_length]
        congr 3
        omega
      | struct fs => simp [planOk] at hp
      | other k => simp [planOk] at hp
    | map h es =>
      cases v with
      | int k x => simp [planOk] at hp
      | str s => simp [planOk] at hp
      | other k => simp [planOk] at hp
      | struct fs =>
        simp only [planOk, Bool.and_eq_true, decide_eq_true_eq] at hp
        obtain ⟨⟨⟨hcap, hinfo⟩, hperm⟩, hes⟩ := hp
        obtain ⟨zs, rfl, hzs⟩ := zero_struct hz
        have hlen : es.length = fs.length := by
          have := perm_range_length hperm
          simpa using this
        have hdata' : data = pre ++ (mapHeaderOf h fs.length ++ (encodeEntries es fs ++ post)) := by
          rw [hdata]; simp only [encodeWith, List.append_assoc]
        have hm := mapLength_header h fs.length hcap pre (encodeEntries es fs ++ post) Kind.struct
        rw [← hdata'] at hm
        have hsz := encodeEntries_size fs es hes
        have hpre : hasRequiredLeastMapSize data (pre.length + h.headerLen) fs.length = .ok () := by
          have hdl : data.length = pre.length + h.headerLen +
              ((encodeEntries es fs).length + post.length) := by
            rw [hdata']
            simp only [List.length_append, mapHeaderOf_length]
            omega
          rw [hasRequiredLeastMapSize_of_le data _ _ (by omega), if_neg (by omega)]
        have hD : Value.depthList fs ≤ fuel := by
          simp only [Value.depth] at hd; omega
        have hdata2 : data = (pre ++ mapHeaderOf h fs.length) ++ (encodeEntries es fs ++ post) := by
          rw [hdata']; simp only [List.append_assoc]
        have hE := entries_encoded fuel fs zs hzs hinfo
          (fun p v z data pre post h1 h2 h3 h4 => ih p v z data pre post h1 h2 h3 h4) hD
          es zs data (pre ++ mapHeaderOf h fs.length) post hdata2 hes hzs
        have hl2 : (pre ++ mapHeaderOf h fs.length).length = pre.length + h.headerLen := by
          simp only [List.length_append, mapHeaderOf_length]
        rw [hl2, hlen] at hE
        have hall : storeEntries fs es zs = fs := by
          apply storeEntries_all fs zs es (zeroFields_eq_length hzs)
          intro j hj
          exact hperm.mem_iff.mpr (List.mem_range.mpr hj)
        rw [hall] at hE
        simp only [decode, setStruct, hm, hpre, hE, encodeWith, List.length_append,
          mapHeaderOf_length]
        congr 3
        omega

/-! ## Claims on the map header, the field map, the cursor and the round trip -/

/-- C11: `mapLength` at an offset that holds the byte `c`: for a fixmap code
(0x80 to 0x8f) it returns `c - 0x80` and the next offset; for Map16 (0xde) followed by
two bytes it returns their big-endian value and the offset 3 further; for Map32
(0xdf) followed by four bytes it returns their big-endian value and the offset 5
further; for every other code, Nil (0xc0) included, it fails with the invalid-code
error. -/
theorem C11_mapLength_header (k : Kind) :
    (∀ (data : List Byte) (i : Nat) (c : Byte), data[i]? = some c →
      0x80 ≤ c.val → c.val ≤ 0x8f →
      mapLength data i k = .ok (c.val - 0x80, i + 1) ∧ c.val - 0x80 ≤ 15) ∧
    (∀ (pre post : List Byte) (c b1 b0 : Byte), c.val = 0xde →
      mapLength (pre ++ c :: ([b1, b0] ++ post)) pre.length k
        = .ok (b1.val * 256 + b0.val, pre.length + 3)) ∧
    (∀ (pre post : List Byte) (c b3 b2 b1 b0 : Byte), c.val = 0xdf →
      mapLength (pre ++ c :: ([b3, b2, b1, b0] ++ post)) pre.length k
        = .ok (((b3.val * 256 + b2.val) * 256 + b1.val) * 256 + b0.val, pre.length + 5)) ∧
    (∀ (data : List Byte) (i : Nat) (c : Byte), data[i]? = some c →
      ¬ (0x80 ≤ c.val ∧ c.val ≤ 0x8f) → c.val ≠ 0xde → c.val ≠ 0xdf →
      mapLength data i k = .error (.invalidCode c k)) ∧
    (∀ (data : List Byte) (i : Nat) (c : Byte), data[i]? = some c → c.val = 0xc0 →
      mapLength data i k = .error (.invalidCode c k)) := by
  have hother : ∀ (data : List Byte) (i : Nat) (c : Byte), data[i]? = some c →
      ¬ (0x80 ≤ c.val ∧ c.val ≤ 0x8f) → c.val ≠ 0xde → c.val ≠ 0xdf →
      mapLength data i k = .error (.invalidCode c k) := by
    intro data i c h h0 h1 h2
    exact mapLength_other data i c k h (by simpa [FixMap] using h0) (by simpa [Map16] using h1)
      (by simpa [Map32] using h2)
  refine ⟨?_, ?_, ?_, hother, ?_⟩
  · intro data i c h h1 h2
    have := mapLength_fixmap data i c k h (by simpa [FixMap] using h1)
      (by simpa [FixMap] using h2)
    simp only [FixMap] at this
    exact ⟨this, by omega⟩
  · intro pre post c b1 b0 hc
    have := mapLength_map16 pre [b1, b0] post c k (by simpa [Map16] using hc) rfl
    rw [this]
    simp [bigEndian]
  · intro pre post c b3 b2 b1 b0 hc
    have := mapLength_map32 pre [b3, b2, b1, b0] post c k (by simpa [Map32] using hc) rfl
    rw [this]
    simp [bigEndian]
  · intro data i c h hc
    exact hother data i c h (by omega) (by omega) (by omega)

/-- C11 at concrete inputs: a fixmap of 3 entries, a Map16 header of 258 entries at
offset 1, a Map32 header, and Nil where a map is expected. -/
theorem C11_mapLength_header_witness :
    mapLength [0x83, 0x00] 0 Kind.struct = .ok (3, 1) ∧
    mapLength [0x00, 0xde, 0x01, 0x02, 0x07] 1 Kind.struct = .ok (258, 4) ∧
    mapLength [0xdf, 0x00, 0x00, 0x01, 0x00] 0 Kind.struct = .ok (256, 5) ∧
    mapLength [0xc0] 0 Kind.struct = .error (.invalidCode 0xc0 Kind.struct) :=
  ⟨((C11_mapLength_header Kind.struct).1 [0x83, 0x00] 0 0x83 (by decide) (by decide)
      (by decide)).1,
   (C11_mapLength_header Kind.struct).2.1 [0x00] [0x07] 0xde 0x01 0x02 (by decide),
   (C11_mapLength_header Kind.struct).2.2.1 [] [] 0xdf 0x00 0x00 0x01 0x00 (by decide),
   (C11_mapLength_header Kind.struct).2.2.2.2 [0xc0] 0 0xc0 (by decide) (by decide)⟩

/-- C12: `CheckField` rejects a field whose name does not start with 'A'..'Z' or whose
tag is "-", returns the tag for a field that starts with 'A'..'Z' and has a
non-empty tag other than "-", and returns the declared name when the tag is empty;
the field map `setStruct` builds is the list of the pairs (effective key, field
index) of the accepted fields, in declaration order. -/
theorem C12_field_resolution :
    (∀ f : FieldInfo,
      ((¬ (0x41 ≤ f.name0.val ∧ f.name0.val ≤ 0x5a) ∨ f.tag = [0x2d]) →
        CheckField f = (false, [])) ∧
      ((0x41 ≤ f.name0.val ∧ f.name0.val ≤ 0x5a) → f.tag ≠ [] → f.tag ≠ [0x2d] →
        CheckField f = (true, f.tag)) ∧
      ((0x41 ≤ f.name0.val ∧ f.name0.val ≤ 0x5a) → f.tag = [] →
        CheckField f = (true, f.name0 :: f.nameRest))) ∧
    (∀ fs : List (FieldInfo × Value),
      fieldMap fs 0 { keys := [], indexes := [] } =
        { keys := (fs.enum.filterMap (fun p =>
            if (CheckField p.2.1).1 then some ((CheckField p.2.1).2, (p.1 : Int))
            else none)).map Prod.fst,
          indexes := (fs.enum.filterMap (fun p =>
            if (CheckField p.2.1).1 then some ((CheckField p.2.1).2, (p.1 : Int))
            else none)).map Prod.snd }) := by
  constructor
  · intro f
    refine ⟨?_, ?_, ?_⟩
    · intro h
      rcases h with h | h
      · have : isPublic f.name0 = false := by
          unfold isPublic; exact decide_eq_false h
        simp [CheckField, this]
      · by_cases hp : isPublic f.name0 = true
        · simp [CheckField, hp, h, skipTag]
        · simp [CheckField, hp]
    · intro hp h1 h2
      have : isPublic f.name0 = true := by
        unfold isPublic; exact decide_eq_true hp
      have hlen : f.tag.length > 0 := List.length_pos.mpr h1
      simp [CheckField, this, skipTag, h2, hlen]
    · intro hp h1
      have : isPublic f.name0 = true := by
        unfold isPublic; exact decide_eq_true hp
      simp [CheckField, this, skipTag, h1, FieldInfo.name]
  · intro fs
    rw [fieldMap_eq, fieldPairs_enumFrom]
    simp [List.enum]

/-- C12 at a concrete input: the fields `ID`, `name` (not exported), `Skip` with the
tag "-", and `Name` with the tag "n". -/
theorem C12_field_resolution_witness :
    CheckField ⟨0x6e, [0x61], []⟩ = (false, []) ∧
    CheckField ⟨0x4e, [0x61], [0x6e]⟩ = (true, [0x6e]) ∧
    CheckField ⟨0x49, [0x44], []⟩ = (true, [0x49, 0x44]) ∧
    fieldMap [(⟨0x49, [0x44], []⟩, .int .int64 0), (⟨0x6e, [0x61], []⟩, .str []),
        (⟨0x53, [], [0x2d]⟩, .str []), (⟨0x4e, [0x61], [0x6e]⟩, .str [])] 0
        { keys := [], indexes := [] }
      = { keys := [[0x49, 0x44], [0x6e]], indexes := [0, 3] } :=
  ⟨(C12_field_resolution.1 ⟨0x6e, [0x61], []⟩).1 (Or.inl (by decide)),
   (C12_field_resolution.1 ⟨0x4e, [0x61], [0x6e]⟩).2.1 (by decide) (by decide) (by decide),
   (C12_field_resolution.1 ⟨0x49, [0x44], []⟩).2.2 (by decide) rfl,
   by decide⟩

/-- C13: on a destination slot whose kind is none of struct, int, int8, int16, int32,
int64, string, the dispatcher returns the error "type(..) is unsupported" on every
buffer and offset and the slot is as it was; a map entry whose matched field is of
such a kind ends the entry loop with that error and every field as it was before
the entry, and `Decode` returns the error of the dispatcher. -/
theorem C13_unsupported_kind (data : List Byte) :
    (∀ (fuel : Nat) (rv : Value) (off : Nat),
      (rv.kind ≠ Kind.struct ∧ rv.kind ≠ Kind.int ∧ rv.kind ≠ Kind.int8 ∧
        rv.kind ≠ Kind.int16 ∧ rv.kind ≠ Kind.int32 ∧ rv.kind ≠ Kind.int64 ∧
        rv.kind ≠ Kind.string) →
      decode (fuel + 1) data rv off = some (rv, .error (.unsupportedType rv.kind))) ∧
    (∀ (fuel : Nat) (tm : typeMap) (k : Kind) (n : Nat) (fs : List (FieldInfo × Value))
      (o : Nat) (key : List Byte) (o2 : Nat) (info : FieldInfo) (ok : OtherKind),
      asStringByte data o k = .ok (key, o2) → ¬ matchField tm key tm.keys 0 (-1) < 0 →
      fs.get? (matchField tm key tm.keys 0 (-1)).toNat = some (info, .other ok) →
      entries (decode (fuel + 1) data) data tm k (n + 1) fs o
        = some (fs, .error (.unsupportedType ok.toKind))) ∧
    (∀ (rv rv2 : Value) (e : Error), data ≠ [] →
      decode rv.depth data rv 0 = some (rv2, .error e) →
      Decode data (.ptr rv) = some (.ptr rv2, .error e)) := by
  refine ⟨?_, ?_, ?_⟩
  · intro fuel rv off h
    obtain ⟨k, rfl⟩ := kind_other rv h
    rfl
  · intro fuel tm k n fs o key o2 info ok hk hneg hget
    rw [entries_succ_field hk hneg hget]
    simp only [decode]
    rw [set_get_same fs _ _ hget]
  · intro rv rv2 e hne h
    have hlen : ¬ data.length < 1 := by
      cases data with
      | nil => exact absurd rfl hne
      | cons a l => simp
    simp only [Decode, hlen, if_false, h]

/-- C13 at a concrete input: the map `{"F": Nil}` decoded into a struct whose field
`F` is a float64. -/
theorem C13_unsupported_kind_witness :
    decode 1 [0xc0] (.other .float64) 0
      = some (.other .float64, .error (.unsupportedType Kind.float64)) ∧
    Decode [0x81, 0xa1, 0x46, 0xc0] (.ptr (.struct [(⟨0x46, [], []⟩, .other .float64)]))
      = some (.ptr (.struct [(⟨0x46, [], []⟩, .other .float64)]),
          .error (.unsupportedType Kind.float64)) :=
  ⟨(C13_unsupported_kind [0xc0]).1 0 (.other .float64) 0 (by decide),
   (C13_unsupported_kind [0x81, 0xa1, 0x46, 0xc0]).2.2
     (.struct [(⟨0x46, [], []⟩, .other .float64)])
     (.struct [(⟨0x46, [], []⟩, .other .float64)]) (.unsupportedType Kind.float64)
     (by decide) rfl⟩

/-- C14: whatever way the dispatcher ends (success, error or panic), every integer or
string slot of the destination after the call holds what it held before, or a value
returned by a scalar decode that succeeded on the buffer; a scalar slot whose own
decode fails is as it was; and an entry whose value fails ends the loop with every
other field as the entries before it left it. -/
theorem C14_no_rollback_no_stray_writes (data : List Byte) :
    (∀ (fuel : Nat) (rv : Value) (off : Nat) (rv2 : Value) (r : Ret Nat),
      decode fuel data rv off = some (rv2, r) → Assigned data rv rv2) ∧
    (∀ (fuel : Nat) (k : IntKind) (v : Int) (off : Nat) (rv2 : Value) (e : Error),
      decode fuel data (.int k v) off = some (rv2, .error e) → rv2 = .int k v) ∧
    (∀ (fuel : Nat) (s : List Byte) (off : Nat) (rv2 : Value) (e : Error),
      decode fuel data (.str s) off = some (rv2, .error e) → rv2 = .str s) ∧
    (∀ (fuel : Nat) (tm : typeMap) (k : Kind) (n : Nat) (fs : List (FieldInfo × Value))
      (o : Nat) (key : List Byte) (o2 : Nat) (info : FieldInfo) (field field2 : Value)
      (e : Error),
      asStringByte data o k = .ok (key, o2) → ¬ matchField tm key tm.keys 0 (-1) < 0 →
      fs.get? (matchField tm key tm.keys 0 (-1)).toNat = some (info, field) →
      decode fuel data field o2 = some (field2, .error e) →
      entries (decode fuel data) data tm k (n + 1) fs o
        = some (fs.set (matchField tm key tm.keys 0 (-1)).toNat (info, field2), .error e)) := by
  refine ⟨?_, ?_, ?_, ?_⟩
  · intro fuel rv off rv2 r h
    exact decode_assigned fuel data rv off rv2 r h
  · intro fuel k v off rv2 e h
    cases fuel with
    | zero => simp [decode] at h
    | succ fuel =>
      simp only [decode] at h
      cases h1 : asInt data off k.toKind with
      | error e1 =>
        rw [h1] at h
        simp only [Option.some.injEq, Prod.mk.injEq] at h
        exact h.1.symm
      | panic e1 =>
        rw [h1] at h
        simp only [Option.some.injEq, Prod.mk.injEq] at h
        exact h.1.symm
      | ok p =>
        rw [h1] at h
        simp at h
  · intro fuel s off rv2 e h
    cases fuel with
    | zero => simp [decode] at h
    | succ fuel =>
      simp only [decode] at h
      cases h1 : asString data off Kind.string with
      | error e1 =>
        rw [h1] at h
        simp only [Option.some.injEq, Prod.mk.injEq] at h
        exact h.1.symm
      | panic e1 =>
        rw [h1] at h
        simp only [Option.some.injEq, Prod.mk.injEq] at h
        exact h.1.symm
      | ok p =>
        rw [h1] at h
        simp at h
  · intro fuel tm k n fs o key o2 info field field2 e hk hneg hget hd
    rw [entries_succ_field hk hneg hget, hd]

/-- C14 at a concrete input: the map `{"A": 5, "BC": true}` decoded into a struct with
the int64 field `A` and the string field `BC`: the second entry fails, `A` keeps
the decoded 5 and `BC` is as it was. -/
theorem C14_no_rollback_no_stray_writes_witness :
    decode 2 [0x82, 0xa1, 0x41, 0xd0, 0x05, 0xa2, 0x42, 0x43, 0xc3]
        (.struct [(⟨0x41, [], []⟩, .int .int64 0), (⟨0x42, [0x43], []⟩, .str [0x7a])]) 0
      = some (.struct [(⟨0x41, [], []⟩, .int .int64 5), (⟨0x42, [0x43], []⟩, .str [0x7a])],
          .error (.invalidCode 0xc3 Kind.string)) ∧
    Assigned [0x82, 0xa1, 0x41, 0xd0, 0x05, 0xa2, 0x42, 0x43, 0xc3]
      (.struct [(⟨0x41, [], []⟩, .int .int64 0), (⟨0x42, [0x43], []⟩, .str [0x7a])])
      (.struct [(⟨0x41, [], []⟩, .int .int64 5), (⟨0x42, [0x43], []⟩, .str [0x7a])]) :=
  ⟨rfl, (C14_no_rollback_no_stray_writes
      [0x82, 0xa1, 0x41, 0xd0, 0x05, 0xa2, 0x42, 0x43, 0xc3]).1 2
    (.struct [(⟨0x41, [], []⟩, .int .int64 0), (⟨0x42, [0x43], []⟩, .str [0x7a])]) 0
    (.struct [(⟨0x41, [], []⟩, .int .int64 5), (⟨0x42, [0x43], []⟩, .str [0x7a])])
    (.error (.invalidCode 0xc3 Kind.string)) rfl⟩

/-- C15: a dispatch that succeeds from offset `i` with offset `o` has `i < o` and `o`
at most the length of the buffer; so have the successful calls of `asInt`,
`asString` and `mapLength`; in a successful run of the entry loop of a struct the
offset after the key is beyond the offset of the entry, the offset after the value
is beyond the offset after the key, and the rest of the loop starts there. -/
theorem C15_cursor_invariant (data : List Byte) :
    (∀ (fuel : Nat) (rv : Value) (i : Nat) (rv2 : Value) (o : Nat),
      decode fuel data rv i = some (rv2, .ok o) → i < o ∧ o ≤ data.length) ∧
    (∀ (i : Nat) (k : Kind) (v : Int) (o : Nat),
      asInt data i k = .ok (v, o) → i < o ∧ o ≤ data.length) ∧
    (∀ (i : Nat) (k : Kind) (s : List Byte) (o : Nat),
      asString data i k = .ok (s, o) → i < o ∧ o ≤ data.length) ∧
    (∀ (i : Nat) (k : Kind) (n o : Nat),
      mapLength data i k = .ok (n, o) → i < o ∧ o ≤ data.length) ∧
    (∀ (fuel : Nat) (tm : typeMap) (k : Kind) (n : Nat) (fs fs2 : List (FieldInfo × Value))
      (o o' : Nat),
      entries (decode fuel data) data tm k (n + 1) fs o = some (fs2, .ok o') →
      ∃ key o2 info field field2 o3,
        asStringByte data o k = .ok (key, o2) ∧
        decode fuel data field o2 = some (field2, .ok o3) ∧
        entries (decode fuel data) data tm k n
          (fs.set (matchField tm key tm.keys 0 (-1)).toNat (info, field2)) o3
            = some (fs2, .ok o') ∧
        o < o2 ∧ o2 < o3 ∧ o3 ≤ o' ∧ o' ≤ data.length) := by
  refine ⟨?_, ?_, ?_, ?_, ?_⟩
  · intro fuel rv i rv2 o h
    exact (decode_window fuel data rv i rv2 o h).1
  · intro i k v o h
    exact (asInt_window h).1
  · intro i k s o h
    exact (asString_window h).1
  · intro i k n o h
    exact (mapLength_window h).1
  · intro fuel tm k n fs fs2 o o' h
    obtain ⟨key, o2, info, field, field2, o3, hk, _, _, hd, hr⟩ := entries_succ_ok h
    obtain ⟨hk1, hk2, hk3⟩ := asStringByte_ok_bounds hk
    obtain ⟨hd1, hd2⟩ := (decode_window fuel data field o2 field2 o3 hd).1
    obtain ⟨hr1, hr2⟩ := (entries_window (decode fuel) data (decode_window fuel data) tm k n _ o3
      fs2 o' hr).1
    exact ⟨key, o2, info, field, field2, o3, hk, hd, hr, by omega, hd1, hr1, hr2 hd2⟩

/-- C15 at a concrete input: the one-entry map `{"A": 5}` decoded into a struct with
the int64 field `A` ends at offset 5 of 5. -/
theorem C15_cursor_invariant_witness :
    decode 2 [0x81, 0xa1, 0x41, 0xd0, 0x05] (.struct [(⟨0x41, [], []⟩, .int .int64 0)]) 0
      = some (.struct [(⟨0x41, [], []⟩, .int .int64 5)], .ok 5) ∧
    (0 < 5 ∧ 5 ≤ ([0x81, 0xa1, 0x41, 0xd0, 0x05] : List Byte).length) :=
  ⟨rfl, (C15_cursor_invariant [0x81, 0xa1, 0x41, 0xd0, 0x05]).1 2
    (.struct [(⟨0x41, [], []⟩, .int .int64 0)]) 0
    (.struct [(⟨0x41, [], []⟩, .int .int64 5)]) 5 rfl⟩

/-- C16: a run of the entry loop for `N` entries that succeeds from the offset `o`
after the header with the offset `o'` has consumed at least `2 * N` bytes; so the
pre-check of `setStruct` accepts every buffer on which the entries decode. -/
theorem C16_precheck_lower_bound (fuel : Nat) (data : List Byte) (tm : typeMap) (k : Kind)
    (N : Nat) (fs fs2 : List (FieldInfo × Value)) (o o' : Nat)
    (h : entries (decode fuel data) data tm k N fs o = some (fs2, .ok o')) :
    o + 2 * N ≤ o' ∧ (o ≤ data.length → hasRequiredLeastMapSize data o N = .ok ()) := by
  have h1 := entries_consumes (decode fuel) data (decode_window fuel data) tm k N fs fs2 o o' h
  refine ⟨h1, ?_⟩
  intro ho
  have h2 := (entries_window (decode fuel) data (decode_window fuel data) tm k N fs o fs2 o'
    h).1.2 ho
  rw [hasRequiredLeastMapSize_of_le data o N ho, if_neg (by omega)]

/-- C16 at a concrete input: the two entries `"A": 5, "BC": "x"` from offset 1. -/
theorem C16_precheck_lower_bound_witness :
    entries (decode 1 [0x82, 0xa1, 0x41, 0xd0, 0x05, 0xa2, 0x42, 0x43, 0xa1, 0x78])
        [0x82, 0xa1, 0x41, 0xd0, 0x05, 0xa2, 0x42, 0x43, 0xa1, 0x78]
        { keys := [[0x41], [0x42, 0x43]], indexes := [0, 1] } Kind.struct 2
        [(⟨0x41, [], []⟩, .int .int64 0), (⟨0x42, [0x43], []⟩, .str [])] 1
      = some ([(⟨0x41, [], []⟩, .int .int64 5), (⟨0x42, [0x43], []⟩, .str [0x78])], .ok 10) ∧
    1 + 2 * 2 ≤ 10 :=
  ⟨rfl, (C16_precheck_lower_bound 1 [0x82, 0xa1, 0x41, 0xd0, 0x05, 0xa2, 0x42, 0x43, 0xa1, 0x78]
    { keys := [[0x41], [0x42, 0x43]], indexes := [0, 1] } Kind.struct 2
    [(⟨0x41, [], []⟩, .int .int64 0), (⟨0x42, [0x43], []⟩, .str [])]
    [(⟨0x41, [], []⟩, .int .int64 5), (⟨0x42, [0x43], []⟩, .str [0x78])] 1 10 rfl).1⟩

/-- C17: the dispatcher returns a result on every buffer, offset and destination:
fuel equal to the struct-nesting depth of the destination is enough and more fuel
changes nothing, so the nesting of the calls is at most that depth; `Decode` always
returns; and an entry loop is entered only for a header count `N` with
`N ≤ (len(data) - o) / 2 ≤ len(data) / 2`, and starts at most `N` iterations. -/
theorem C17_termination (data : List Byte) :
    (∀ (rv : Value) (off : Nat), ∃ res, decode rv.depth data rv off = some res) ∧
    (∀ (fuel : Nat) (rv : Value) (off : Nat), rv.depth ≤ fuel →
      decode fuel data rv off = decode rv.depth data rv off) ∧
    (∀ v : Holder, ∃ res, Decode data v = some res) ∧
    (∀ (off N o : Nat) (k : Kind), mapLength data off k = .ok (N, o) →
      hasRequiredLeastMapSize data o N = .ok () →
      N ≤ (data.length - o) / 2 ∧ (data.length - o) / 2 ≤ data.length / 2) ∧
    (∀ (off N o : Nat) (k : Kind) (dec : Value → Nat → Option (Value × Ret Nat))
      (fs : List (FieldInfo × Value)), mapLength data off k = .ok (N, o) →
      hasRequiredLeastMapSize data o N = .error .mapLack →
      setStruct dec data fs off k = some (fs, .error .mapLack)) ∧
    (∀ (dec : Value → Nat → Option (Value × Ret Nat)) (tm : typeMap) (k : Kind) (N : Nat)
      (fs : List (FieldInfo × Value)) (o : Nat), entryIters dec data tm k N fs o ≤ N) := by
  refine ⟨?_, ?_, ?_, ?_, ?_, ?_⟩
  · intro rv off
    exact decode_total rv.depth data rv off (le_refl _)
  · intro fuel rv off h
    exact decode_fuel_stable fuel data rv off h
  · intro v
    exact Decode_total data v
  · intro off N o k _ hq
    obtain ⟨_, hge⟩ := hasRequiredLeastMapSize_ok hq
    constructor
    · omega
    · apply Nat.div_le_div_right; omega
  · intro off N o k dec fs hm hq
    simp only [setStruct, hm, hq]
  · intro dec tm k N fs o
    exact entryIters_le dec data tm k N fs o

/-- C17 at a concrete input: a Map32 header that claims 2^32 - 1 entries in a buffer
of 7 bytes is rejected by the pre-check. -/
theorem C17_termination_witness :
    mapLength [0xdf, 0xff, 0xff, 0xff, 0xff, 0xa1, 0x41] 0 Kind.struct = .ok (4294967295, 5) ∧
    setStruct (decode 1 [0xdf, 0xff, 0xff, 0xff, 0xff, 0xa1, 0x41])
        [0xdf, 0xff, 0xff, 0xff, 0xff, 0xa1, 0x41] [(⟨0x41, [], []⟩, .int .int64 0)] 0
        Kind.struct
      = some ([(⟨0x41, [], []⟩, .int .int64 0)], .error .mapLack) :=
  ⟨rfl, (C17_termination [0xdf, 0xff, 0xff, 0xff, 0xff, 0xa1, 0x41]).2.2.2.2.1 0 4294967295 5
    Kind.struct (decode 1 [0xdf, 0xff, 0xff, 0xff, 0xff, 0xa1, 0x41])
    [(⟨0x41, [], []⟩, .int .int64 0)] rfl rfl⟩

/-- C18: for every struct value `fs` of the supported subset (int64, string and nested
struct fields, all participating, key names of pairwise distinct byte lengths at every
level) and every map encoding of it (`planOk`: any able header form, one entry per field
in any order, any able integer width and string form), `Decode` of the encoding into a
pointer to the zero value returns nil and leaves the destination equal to the value. -/
theorem C18_round_trip_distinct_key_lengths (p : Plan) (fs : List (FieldInfo × Value))
    (h : planOk p (.struct fs) = true) :
    Decode (encodeWith p (.struct fs)) (.ptr (Value.struct fs).zero)
      = some (.ptr (.struct fs), .ok ()) := by
  have hpos := encodeWith_pos p (.struct fs) h
  have hd := decode_encoded (Value.struct fs).zero.depth p (.struct fs) (Value.struct fs).zero
    (encodeWith p (.struct fs)) [] [] (by simp) h (zero_zero _) (le_of_eq (depth_zero _).symm)
  simp only [List.length_nil, Nat.zero_add] at hd
  have hl : ¬ (encodeWith p (Value.struct fs)).length < 1 := by omega
  simp only [Decode, hl, if_false, hd, ne_eq, not_true_eq_false]

/-- C18 at a concrete input: `nestedRecord` encoded under `nestedPlan`, the nested
struct first, decoded into its zero value. -/
theorem C18_round_trip_distinct_key_lengths_witness :
    planOk nestedPlan (.struct nestedRecord) = true ∧
    Decode (encodeWith nestedPlan (.struct nestedRecord))
        (.ptr (Value.struct nestedRecord).zero)
      = some (.ptr (.struct nestedRecord), .ok ()) :=
  ⟨by decide, C18_round_trip_distinct_key_lengths nestedPlan nestedRecord (by decide)⟩

/-- C19: on an integer destination of any signed kind, of `bits` bits, a buffer that
holds an Int8/16/32/64 code followed by the big-endian two's-complement bytes of `v`
makes the dispatcher succeed, consume the code and the payload, and store the value
of `[-2^(bits-1), 2^(bits-1))` congruent to `v` modulo `2^bits`, the only such
value; it is `v` itself when `v` is in that range.  No overflow is reported. -/
theorem C19_narrow_int_wraps (k : IntKind) (w : Nat) (hw : w = 1 ∨ w = 2 ∨ w = 4 ∨ w = 8)
    (v : Int) (hlo : -(2 : Int) ^ (8 * w - 1) ≤ v) (hhi : v < (2 : Int) ^ (8 * w - 1))
    (code : Byte) (hcode : code.val = intCode w) (pre post : List Byte) (x : Int)
    (fuel : Nat) :
    decode (fuel + 1) (pre ++ code :: (twosComplement w v ++ post)) (.int k x) pre.length
      = some (.int k (toSigned k.bits v), .ok (pre.length + 1 + w)) ∧
    (-(2 : Int) ^ (k.bits - 1) ≤ toSigned k.bits v ∧
      toSigned k.bits v < (2 : Int) ^ (k.bits - 1)) ∧
    toSigned k.bits v % 2 ^ k.bits = v % 2 ^ k.bits ∧
    (∀ y : Int, -(2 : Int) ^ (k.bits - 1) ≤ y → y < (2 : Int) ^ (k.bits - 1) →
      y % 2 ^ k.bits = v % 2 ^ k.bits → y = toSigned k.bits v) ∧
    (-(2 : Int) ^ (k.bits - 1) ≤ v → v < (2 : Int) ^ (k.bits - 1) → toSigned k.bits v = v) := by
  refine ⟨?_, toSigned_range k.bits k.bits_pos v, toSigned_congr k.bits v, ?_, ?_⟩
  · simp only [decode, asInt_encoded w hw v hlo hhi code hcode pre post k.toKind]
  · intro y h1 h2 h3
    exact toSigned_unique k.bits k.bits_pos v y h1 h2 h3
  · intro h1 h2
    exact toSigned_id k.bits k.bits_pos v h1 h2

/-- C19 at a concrete input: the Int16-coded value 300 stored into an int8 is 44. -/
theorem C19_narrow_int_wraps_witness :
    ((2 : Nat) = 1 ∨ (2 : Nat) = 2 ∨ (2 : Nat) = 4 ∨ (2 : Nat) = 8) ∧
    twosComplement 2 300 = [0x01, 0x2c] ∧ toSigned IntKind.int8.bits 300 = 44 ∧
    decode (0 + 1) ([] ++ (0xd1 : Byte) :: (twosComplement 2 300 ++ [])) (.int .int8 0)
        ([] : List Byte).length
      = some (.int .int8 (toSigned IntKind.int8.bits 300),
          .ok (([] : List Byte).length + 1 + 2)) :=
  ⟨by decide, by decide, by decide,
   (C19_narrow_int_wraps .int8 2 (by decide) 300 (by decide) (by decide) 0xd1 (by decide)
     [] [] 0 0).1⟩

/-- C20: on a pointer destination, when the dispatcher
succeeds with an offset `o` short of the length of the buffer, `Decode` returns the
error "failed deserialization size=.., last=.." and the destination holds the value
the dispatcher stored, which is the value `Decode` gives with a nil error on the
first `o` bytes alone; the destination is not put back to what it was. -/
theorem C20_size_mismatch_not_atomic (data : List Byte) (rv rv2 : Value) (o : Nat)
    (h : decode rv.depth data rv 0 = some (rv2, .ok o)) (ho : o < data.length) :
    Decode data (.ptr rv) = some (.ptr rv2, .error (.sizeMismatch data.length o)) ∧
    Decode (data.take o) (.ptr rv) = some (.ptr rv2, .ok ()) := by
  have hlen : ¬ data.length < 1 := by omega
  have hb := (decode_window rv.depth data rv 0 rv2 o h).1
  constructor
  · have ho2 : data.length ≠ o := by omega
    simp only [Decode, hlen, if_false, h, ne_eq, ho2, not_false_eq_true, if_true]
  · have ht := decode_take rv.depth data rv rv2 0 o h
    have hl1 : (data.take o).length = o := by simp only [List.length_take]; omega
    have hl2 : ¬ o < 1 := by omega
    simp only [Decode, hl1, hl2, if_false, ht, ne_eq, not_true_eq_false]

/-- C20 at the input of the claim: `d0 05 00` decoded into an int64 that held 9. -/
theorem C20_size_mismatch_not_atomic_witness :
    decode (Value.int .int64 9).depth [0xd0, 0x05, 0x00] (.int .int64 9) 0
      = some (.int .int64 5, .ok 2) ∧
    2 < ([0xd0, 0x05, 0x00] : List Byte).length ∧
    Decode [0xd0, 0x05, 0x00] (.ptr (.int .int64 9))
      = some (.ptr (.int .int64 5), .error (.sizeMismatch 3 2)) :=
  ⟨rfl, by decide,
   (C20_size_mismatch_not_atomic [0xd0, 0x05, 0x00] (.int .int64 9) (.int .int64 5) 2
     rfl (by decide)).1⟩

end Jmp
